import Mathlib

/-!
Verification of the anti-truncation streaming proxy (`app/` package).

Modelling conventions of this shallow embedding:

* Python `str` values are modelled as `List Char` (Python strings are
  sequences of Unicode code points, as are Lean `Char` lists).  Byte
  strings that the code immediately decodes as UTF-8 are also modelled
  as `List Char`; the `errors="ignore"` / decode-failure paths of the
  source return the chunk unchanged, which the model preserves.
* JSON trees (`json.loads` results) are the inductive `JVal`; Python
  dicts are association lists in insertion order (JSON objects parsed
  by `json.loads` have unique keys, and `json.dumps` re-serializes in
  that order).  `jdumps` models `json.dumps(..., ensure_ascii=False)`
  with the default separators.
* An SSE chunk is the inductive `Chunk`: `Chunk.data j` stands for a
  single-record chunk whose bytes are exactly `data: ` ++ `jdumps j` ++
  two newlines (the canonical serialization, which is also what the code
  itself emits after a rewrite); `Chunk.event name j` stands for the
  Claude two-line framing (`event: name`, newline, `data: ` ++ `jdumps j`,
  two newlines, with `name` free of newlines and surrounding blanks);
  `Chunk.opaque s` stands for any other byte sequence - in particular
  every chunk whose payload is not JSON-parseable (empty chunks,
  comments, `data: [DONE]`, multi-record chunks, malformed JSON).
  Python-level exceptions inside the parsers are modelled by
  `Option`/`Except` with `none`/`.error` flowing to the source's
  `except` handlers.
-/

/-- Convert a string literal to the `List Char` text representation. -/
def txt (s : String) : List Char := s.data

/-- Python `s[-k:] if k > 0 else ""`: the last `k` characters of `s`
(the whole string when `k` is at least its length, empty when `k = 0`). -/
def takeLast (k : Nat) (s : List Char) : List Char :=
  if k = 0 then [] else s.drop (s.length - k)

/-- Python whitespace recognized by `str.strip()` (the ASCII part,
which is all the source's chunks use). -/
def isPySpace (c : Char) : Bool :=
  c = ' ' ∨ c = '\t' ∨ c = '\n' ∨ c = '\r' ∨ c = '\x0b' ∨ c = '\x0c'

/-- Python `str.strip()`: remove leading and trailing whitespace. -/
def pyStrip (s : List Char) : List Char :=
  ((s.dropWhile isPySpace).reverse.dropWhile isPySpace).reverse

/-- Python `needle in haystack` substring test. -/
def pyIn (needle haystack : List Char) : Prop := needle <:+: haystack

instance (n h : List Char) : Decidable (pyIn n h) := by
  unfold pyIn; infer_instance

/-- Python `s.startswith(p)`. -/
def pyStarts (p s : List Char) : Prop := p <+: s

instance (p s : List Char) : Decidable (pyStarts p s) := by
  unfold pyStarts; infer_instance

/-- Python `s.replace(m, "")`: remove every occurrence of `m` from `s`,
scanning left to right over non-overlapping matches.  For `m = ""`
Python returns `s` unchanged (matching `"x".replace("", "") == "x"`). -/
def pyRemoveAllFuel (m : List Char) : Nat → List Char → List Char
  | 0, s => s
  | _ + 1, [] => []
  | fuel + 1, c :: rest =>
    if m ≠ [] ∧ m <+: (c :: rest) then
      pyRemoveAllFuel m fuel (rest.drop (m.length - 1))
    else
      c :: pyRemoveAllFuel m fuel rest

/-- Python `s.replace(m, "")` (see `pyRemoveAllFuel`; the fuel `s.length`
always suffices because each step consumes at least one character). -/
def pyRemoveAll (m s : List Char) : List Char := pyRemoveAllFuel m s.length s

/-- JSON values as produced by `json.loads`: objects are association
lists in insertion order with unique keys. -/
inductive JVal where
  | null : JVal
  | bool (b : Bool) : JVal
  | num (n : Int) : JVal
  | str (s : List Char) : JVal
  | arr (xs : List JVal) : JVal
  | obj (fs : List (List Char × JVal)) : JVal

instance : Nonempty JVal := ⟨JVal.null⟩

instance : Nonempty (List (List Char × JVal)) := ⟨[]⟩

instance : Nonempty (List JVal) := ⟨[]⟩

/-- Python truthiness of a JSON value (`if content:` in the parsers):
nonempty strings, nonzero numbers, `True`, nonempty lists/dicts. -/
def jTruthy : JVal → Bool
  | .null => false
  | .bool b => b
  | .num n => n != 0
  | .str s => !s.isEmpty
  | .arr xs => !xs.isEmpty
  | .obj fs => !fs.isEmpty

/-- Python `d.get(k)` on a dict modelled as an association list. -/
def jGet (fs : List (List Char × JVal)) (k : List Char) : Option JVal :=
  (fs.find? (fun f => f.1 = k)).map (·.2)

/-- Python `d[k] = v` on a dict whose key `k` is already present:
replace the value in place, keeping insertion order. -/
def jSet (fs : List (List Char × JVal)) (k : List Char) (v : JVal) :
    List (List Char × JVal) :=
  fs.map (fun f => if f.1 = k then (k, v) else f)

/-- JSON string escaping as done by `json.dumps(..., ensure_ascii=False)`:
backslash, double quote and ASCII control characters are escaped, all
other characters (ASCII or not) are emitted verbatim. -/
def escChar (c : Char) : List Char :=
  if c = '\\' then ['\\', '\\']
  else if c = '"' then ['\\', '"']
  else if c = '\n' then ['\\', 'n']
  else if c = '\t' then ['\\', 't']
  else if c = '\r' then ['\\', 'r']
  else if c = '\x08' then ['\\', 'b']
  else if c = '\x0c' then ['\\', 'f']
  else if c.toNat < 32 then
    let hex : Nat → Char := fun n =>
      if n < 10 then Char.ofNat ('0'.toNat + n) else Char.ofNat ('a'.toNat + (n - 10))
    ['\\', 'u', '0', '0', hex (c.toNat / 16), hex (c.toNat % 16)]
  else [c]

/-- Escape a whole string for JSON serialization. -/
def escStr (s : List Char) : List Char := s.flatMap escChar

/-- Render an integer in decimal, as `json.dumps` does for `int`. -/
def dumpInt (n : Int) : List Char := txt (toString n)

mutual

/-- Model of `json.dumps(v, ensure_ascii=False)` with the default
separators (`", "` between items, `": "` after keys). -/
def jdumps : JVal → List Char
  | .null => txt "null"
  | .bool b => if b then txt "true" else txt "false"
  | .num n => dumpInt n
  | .str s => '"' :: (escStr s ++ ['"'])
  | .arr xs => '[' :: (jdumpsArr xs ++ [']'])
  | .obj fs => '{' :: (jdumpsObj fs ++ ['}'])

/-- Serialize array elements, comma-separated. -/
def jdumpsArr : List JVal → List Char
  | [] => []
  | [x] => jdumps x
  | x :: y :: rest => jdumps x ++ (',' :: ' ' :: jdumpsArr (y :: rest))

/-- Serialize object fields, comma-separated, `": "` after each key. -/
def jdumpsObj : List (List Char × JVal) → List Char
  | [] => []
  | [f] => ('"' :: (escStr f.1 ++ ['"', ':', ' '])) ++ jdumps f.2
  | f :: g :: rest =>
      ('"' :: (escStr f.1 ++ ['"', ':', ' '])) ++ jdumps f.2 ++
        (',' :: ' ' :: jdumpsObj (g :: rest))

end

/-- SSE chunks, in the representation described in the file header
(`raw` is the constructor for unparseable byte sequences). -/
inductive Chunk where
  | raw (s : List Char) : Chunk
  | data (j : JVal) : Chunk
  | event (name : List Char) (j : JVal) : Chunk

/-- The byte sequence of a chunk (decoded as text). -/
def Chunk.bytes : Chunk → List Char
  | .raw s => s
  | .data j => txt "data: " ++ jdumps j ++ ['\n', '\n']
  | .event name j =>
      txt "event: " ++ name ++ ('\n' :: txt "data: ") ++ jdumps j ++ ['\n', '\n']

example : pyRemoveAll (txt "ab") (txt "aabb") = txt "ab" := by decide
example : pyRemoveAll (txt "[done]") (txt "[do[done]ne]") = txt "[done]" := by decide
example : pyRemoveAll (txt "") (txt "xy") = txt "xy" := by decide
example : takeLast 2 (txt "abcd") = txt "cd" := by decide
example : pyStrip (txt "  data: [DONE]\n\n") = txt "data: [DONE]" := by decide
example :
    jdumps (.obj [(txt "a", .str (txt "b\"c"))]) =
      '\x7b' :: (txt "\"a\": \"b\\\"c\"" ++ ['\x7d']) := by
  decide

/-! ### OpenAI SSE format (`app/parsers/openai_sse.py`) -/

/-- Inner loop of `OpenAISSEParser.parse_chunk` (lines 49-55): scan
`choices` for the first choice whose `delta.content` is truthy.  `none`
extends to both "loop finished without a truthy content" and the
exception paths (`choice.get`/`delta.get` raising on non-dicts), since
both end in `return None, chunk` of the source. -/
def openai_find_content : List JVal → Option JVal
  | [] => none
  | JVal.obj cfs :: rest =>
    match (jGet cfs (txt "delta")).getD (JVal.obj []) with
    | JVal.obj dfs =>
      match jGet dfs (txt "content") with
      | some v => if jTruthy v then some v else openai_find_content rest
      | none => openai_find_content rest
    | _ => none
  | _ :: _ => none

/-- Model of the JSON part of `OpenAISSEParser.parse_chunk`: extract
`choices[*].delta.content`.  Iterating a non-list `choices` either does
nothing (empty string/dict) or raises on the first element; both end in
`None` like the `for` loop falling through. -/
def openai_extract (j : JVal) : Option JVal :=
  match j with
  | JVal.obj fs =>
    match jGet fs (txt "choices") with
    | some (JVal.arr xs) => openai_find_content xs
    | _ => none
  | _ => none

/-- `OpenAISSEParser.parse_chunk` (lines 14-65): skip blank and comment
chunks, skip `data: [DONE]`, then read the JSON payload of a `data: `
record and extract the first truthy `choices[*].delta.content`. -/
def openai_parse_chunk (c : Chunk) : Option JVal :=
  let text := c.bytes
  if pyStrip text = [] then none
  else if pyStarts [':'] (pyStrip text) then none
  else if pyIn (txt "data: [DONE]") text then none
  else if pyStarts (txt "data: ") text then
    match c with
    | Chunk.data j => openai_extract j
    | _ => none
  else none

/-- One choice of the strip loop of `OpenAISSEParser.strip_done_marker`
(lines 95-103): result is `(updated choice, modified?)`; `none` is a
Python exception escaping to the outer handler (`"content" in delta` on
a non-container, `delta["content"]` on a string/list containing the key,
`done_marker in content` on a non-string content, `choice.get` on a
non-dict choice). -/
def openai_strip_choice (marker : List Char) : JVal → Option (JVal × Bool)
  | JVal.obj cfs =>
    match (jGet cfs (txt "delta")).getD (JVal.obj []) with
    | JVal.obj dfs =>
      match jGet dfs (txt "content") with
      | some (JVal.str s) =>
        if pyIn marker s then
          some (JVal.obj (jSet cfs (txt "delta")
            (JVal.obj (jSet dfs (txt "content") (JVal.str (pyRemoveAll marker s))))), true)
        else some (JVal.obj cfs, false)
      | some _ => none
      | none => some (JVal.obj cfs, false)
    | JVal.str s => if pyIn (txt "content") s then none else some (JVal.obj cfs, false)
    | JVal.arr xs =>
        if xs.any (fun x => match x with | JVal.str s => s = txt "content" | _ => false)
        then none else some (JVal.obj cfs, false)
    | _ => none
  | _ => none

/-- Fold `openai_strip_choice` over the `choices` list, or-ing the
`modified` flags; the first exception aborts the whole strip. -/
def openai_strip_choices (marker : List Char) : List JVal → Option (List JVal × Bool)
  | [] => some ([], false)
  | c :: rest =>
    match openai_strip_choice marker c, openai_strip_choices marker rest with
    | some (c2, m1), some (rest2, m2) => some (c2 :: rest2, m1 || m2)
    | _, _ => none

/-- JSON part of `OpenAISSEParser.strip_done_marker` (lines 90-109):
rewrite every `choices[*].delta.content` containing the marker, report
whether anything was modified; `none` is an exception reaching the outer
handler. -/
def openai_strip_json (marker : List Char) (j : JVal) : Option (JVal × Bool) :=
  match j with
  | JVal.obj fs =>
    match jGet fs (txt "choices") with
    | some (JVal.arr xs) =>
      (openai_strip_choices marker xs).map
        (fun p => (JVal.obj (jSet fs (txt "choices") (JVal.arr p.1)), p.2))
    | some (JVal.str s) => if s.isEmpty then some (j, false) else none
    | some (JVal.obj gs) => if gs.isEmpty then some (j, false) else none
    | some _ => none
    | none => some (j, false)
  | _ => none

/-- `OpenAISSEParser.strip_done_marker` (lines 67-118): return the chunk
unchanged unless its raw text contains the marker and it is a `data: `
record whose JSON parses and whose loop modified a content field; in
that case re-serialize as `data: ` ++ json ++ two newlines. -/
def openai_strip_done_marker (c : Chunk) (marker : List Char) : Chunk :=
  let text := c.bytes
  if ¬ pyIn marker text then c
  else if pyStarts (txt "data: ") text then
    match c with
    | Chunk.data j =>
      match openai_strip_json marker j with
      | some (j2, true) => Chunk.data j2
      | some (_, false) => c
      | none => c
    | _ => c
  else c

/-! ### Gemini SSE format (`app/parsers/gemini_sse.py`) -/

/-- Inner part loop of `GeminiSSEParser.parse_chunk` (lines 53-57):
first truthy `text` among the parts; `.error` is a raised exception
(`part.get` on a non-dict part). -/
def gemini_find_part : List JVal → Except Unit (Option JVal)
  | [] => Except.ok none
  | JVal.obj pfs :: rest =>
    match jGet pfs (txt "text") with
    | some v => if jTruthy v then Except.ok (some v) else gemini_find_part rest
    | none => gemini_find_part rest
  | _ :: _ => Except.error ()

/-- Candidate loop of `GeminiSSEParser.parse_chunk` (lines 49-57): for
each candidate, scan `content.parts`; a candidate without a truthy part
falls through to the next candidate.  `none` covers both loop
fall-through and exceptions (which the outer handler turns into
`return None, chunk` as well). -/
def gemini_find_cand : List JVal → Option JVal
  | [] => none
  | JVal.obj cfs :: rest =>
    match (jGet cfs (txt "content")).getD (JVal.obj []) with
    | JVal.obj cofs =>
      match jGet cofs (txt "parts") with
      | some (JVal.arr ps) =>
        match gemini_find_part ps with
        | Except.ok (some v) => some v
        | Except.ok none => gemini_find_cand rest
        | Except.error _ => none
      | some (JVal.str s) => if s.isEmpty then gemini_find_cand rest else none
      | some (JVal.obj gs) => if gs.isEmpty then gemini_find_cand rest else none
      | some _ => none
      | none => gemini_find_cand rest
    | _ => none
  | _ :: _ => none

/-- Model of the JSON part of `GeminiSSEParser.parse_chunk`: extract the
first truthy `candidates[*].content.parts[*].text`. -/
def gemini_extract (j : JVal) : Option JVal :=
  match j with
  | JVal.obj fs =>
    match jGet fs (txt "candidates") with
    | some (JVal.arr xs) => gemini_find_cand xs
    | _ => none
  | _ => none

/-- `GeminiSSEParser.parse_chunk` (lines 14-67): identical framing checks
to the OpenAI parser, different JSON path. -/
def gemini_parse_chunk (c : Chunk) : Option JVal :=
  let text := c.bytes
  if pyStrip text = [] then none
  else if pyStarts [':'] (pyStrip text) then none
  else if pyIn (txt "data: [DONE]") text then none
  else if pyStarts (txt "data: ") text then
    match c with
    | Chunk.data j => gemini_extract j
    | _ => none
  else none

/-- One part of the strip loop of `GeminiSSEParser.strip_done_marker`
(lines 100-107): `(updated part, modified?)`, `none` for a raised
exception (`"text" in part` on a non-container, `part["text"]` lookups
on strings/lists, `done_marker in part_text` on a non-string text). -/
def gemini_strip_part (marker : List Char) : JVal → Option (JVal × Bool)
  | JVal.obj pfs =>
    match jGet pfs (txt "text") with
    | some (JVal.str s) =>
      if pyIn marker s then
        some (JVal.obj (jSet pfs (txt "text") (JVal.str (pyRemoveAll marker s))), true)
      else some (JVal.obj pfs, false)
    | some _ => none
    | none => some (JVal.obj pfs, false)
  | JVal.str s => if pyIn (txt "text") s then none else some (JVal.str s, false)
  | JVal.arr xs =>
      if xs.any (fun x => match x with | JVal.str s => s = txt "text" | _ => false)
      then none else some (JVal.arr xs, false)
  | _ => none

/-- Fold `gemini_strip_part` over a `parts` list. -/
def gemini_strip_parts (marker : List Char) : List JVal → Option (List JVal × Bool)
  | [] => some ([], false)
  | p :: rest =>
    match gemini_strip_part marker p, gemini_strip_parts marker rest with
    | some (p2, m1), some (rest2, m2) => some (p2 :: rest2, m1 || m2)
    | _, _ => none

/-- One candidate of the strip loop of `GeminiSSEParser.strip_done_marker`
(lines 96-107): rewrite the candidate's `content.parts`.  A missing
`content` or `parts` defaults to a fresh empty container, so nothing is
written back in that case (mirroring the in-place mutation of the
source, which only ever touches part dicts already in the tree). -/
def gemini_strip_cand (marker : List Char) : JVal → Option (JVal × Bool)
  | JVal.obj cfs =>
    match (jGet cfs (txt "content")).getD (JVal.obj []) with
    | JVal.obj cofs =>
      match jGet cofs (txt "parts") with
      | some (JVal.arr ps) =>
        (gemini_strip_parts marker ps).map (fun p =>
          (JVal.obj (jSet cfs (txt "content")
            (JVal.obj (jSet cofs (txt "parts") (JVal.arr p.1)))), p.2))
      | some (JVal.str s) => if s.isEmpty then some (JVal.obj cfs, false) else none
      | some (JVal.obj gs) => if gs.isEmpty then some (JVal.obj cfs, false) else none
      | some _ => none
      | none => some (JVal.obj cfs, false)
    | _ => none
  | _ => none

/-- Fold `gemini_strip_cand` over the `candidates` list. -/
def gemini_strip_cands (marker : List Char) : List JVal → Option (List JVal × Bool)
  | [] => some ([], false)
  | c :: rest =>
    match gemini_strip_cand marker c, gemini_strip_cands marker rest with
    | some (c2, m1), some (rest2, m2) => some (c2 :: rest2, m1 || m2)
    | _, _ => none

/-- JSON part of `GeminiSSEParser.strip_done_marker` (lines 92-113). -/
def gemini_strip_json (marker : List Char) (j : JVal) : Option (JVal × Bool) :=
  match j with
  | JVal.obj fs =>
    match jGet fs (txt "candidates") with
    | some (JVal.arr xs) =>
      (gemini_strip_cands marker xs).map
        (fun p => (JVal.obj (jSet fs (txt "candidates") (JVal.arr p.1)), p.2))
    | some (JVal.str s) => if s.isEmpty then some (j, false) else none
    | some (JVal.obj gs) => if gs.isEmpty then some (j, false) else none
    | some _ => none
    | none => some (j, false)
  | _ => none

/-- `GeminiSSEParser.strip_done_marker` (lines 69-122). -/
def gemini_strip_done_marker (c : Chunk) (marker : List Char) : Chunk :=
  let text := c.bytes
  if ¬ pyIn marker text then c
  else if pyStarts (txt "data: ") text then
    match c with
    | Chunk.data j =>
      match gemini_strip_json marker j with
      | some (j2, true) => Chunk.data j2
      | some (_, false) => c
      | none => c
    | _ => c
  else c

/-! ### Claude SSE format (`app/parsers/claude_sse.py`) -/

/-- JSON part of `ClaudeSSEParser.parse_chunk` (lines 56-65): extract a
truthy `delta.text` of a `content_block_delta` event. -/
def claude_extract (j : JVal) : Option JVal :=
  match j with
  | JVal.obj fs =>
    match (jGet fs (txt "delta")).getD (JVal.obj []) with
    | JVal.obj dfs =>
      match jGet dfs (txt "text") with
      | some v => if jTruthy v then some v else none
      | none => none
    | _ => none
  | _ => none

/-- `ClaudeSSEParser.parse_chunk` (lines 14-75): skip blank/comment
chunks and the terminator events, then read the `event: `/`data: ` line
pair and extract `delta.text` of a `content_block_delta` event.  Chunks
outside the two-line `event`/`data` framing scan to an event type other
than `content_block_delta` or to no JSON data line and yield `None`;
they are covered by the `raw`/`data` constructors. -/
def claude_parse_chunk (c : Chunk) : Option JVal :=
  let text := c.bytes
  if pyStrip text = [] then none
  else if pyStarts [':'] (pyStrip text) then none
  else if pyIn (txt "event: message_stop") text ∨ pyIn (txt "event: done") text then none
  else
    match c with
    | Chunk.event name j =>
      if name = txt "content_block_delta" then claude_extract j else none
    | _ => none

/-- JSON part of `ClaudeSSEParser.strip_done_marker` (lines 113-131):
`some (some j2)` rewrites the delta text, `some none` leaves the chunk
alone (no marker inside `delta.text`), `none` is a raised exception
reaching one of the handlers (both of which return the chunk). -/
def claude_strip_json (marker : List Char) (j : JVal) : Option (Option JVal) :=
  match j with
  | JVal.obj fs =>
    match (jGet fs (txt "delta")).getD (JVal.obj []) with
    | JVal.obj dfs =>
      match jGet dfs (txt "text") with
      | some (JVal.str s) =>
        if pyIn marker s then
          some (some (JVal.obj (jSet fs (txt "delta")
            (JVal.obj (jSet dfs (txt "text") (JVal.str (pyRemoveAll marker s)))))))
        else some none
      | some _ => none
      | none => some none
    | JVal.str s => if pyIn (txt "text") s then none else some none
    | JVal.arr xs =>
        if xs.any (fun x => match x with | JVal.str s => s = txt "text" | _ => false)
        then none else some none
    | _ => none
  | _ => none

/-- `ClaudeSSEParser.strip_done_marker` (lines 77-140): only a
`content_block_delta` event whose `delta.text` contains the marker is
rewritten (re-serializing just the `data: ` line); everything else is
returned byte-identical. -/
def claude_strip_done_marker (c : Chunk) (marker : List Char) : Chunk :=
  let text := c.bytes
  if ¬ pyIn marker text then c
  else
    match c with
    | Chunk.event name j =>
      if name = txt "content_block_delta" then
        match claude_strip_json marker j with
        | some (some j2) => Chunk.event name j2
        | some none => c
        | none => c
      else c
    | _ => c

/-! ### Anti-truncation engine (`app/streaming.py`) -/

/-- The `ProtocolType` enum. -/
inductive Protocol where
  | openai | gemini | claude
deriving DecidableEq

/-- Parser dispatch of `StreamingAntiTruncationProcessor.__init__`
(lines 74-82): `self.parser.parse_chunk`. -/
def parse_chunk_for (p : Protocol) (c : Chunk) : Option JVal :=
  match p with
  | Protocol.openai => openai_parse_chunk c
  | Protocol.gemini => gemini_parse_chunk c
  | Protocol.claude => claude_parse_chunk c

/-- Parser dispatch for `self.parser.strip_done_marker`. -/
def strip_done_marker_for (p : Protocol) (c : Chunk) (marker : List Char) : Chunk :=
  match p with
  | Protocol.openai => openai_strip_done_marker c marker
  | Protocol.gemini => gemini_strip_done_marker c marker
  | Protocol.claude => claude_strip_done_marker c marker

/-- Mutable state of `StreamingAntiTruncationProcessor` (lines 66-85). -/
structure EState where
  collected_text : List Char
  done_marker_found : Bool
  done_marker_tail : List Char
  attempt : Nat
  client_disconnected : Bool

/-- Initial processor state (`__init__`). -/
def initEState : EState :=
  { collected_text := [], done_marker_found := false, done_marker_tail := [],
    attempt := 0, client_disconnected := false }

/-- `StreamingAntiTruncationProcessor._update_done_marker_state`
(lines 106-123): cross-chunk detection of the done marker.  Returns the
new state and whether this delta triggered detection.  `max(0, len-1)`
is the truncated subtraction on `Nat`; `combined[-keep:] if keep > 0
else ""` is `takeLast`. -/
def update_done_marker_state (marker : List Char) (st : EState)
    (delta_text : List Char) : EState × Bool :=
  if delta_text = [] then (st, false)
  else if pyIn marker (st.done_marker_tail ++ delta_text) then
    ({ st with done_marker_found := true }, true)
  else
    ({ st with done_marker_tail :=
        takeLast (marker.length - 1) (st.done_marker_tail ++ delta_text) }, false)

/-- `self.retryable_upstream_status_codes` (lines 88-96). -/
def retryable_upstream_status_codes : List Nat := [408, 425, 429, 500, 502, 503, 504]

/-- How the chunk loop of one attempt ended: upstream exhaustion
(`StopAsyncIteration`), the `data: [DONE]` suppression break (line 272),
the marker break (lines 299-300), or a `TypeError` raised by
`collected_text += delta_text` on a truthy non-string delta. -/
inductive ChunkExit where
  | ranOut | sentinelBreak | markerBreak | crashed
deriving DecidableEq

/-- The chunk loop of one attempt (`process_stream` lines 184-300),
with the waiting/keepalive machinery abstracted away (modelled
separately by `wait_iteration`): the sequence of upstream chunks is
given, and for each one the loop runs the `[DONE]` suppression check,
the parser, the marker detector, and yields the stripped chunk, breaking
once the marker has been found.  Returns final state, yielded chunks,
and how the loop exited. -/
def run_chunks (p : Protocol) (marker : List Char) (st : EState) :
    List Chunk → EState × List Chunk × ChunkExit
  | [] => (st, [], ChunkExit.ranOut)
  | c :: rest =>
    if p = Protocol.openai ∧ pyStrip c.bytes = txt "data: [DONE]" then
      (st, [], ChunkExit.sentinelBreak)
    else
      match parse_chunk_for p c with
      | some (JVal.str s) =>
        let st1 := { st with collected_text := st.collected_text ++ s }
        let st2 := (update_done_marker_state marker st1 s).1
        let out := strip_done_marker_for p c marker
        if st2.done_marker_found then (st2, [out], ChunkExit.markerBreak)
        else
          let r := run_chunks p marker st2 rest
          (r.1, out :: r.2.1, r.2.2)
      | some _ => (st, [], ChunkExit.crashed)
      | none =>
        let out := strip_done_marker_for p c marker
        if st.done_marker_found then (st, [out], ChunkExit.markerBreak)
        else
          let r := run_chunks p marker st rest
          (r.1, out :: r.2.1, r.2.2)

/-- How upstream ends one attempt when the chunk loop runs out:
clean EOF, an `httpx.HTTPStatusError` with the response status (raised
by `UpstreamClient.stream_request` on status >= 400), an
`httpx.RequestError` (transport failure), or the idle-timeout
`RuntimeError("upstream_idle_timeout_for_retry")` raised by the wait
loop. -/
inductive AttemptEnd where
  | eof
  | statusError (code : Nat) (msg : List Char)
  | requestError (msg : List Char)
  | idleRetry

/-- The upstream behaviour of one attempt: the chunks delivered, then
how the stream ended. -/
structure Attempt where
  chunks : List Chunk
  ending : AttemptEnd

/-- Records the engine emits downstream: a forwarded (stripped) chunk,
an SSE comment (the text after the leading colon), the synthetic
`data: [DONE]` record, or a `data: ` error event carrying a JSON
object. -/
inductive Out where
  | forwarded (c : Chunk)
  | comment (s : List Char)
  | doneSentinel
  | errorEvent (j : JVal)

/-- The `[DONE]` records appended for the OpenAI protocol only. -/
def doneIf (p : Protocol) : List Out :=
  if p = Protocol.openai then [Out.doneSentinel] else []

/-- The `upstream_error` event of lines 380-386 (field order is dict
insertion order; `status_code` is the response status, always present
on the errors `stream_request` raises). -/
def upstream_error_event (code : Nat) (msg : List Char) (attempt : Nat)
    (rid : List Char) : JVal :=
  JVal.obj [(txt "error", JVal.str (txt "upstream_error")),
            (txt "status_code", JVal.num code),
            (txt "message", JVal.str msg),
            (txt "attempt", JVal.num attempt),
            (txt "request_id", JVal.str rid)]

/-- The `upstream_request_error` event of lines 410-415. -/
def upstream_request_error_event (msg : List Char) (attempt : Nat)
    (rid : List Char) : JVal :=
  JVal.obj [(txt "error", JVal.str (txt "upstream_request_error")),
            (txt "message", JVal.str msg),
            (txt "attempt", JVal.num attempt),
            (txt "request_id", JVal.str rid)]

/-- The `streaming_error` event of lines 428-433. -/
def streaming_error_event (msg : List Char) (attempt : Nat)
    (rid : List Char) : JVal :=
  JVal.obj [(txt "error", JVal.str (txt "streaming_error")),
            (txt "message", JVal.str msg),
            (txt "attempt", JVal.num attempt),
            (txt "request_id", JVal.str rid)]

/-- The SSE comment of line 328 (text after the leading colon). -/
def max_attempts_comment : List Char := txt " X-Anti-Truncation-Max-Attempts-Reached"

/-- `StreamingAntiTruncationProcessor.process_stream` (lines 125-440)
over a script of upstream attempt behaviours: the outer `while` loop
runs while `attempt < max_attempts and not done_marker_found`,
increments the attempt counter, runs the chunk loop, and then either
finishes (marker found / attempts exhausted / fatal error) or retries
(natural end, retryable status, transport error, idle timeout).  An
unmodelled tail of the script is simply not consumed; the keepalive
wait machinery is modelled separately by `wait_iteration`, and the
client-disconnect early return never fires in these runs (the scripts
carry no disconnect event), matching `client_disconnected = false`
throughout. -/
def run_stream (p : Protocol) (marker : List Char) (maxA : Nat) (rid : List Char)
    (st : EState) : List Attempt → EState × List Out
  | [] => (st, [])
  | a :: rest =>
    if st.attempt < maxA ∧ st.done_marker_found = false then
      let st0 := { st with attempt := st.attempt + 1 }
      let r := run_chunks p marker st0 a.chunks
      let st1 := r.1
      let outs := r.2.1.map Out.forwarded
      match r.2.2, a.ending with
      | ChunkExit.crashed, _ =>
        (st1, outs ++
          (Out.errorEvent (streaming_error_event (txt "TypeError") st1.attempt rid) ::
            doneIf p))
      | ChunkExit.ranOut, AttemptEnd.statusError code msg =>
        if code ∈ retryable_upstream_status_codes ∧ st1.attempt < maxA ∧
            st1.done_marker_found = false ∧ st1.client_disconnected = false then
          let r2 := run_stream p marker maxA rid st1 rest
          (r2.1, outs ++ r2.2)
        else
          (st1, outs ++
            (Out.errorEvent (upstream_error_event code msg st1.attempt rid) :: doneIf p))
      | ChunkExit.ranOut, AttemptEnd.requestError msg =>
        if st1.attempt < maxA ∧ st1.done_marker_found = false ∧
            st1.client_disconnected = false then
          let r2 := run_stream p marker maxA rid st1 rest
          (r2.1, outs ++ r2.2)
        else
          (st1, outs ++
            (Out.errorEvent (upstream_request_error_event msg st1.attempt rid) :: doneIf p))
      | ChunkExit.ranOut, AttemptEnd.idleRetry =>
        if st1.attempt < maxA ∧ st1.done_marker_found = false ∧
            st1.client_disconnected = false then
          let r2 := run_stream p marker maxA rid st1 rest
          (r2.1, outs ++ r2.2)
        else
          (st1, outs)
      | _, _ =>
        if st1.done_marker_found then (st1, outs ++ doneIf p)
        else if maxA ≤ st1.attempt then
          (st1, outs ++ (Out.comment max_attempts_comment :: doneIf p))
        else
          let r2 := run_stream p marker maxA rid st1 rest
          (r2.1, outs ++ r2.2)
    else (st, [])

/-- Inputs of one iteration of the waiting loop (lines 199-242):
configuration, how many chunks this attempt has already received, and
the idle time elapsed since the last chunk (seconds, as compared by the
source; only the order relation matters). -/
structure WaitEnv where
  keepalive_interval : Nat
  idle_timeout : Nat
  chunk_count : Nat
  elapsed_since_last_chunk : Nat

/-- Outcome of one iteration of the waiting loop: the pending-chunk
task completed; or the wait timed out and the loop emitted a keepalive
(when configured) and either kept waiting or cancelled the upstream
read to force a retry. -/
inductive WaitStep where
  | gotChunk
  | keepaliveLoop (emitted : Bool)
  | idleCancelRetry (emitted : Bool)
deriving DecidableEq

/-- One iteration of the waiting loop of `process_stream` (lines
199-242): if `asyncio.wait` returned the completed chunk task, proceed
to consume it; otherwise emit a keepalive comment when the interval is
configured, then cancel the upstream read for a retry exactly when a
chunk has already arrived, the idle timeout is configured and exceeded,
attempts remain (`attempt < max_attempts`) and the marker has not been
found; else keep waiting. -/
def wait_iteration (env : WaitEnv) (attempt maxA : Nat)
    (done_marker_found : Bool) (chunkArrived : Bool) : WaitStep :=
  if chunkArrived then WaitStep.gotChunk
  else
    let emitted := decide (0 < env.keepalive_interval)
    if 0 < env.chunk_count ∧ 0 < env.idle_timeout ∧
        env.idle_timeout ≤ env.elapsed_since_last_chunk ∧
        attempt < maxA ∧ done_marker_found = false then
      WaitStep.idleCancelRetry emitted
    else
      WaitStep.keepaliveLoop emitted

/-! ### Activation (`app/anti_truncation.py`) and the route slice
(`app/routes.py`) -/

/-- Python `str.lower()` (the header values compared are ASCII). -/
def pyLower (s : List Char) : List Char := s.map Char.toLower

/-- The request attributes `should_enable_anti_truncation` consults:
`request.headers.get("x-anti-truncation")` and
`request.query_params.get("anti_truncation")`. -/
structure ReqMeta where
  header_x_anti_truncation : Option (List Char)
  query_anti_truncation : Option (List Char)

/-- `should_enable_anti_truncation` (`app/anti_truncation.py` lines
13-57): requires a streaming request, then any of the three signals -
model field starting with the configured prefix, header
`X-Anti-Truncation: true` (lower-cased comparison), or query parameter
`anti_truncation=1`.  A JSON body that is not an object, or a `model`
field that is not a string, is outside the modelled fragment (on such
bodies the Python would raise on `.get`/`.startswith`); the model
returns `false` there and the theorems restrict to well-formed
bodies.  `model_prefix_cond` is condition 1 (lines 39-44): the body is
truthy, has a `model` key, and the model starts with the prefix. -/
def model_prefix_cond (mp : List Char) (request_body : Option JVal) : Bool :=
  match request_body with
  | some (JVal.obj fs) =>
    if !fs.isEmpty then
      match jGet fs (txt "model") with
      | some (JVal.str m) => decide (pyStarts mp m)
      | some _ => false
      | none => false
    else false
  | _ => false

def should_enable_anti_truncation (mp : List Char) (req : ReqMeta)
    (request_body : Option JVal) (is_streaming : Bool) : Bool :=
  if !is_streaming then false
  else if model_prefix_cond mp request_body then true
  else if pyLower (req.header_x_anti_truncation.getD []) = txt "true" then true
  else if (req.query_anti_truncation.getD []) = txt "1" then true
  else false

/-- `is_streaming = request_body.get("stream", False)` of
`handle_openai_chat_completions` (line 56), as a boolean (the flag is
only ever used for truthiness). -/
def openai_route_is_streaming (request_body : JVal) : Bool :=
  match request_body with
  | JVal.obj fs => jTruthy ((jGet fs (txt "stream")).getD (JVal.bool false))
  | _ => false

/-- Slice of `handle_openai_chat_completions` (`app/routes.py` lines
56-63 and 142-164) deciding the `x-anti-truncation-ignored` response
header: `none` when the streaming branch is taken (that branch never
sets the header), otherwise whether the non-streaming branch sets it -
which it does exactly when `anti_trunc_enabled` is true, the value
computed by `should_enable_anti_truncation` with the same (falsy)
`is_streaming`. -/
def openai_route_nonstreaming_ignored_header (mp : List Char)
    (req : ReqMeta) (request_body : JVal) : Option Bool :=
  let is_streaming := openai_route_is_streaming request_body
  let anti_trunc_enabled :=
    should_enable_anti_truncation mp req (some request_body) is_streaming
  if is_streaming then none
  else some anti_trunc_enabled

/-! ### Helper lemmas -/

theorem takeLast_length_le (k : Nat) (s : List Char) : (takeLast k s).length ≤ k := by
  unfold takeLast
  split
  · simp
  · simp only [List.length_drop]
    omega

theorem suffix_takeLast {d l : List Char} {k : Nat} (h : d <:+ l)
    (hk : d.length ≤ k) : d <:+ takeLast k l := by
  unfold takeLast
  split
  · have : d = [] := List.length_eq_zero.mp (by omega)
    simp [this]
  · obtain ⟨u, hu⟩ := h
    subst hu
    have hlen : (u ++ d).length - k ≤ u.length := by
      simp only [List.length_append]
      omega
    refine ⟨u.drop ((u ++ d).length - k), ?_⟩
    rw [List.drop_append_eq_append_drop, Nat.sub_eq_zero_of_le hlen, List.drop_zero]

theorem update_found_mono (marker : List Char) (st : EState) (d : List Char)
    (h : st.done_marker_found = true) :
    ((update_done_marker_state marker st d).1).done_marker_found = true := by
  unfold update_done_marker_state
  by_cases h1 : d = []
  · rw [if_pos h1]
    exact h
  · rw [if_neg h1]
    by_cases h2 : pyIn marker (st.done_marker_tail ++ d)
    · rw [if_pos h2]
    · rw [if_neg h2]
      exact h

theorem update_found_of_in (marker : List Char) (st : EState) (d : List Char)
    (hd : d ≠ []) (h : pyIn marker (st.done_marker_tail ++ d)) :
    ((update_done_marker_state marker st d).1).done_marker_found = true := by
  unfold update_done_marker_state
  rw [if_neg hd, if_pos h]

theorem update_tail_after (marker : List Char) (st : EState) (d : List Char)
    (hd : d ≠ []) (h : ¬ pyIn marker (st.done_marker_tail ++ d)) :
    ((update_done_marker_state marker st d).1).done_marker_tail =
      takeLast (marker.length - 1) (st.done_marker_tail ++ d) := by
  unfold update_done_marker_state
  rw [if_neg hd, if_neg h]

/-! ### Claim C2: cross-chunk marker detection -/

/-- C2: for every marker string split into two consecutive non-empty
text deltas `d1` then `d2`, feeding `d1` then `d2` through
`_update_done_marker_state` sets `done_marker_found`: the tail buffer
keeps the last `len(marker) - 1` characters, so `tail ++ d2` contains
the full marker. -/
theorem c2_cross_chunk_marker_detection (marker d1 d2 : List Char) (st : EState)
    (hsplit : marker = d1 ++ d2) (h1 : d1 ≠ []) (h2 : d2 ≠ []) :
    ((update_done_marker_state marker
        (update_done_marker_state marker st d1).1 d2).1).done_marker_found = true := by
  by_cases hin : pyIn marker (st.done_marker_tail ++ d1)
  · exact update_found_mono marker _ d2 (update_found_of_in marker st d1 h1 hin)
  · have htail := update_tail_after marker st d1 h1 hin
    apply update_found_of_in marker _ d2 h2
    have hd1suf : d1 <:+ (update_done_marker_state marker st d1).1.done_marker_tail := by
      rw [htail]
      apply suffix_takeLast (List.suffix_append _ _)
      have hlen : marker.length = d1.length + d2.length := by
        rw [hsplit, List.length_append]
      have hd2 : 0 < d2.length := List.length_pos.mpr h2
      omega
    obtain ⟨u, hu⟩ := hd1suf
    refine ⟨u, [], ?_⟩
    have heq : u ++ marker ++ [] = (u ++ d1) ++ d2 := by
      rw [hsplit, List.append_nil, List.append_assoc]
    rw [heq, hu]

/-- Witness for C2 at the default marker split after two characters. -/
theorem c2_cross_chunk_marker_detection_witness :
    ((update_done_marker_state (txt "[done]")
        (update_done_marker_state (txt "[done]") initEState (txt "[d")).1
        (txt "one]")).1).done_marker_found = true :=
  c2_cross_chunk_marker_detection (txt "[done]") (txt "[d") (txt "one]") initEState
    (by decide) (by decide) (by decide)

/-! ### Claim C10: idle timeout on the final attempt -/

/-- C10: on the final attempt (`attempt = max_attempts`) a wait-loop
iteration whose `asyncio.wait` timed out never cancels the pending
upstream read for a retry: the idle-cancel branch additionally requires
`attempt < max_attempts`, so the loop only emits a keepalive comment
(when configured) and keeps waiting. -/
theorem c10_no_idle_cancel_on_final_attempt (env : WaitEnv) (attempt maxA : Nat)
    (found : Bool) (h : attempt = maxA) :
    wait_iteration env attempt maxA found false =
      WaitStep.keepaliveLoop (decide (0 < env.keepalive_interval)) := by
  unfold wait_iteration
  rw [if_neg (by simp), if_neg]
  intro hc
  exact absurd hc.2.2.2.1 (by omega)

/-- Witness for C10: a timed-out wait on attempt 3 of 3 with an
exceeded idle timeout still only loops with a keepalive. -/
theorem c10_no_idle_cancel_on_final_attempt_witness :
    wait_iteration
      { keepalive_interval := 5, idle_timeout := 30, chunk_count := 2,
        elapsed_since_last_chunk := 100 } 3 3 false false =
      WaitStep.keepaliveLoop (decide (0 < (5 : Nat))) :=
  c10_no_idle_cancel_on_final_attempt _ 3 3 false rfl

/-! ### Claim C3: non-streaming requests with an activation signal -/

/-- C3 (divergence witness): for a non-streaming request the engine
indeed stays inactive (`should_enable_anti_truncation` is always false
when `is_streaming` is false), but the route never attaches the
`x-anti-truncation-ignored: non-streaming` response header: the
non-streaming branch guards the header write with `anti_trunc_enabled`,
which was computed with the same falsy `is_streaming` and is therefore
always false - the header line is unreachable.  The last conjunct
evaluates the route slice at a concrete signalled non-streaming request
(header `X-Anti-Truncation: true`, `stream: false`). -/
theorem c3_nonstreaming_ignored_header_never_set :
    (∀ mp req body, should_enable_anti_truncation mp req body false = false) ∧
    (∀ mp req body, openai_route_nonstreaming_ignored_header mp req body ≠ some true) ∧
    openai_route_nonstreaming_ignored_header (txt "at/")
      { header_x_anti_truncation := some (txt "true"), query_anti_truncation := none }
      (JVal.obj [(txt "stream", JVal.bool false)]) = some false := by
  refine ⟨fun mp req body => rfl, ?_, by decide⟩
  intro mp req body
  unfold openai_route_nonstreaming_ignored_header
  cases h : openai_route_is_streaming body <;> simp [h, should_enable_anti_truncation]

/-! ### Claim C4: the activation rule -/

/-- Bodies in the fragment `should_enable_anti_truncation` is defined
on: absent, or a JSON object whose `model` field (if any) is a string
(on other bodies the Python raises before returning). -/
def body_model_ok : Option JVal → Prop
  | none => True
  | some (JVal.obj fs) => ∀ v, jGet fs (txt "model") = some v → ∃ s, v = JVal.str s
  | some _ => False

theorem jGet_some_nonempty {fs : List (List Char × JVal)} {k : List Char} {v : JVal}
    (h : jGet fs k = some v) : fs.isEmpty = false := by
  cases fs with
  | nil => simp [jGet] at h
  | cons f rest => rfl

theorem model_prefix_cond_iff (mp : List Char) (body : Option JVal)
    (hok : body_model_ok body) :
    model_prefix_cond mp body = true ↔
      ∃ fs m, body = some (JVal.obj fs) ∧
        jGet fs (txt "model") = some (JVal.str m) ∧ pyStarts mp m := by
  cases body with
  | none => simp [model_prefix_cond]
  | some j =>
    cases j with
    | obj fs =>
      unfold model_prefix_cond
      rcases hg : jGet fs (txt "model") with _ | v
      · simp [hg]
      · obtain ⟨s, rfl⟩ := hok v hg
        have hne := jGet_some_nonempty hg
        simp [hg, hne]
    | null => exact hok.elim
    | bool b => exact hok.elim
    | num n => exact hok.elim
    | str s => exact hok.elim
    | arr xs => exact hok.elim

/-- C4: `should_enable_anti_truncation` returns true iff the request is
streaming and at least one signal is present: the `model` field begins
with the configured prefix, the `X-Anti-Truncation` header lower-cases
to `true`, or the query parameter `anti_truncation` equals `1`; in
particular a non-streaming request always yields false, whatever the
signals. -/
theorem c4_activation_iff :
    (∀ (mp : List Char) (req : ReqMeta) (body : Option JVal) (is_streaming : Bool),
      body_model_ok body →
      (should_enable_anti_truncation mp req body is_streaming = true ↔
        (is_streaming = true ∧
          ((∃ fs m, body = some (JVal.obj fs) ∧
              jGet fs (txt "model") = some (JVal.str m) ∧ pyStarts mp m) ∨
            pyLower (req.header_x_anti_truncation.getD []) = txt "true" ∨
            req.query_anti_truncation.getD [] = txt "1")))) ∧
    (∀ mp req body, should_enable_anti_truncation mp req body false = false) := by
  refine ⟨?_, fun mp req body => rfl⟩
  intro mp req body is_streaming hok
  cases is_streaming with
  | false => simp [should_enable_anti_truncation]
  | true =>
    unfold should_enable_anti_truncation
    rw [← model_prefix_cond_iff mp body hok]
    simp only [Bool.not_true, Bool.false_eq_true, if_false, true_and]
    split_ifs with hA hB hC
    · simp [hA]
    · simp [hB]
    · simp [hC]
    · simp only [Bool.false_eq_true, false_iff]
      rintro (hm | hh | hq)
      · exact absurd hm (by simp [hA])
      · exact hB hh
      · exact hC hq

/-- Witness for C4: a streaming request whose model carries the
activation prefix activates the engine; a non-streaming one does not. -/
theorem c4_activation_iff_witness :
    (should_enable_anti_truncation (txt "at/")
      { header_x_anti_truncation := none, query_anti_truncation := none }
      (some (JVal.obj [(txt "model", JVal.str (txt "at/gpt-4"))])) true = true ↔
      (true = true ∧
        ((∃ fs m, (some (JVal.obj [(txt "model", JVal.str (txt "at/gpt-4"))]) : Option JVal)
              = some (JVal.obj fs) ∧
            jGet fs (txt "model") = some (JVal.str m) ∧ pyStarts (txt "at/") m) ∨
          pyLower ((none : Option (List Char)).getD []) = txt "true" ∨
          (none : Option (List Char)).getD [] = txt "1"))) ∧
    should_enable_anti_truncation (txt "at/")
      { header_x_anti_truncation := some (txt "TRUE"), query_anti_truncation := none }
      (some (JVal.obj [(txt "model", JVal.str (txt "at/gpt-4"))])) false = false :=
  ⟨(c4_activation_iff.1 (txt "at/")
      { header_x_anti_truncation := none, query_anti_truncation := none }
      (some (JVal.obj [(txt "model", JVal.str (txt "at/gpt-4"))])) true
      (by intro v hv; exact ⟨txt "at/gpt-4", by simpa [jGet] using hv.symm⟩)),
   c4_activation_iff.2 (txt "at/")
      { header_x_anti_truncation := some (txt "TRUE"), query_anti_truncation := none }
      (some (JVal.obj [(txt "model", JVal.str (txt "at/gpt-4"))]))⟩

/-! ### Claim C9: engine state invariants -/

theorem update_state_inv (marker : List Char) (st : EState) (d : List Char) :
    (update_done_marker_state marker st d).1.collected_text = st.collected_text ∧
    (update_done_marker_state marker st d).1.attempt = st.attempt ∧
    (update_done_marker_state marker st d).1.client_disconnected =
      st.client_disconnected ∧
    (st.done_marker_found = true →
      (update_done_marker_state marker st d).1.done_marker_found = true) ∧
    (st.done_marker_tail.length ≤ marker.length - 1 →
      (update_done_marker_state marker st d).1.done_marker_tail.length ≤
        marker.length - 1) := by
  unfold update_done_marker_state
  by_cases h1 : d = []
  · rw [if_pos h1]
    exact ⟨rfl, rfl, rfl, fun h => h, fun h => h⟩
  · rw [if_neg h1]
    by_cases h2 : pyIn marker (st.done_marker_tail ++ d)
    · rw [if_pos h2]
      exact ⟨rfl, rfl, rfl, fun _ => rfl, fun h => h⟩
    · rw [if_neg h2]
      exact ⟨rfl, rfl, rfl, fun h => h, fun _ => takeLast_length_le _ _⟩

theorem run_chunks_state (p : Protocol) (marker : List Char) (cs : List Chunk) :
    ∀ st : EState,
      (run_chunks p marker st cs).1.attempt = st.attempt ∧
      (run_chunks p marker st cs).1.client_disconnected = st.client_disconnected ∧
      (st.done_marker_found = true →
        (run_chunks p marker st cs).1.done_marker_found = true) ∧
      st.collected_text <+: (run_chunks p marker st cs).1.collected_text ∧
      (st.done_marker_tail.length ≤ marker.length - 1 →
        (run_chunks p marker st cs).1.done_marker_tail.length ≤ marker.length - 1) := by
  induction cs with
  | nil =>
    intro st
    exact ⟨rfl, rfl, fun h => h, List.prefix_refl _, fun h => h⟩
  | cons c rest ih =>
    intro st
    rw [run_chunks]
    split
    · exact ⟨rfl, rfl, fun h => h, List.prefix_refl _, fun h => h⟩
    · split
      · -- a truthy string delta was extracted
        rename_i s _
        have hupd := update_state_inv marker
          { st with collected_text := st.collected_text ++ s } s
        obtain ⟨hc, ha, hd, hf, ht⟩ := hupd
        dsimp only at hc ha hd hf ht
        simp only []
        split
        · refine ⟨ha, hd, fun _ => ?_, ?_, ht⟩
          · assumption
          · rw [hc]
            exact List.prefix_append _ _
        · obtain ⟨ha2, hd2, hf2, hp2, ht2⟩ := ih
            (update_done_marker_state marker
              { st with collected_text := st.collected_text ++ s } s).1
          refine ⟨by rw [ha2, ha], by rw [hd2, hd], fun h => hf2 (hf h), ?_,
            fun h => ht2 (ht h)⟩
          have h0 : st.collected_text <+:
              (update_done_marker_state marker
                { st with collected_text := st.collected_text ++ s } s).1.collected_text := by
            rw [hc]
            exact List.prefix_append _ _
          exact h0.trans hp2
      · -- a truthy non-string delta: TypeError, loop crashed
        exact ⟨rfl, rfl, fun h => h, List.prefix_refl _, fun h => h⟩
      · -- no text extracted
        split
        · exact ⟨rfl, rfl, fun h => h, List.prefix_refl _, fun h => h⟩
        · obtain ⟨ha2, hd2, hf2, hp2, ht2⟩ := ih st
          exact ⟨ha2, hd2, hf2, hp2, ht2⟩

theorem run_stream_state (p : Protocol) (marker : List Char) (maxA : Nat)
    (rid : List Char) (script : List Attempt) :
    ∀ st : EState,
      (st.done_marker_found = true →
        (run_stream p marker maxA rid st script).1.done_marker_found = true) ∧
      st.collected_text <+:
        (run_stream p marker maxA rid st script).1.collected_text ∧
      st.attempt ≤ (run_stream p marker maxA rid st script).1.attempt ∧
      (st.attempt ≤ maxA → (run_stream p marker maxA rid st script).1.attempt ≤ maxA) ∧
      (st.done_marker_tail.length ≤ marker.length - 1 →
        (run_stream p marker maxA rid st script).1.done_marker_tail.length ≤
          marker.length - 1) := by
  induction script with
  | nil =>
    intro st
    exact ⟨fun h => h, List.prefix_refl _, Nat.le_refl _, fun h => h, fun h => h⟩
  | cons a rest ih =>
    intro st
    rw [run_stream]
    by_cases hg : st.attempt < maxA ∧ st.done_marker_found = false
    · rw [if_pos hg]
      obtain ⟨ha1, hd1, hf1, hp1, ht1⟩ :=
        run_chunks_state p marker a.chunks { st with attempt := st.attempt + 1 }
      dsimp only at ha1 hd1 hf1 hp1 ht1
      set st1 := (run_chunks p marker { st with attempt := st.attempt + 1 } a.chunks).1
        with hst1
      have hstop : st.collected_text <+: st1.collected_text ∧
          st.attempt ≤ st1.attempt ∧ (st.attempt ≤ maxA → st1.attempt ≤ maxA) ∧
          (st.done_marker_tail.length ≤ marker.length - 1 →
            st1.done_marker_tail.length ≤ marker.length - 1) := by
        refine ⟨hp1, by omega, fun _ => by omega, ht1⟩
      obtain ⟨hp1', ha1', hb1', ht1'⟩ := hstop
      obtain ⟨hf2, hp2, ha2, hb2, ht2⟩ := ih st1
      have hcomb : st.collected_text <+:
            (run_stream p marker maxA rid st1 rest).1.collected_text ∧
          st.attempt ≤ (run_stream p marker maxA rid st1 rest).1.attempt ∧
          (st.attempt ≤ maxA →
            (run_stream p marker maxA rid st1 rest).1.attempt ≤ maxA) ∧
          (st.done_marker_tail.length ≤ marker.length - 1 →
            (run_stream p marker maxA rid st1 rest).1.done_marker_tail.length ≤
              marker.length - 1) :=
        ⟨hp1'.trans hp2, Nat.le_trans ha1' ha2, fun h => hb2 (hb1' h),
          fun h => ht2 (ht1' h)⟩
      simp only []
      split
      · exact ⟨fun h => by simp_all, hp1', ha1', hb1', ht1'⟩
      · split
        · exact ⟨fun h => by simp_all, hcomb.1, hcomb.2.1, hcomb.2.2.1, hcomb.2.2.2⟩
        · exact ⟨fun h => by simp_all, hp1', ha1', hb1', ht1'⟩
      · split
        · exact ⟨fun h => by simp_all, hcomb.1, hcomb.2.1, hcomb.2.2.1, hcomb.2.2.2⟩
        · exact ⟨fun h => by simp_all, hp1', ha1', hb1', ht1'⟩
      · split
        · exact ⟨fun h => by simp_all, hcomb.1, hcomb.2.1, hcomb.2.2.1, hcomb.2.2.2⟩
        · exact ⟨fun h => by simp_all, hp1', ha1', hb1', ht1'⟩
      · split
        · exact ⟨fun h => by simp_all, hp1', ha1', hb1', ht1'⟩
        · split
          · exact ⟨fun h => by simp_all, hp1', ha1', hb1', ht1'⟩
          · exact ⟨fun h => by simp_all, hcomb.1, hcomb.2.1, hcomb.2.2.1, hcomb.2.2.2⟩
    · rw [if_neg hg]
      exact ⟨fun h => h, List.prefix_refl _, Nat.le_refl _, fun h => h, fun h => h⟩

theorem run_stream_attempt_strict (p : Protocol) (marker : List Char) (maxA : Nat)
    (rid : List Char) (st : EState) (a : Attempt) (rest : List Attempt)
    (h1 : st.attempt < maxA) (h2 : st.done_marker_found = false) :
    st.attempt < (run_stream p marker maxA rid st (a :: rest)).1.attempt := by
  rw [run_stream, if_pos ⟨h1, h2⟩]
  obtain ⟨ha1, -, -, -, -⟩ :=
    run_chunks_state p marker a.chunks { st with attempt := st.attempt + 1 }
  dsimp only at ha1
  have hrec := (run_stream_state p marker maxA rid rest
    (run_chunks p marker { st with attempt := st.attempt + 1 } a.chunks).1).2.2.1
  simp only []
  split
  all_goals try split
  all_goals try split
  all_goals dsimp only
  all_goals omega

/-- C9: throughout every engine run the Engine State invariants hold:
marker-found is monotone (once true it stays true through the marker
detector, the chunk loop and the whole attempt loop), the tail buffer
length never exceeds `len(marker) - 1`, the accumulated text only grows
(each value extends the previous one as a prefix), and the attempt
counter only moves by the `attempt += 1` at the head of a loop
iteration - strictly increasing across attempts - and never exceeds
the configured maximum. -/
theorem c9_engine_state_invariants :
    (∀ (marker : List Char) (st : EState) (d : List Char),
      (st.done_marker_found = true →
        (update_done_marker_state marker st d).1.done_marker_found = true) ∧
      (st.done_marker_tail.length ≤ marker.length - 1 →
        (update_done_marker_state marker st d).1.done_marker_tail.length ≤
          marker.length - 1)) ∧
    (∀ (p : Protocol) (marker : List Char) (st : EState) (cs : List Chunk),
      (st.done_marker_found = true →
        (run_chunks p marker st cs).1.done_marker_found = true) ∧
      st.collected_text <+: (run_chunks p marker st cs).1.collected_text ∧
      (run_chunks p marker st cs).1.attempt = st.attempt ∧
      (st.done_marker_tail.length ≤ marker.length - 1 →
        (run_chunks p marker st cs).1.done_marker_tail.length ≤ marker.length - 1)) ∧
    (∀ (p : Protocol) (marker : List Char) (maxA : Nat) (rid : List Char)
        (st : EState) (script : List Attempt),
      (st.done_marker_found = true →
        (run_stream p marker maxA rid st script).1.done_marker_found = true) ∧
      st.collected_text <+: (run_stream p marker maxA rid st script).1.collected_text ∧
      st.attempt ≤ (run_stream p marker maxA rid st script).1.attempt ∧
      (st.attempt ≤ maxA → (run_stream p marker maxA rid st script).1.attempt ≤ maxA) ∧
      (st.done_marker_tail.length ≤ marker.length - 1 →
        (run_stream p marker maxA rid st script).1.done_marker_tail.length ≤
          marker.length - 1)) ∧
    (∀ (p : Protocol) (marker : List Char) (maxA : Nat) (rid : List Char)
        (st : EState) (a : Attempt) (rest : List Attempt),
      st.attempt < maxA → st.done_marker_found = false →
      st.attempt < (run_stream p marker maxA rid st (a :: rest)).1.attempt) := by
  refine ⟨?_, ?_, ?_, run_stream_attempt_strict⟩
  · intro marker st d
    obtain ⟨-, -, -, hf, ht⟩ := update_state_inv marker st d
    exact ⟨hf, ht⟩
  · intro p marker st cs
    obtain ⟨ha, -, hf, hp, ht⟩ := run_chunks_state p marker cs st
    exact ⟨hf, hp, ha, ht⟩
  · intro p marker maxA rid st script
    exact run_stream_state p marker maxA rid script st

/-- Witness for C9: a concrete two-attempt run from the initial state
under `max_attempts = 3` keeps the attempt counter within the bound,
and the strict-increase fact holds at the first attempt. -/
theorem c9_engine_state_invariants_witness :
    initEState.attempt ≤ 3 ∧
    (run_stream Protocol.openai (txt "[done]") 3 (txt "rid") initEState
      [{ chunks := [], ending := AttemptEnd.eof },
       { chunks := [], ending := AttemptEnd.eof }]).1.attempt ≤ 3 ∧
    initEState.attempt <
      (run_stream Protocol.openai (txt "[done]") 3 (txt "rid") initEState
        [{ chunks := [], ending := AttemptEnd.eof }]).1.attempt :=
  ⟨by decide,
   (c9_engine_state_invariants.2.2.1 Protocol.openai (txt "[done]") 3 (txt "rid")
      initEState
      [{ chunks := [], ending := AttemptEnd.eof },
       { chunks := [], ending := AttemptEnd.eof }]).2.2.2.1 (by decide),
   c9_engine_state_invariants.2.2.2 Protocol.openai (txt "[done]") 3 (txt "rid")
      initEState { chunks := [], ending := AttemptEnd.eof } [] (by decide) (by decide)⟩

/-! ### Claim C5: upstream failure classification -/

/-- Python `obj.get(k)` on a JSON value known to be an object. -/
def jObjGet (j : JVal) (k : List Char) : Option JVal :=
  match j with
  | JVal.obj fs => jGet fs k
  | _ => none

/-- C5: when an attempt's chunk loop ran out and the attempt failed
with an upstream HTTP status error, the engine retries with no output
for that failure exactly when the status is in the retryable set,
attempts remain, and marker-found/client-disconnected are false;
otherwise it emits exactly one error data record followed by `[DONE]`
for OpenAI and terminates.  Transport-level request errors retry under
the same budget/state conditions (without a status test).  Both error
events carry `error`, `message`, `attempt` and `request_id` fields. -/
theorem c5_error_classification :
    (∀ (p : Protocol) (marker : List Char) (maxA : Nat) (rid : List Char)
        (st st1 : EState) (cs couts : List Chunk) (rest : List Attempt)
        (code : Nat) (msg : List Char),
      st.attempt < maxA → st.done_marker_found = false →
      run_chunks p marker { st with attempt := st.attempt + 1 } cs =
        (st1, couts, ChunkExit.ranOut) →
      ((code ∈ retryable_upstream_status_codes ∧ st1.attempt < maxA ∧
          st1.done_marker_found = false ∧ st1.client_disconnected = false →
        run_stream p marker maxA rid st
            ({ chunks := cs, ending := AttemptEnd.statusError code msg } :: rest) =
          ((run_stream p marker maxA rid st1 rest).1,
            couts.map Out.forwarded ++ (run_stream p marker maxA rid st1 rest).2)) ∧
      (¬(code ∈ retryable_upstream_status_codes ∧ st1.attempt < maxA ∧
          st1.done_marker_found = false ∧ st1.client_disconnected = false) →
        run_stream p marker maxA rid st
            ({ chunks := cs, ending := AttemptEnd.statusError code msg } :: rest) =
          (st1, couts.map Out.forwarded ++
            (Out.errorEvent (upstream_error_event code msg st1.attempt rid) ::
              doneIf p))))) ∧
    (∀ (p : Protocol) (marker : List Char) (maxA : Nat) (rid : List Char)
        (st st1 : EState) (cs couts : List Chunk) (rest : List Attempt)
        (msg : List Char),
      st.attempt < maxA → st.done_marker_found = false →
      run_chunks p marker { st with attempt := st.attempt + 1 } cs =
        (st1, couts, ChunkExit.ranOut) →
      ((st1.attempt < maxA ∧ st1.done_marker_found = false ∧
          st1.client_disconnected = false →
        run_stream p marker maxA rid st
            ({ chunks := cs, ending := AttemptEnd.requestError msg } :: rest) =
          ((run_stream p marker maxA rid st1 rest).1,
            couts.map Out.forwarded ++ (run_stream p marker maxA rid st1 rest).2)) ∧
      (¬(st1.attempt < maxA ∧ st1.done_marker_found = false ∧
          st1.client_disconnected = false) →
        run_stream p marker maxA rid st
            ({ chunks := cs, ending := AttemptEnd.requestError msg } :: rest) =
          (st1, couts.map Out.forwarded ++
            (Out.errorEvent (upstream_request_error_event msg st1.attempt rid) ::
              doneIf p))))) ∧
    (∀ (code : Nat) (msg : List Char) (att : Nat) (rid : List Char),
      (∃ v, jObjGet (upstream_error_event code msg att rid) (txt "error") = some v) ∧
      jObjGet (upstream_error_event code msg att rid) (txt "message") =
        some (JVal.str msg) ∧
      jObjGet (upstream_error_event code msg att rid) (txt "attempt") =
        some (JVal.num att) ∧
      jObjGet (upstream_error_event code msg att rid) (txt "request_id") =
        some (JVal.str rid)) ∧
    (∀ (msg : List Char) (att : Nat) (rid : List Char),
      (∃ v, jObjGet (upstream_request_error_event msg att rid) (txt "error") = some v) ∧
      jObjGet (upstream_request_error_event msg att rid) (txt "message") =
        some (JVal.str msg) ∧
      jObjGet (upstream_request_error_event msg att rid) (txt "attempt") =
        some (JVal.num att) ∧
      jObjGet (upstream_request_error_event msg att rid) (txt "request_id") =
        some (JVal.str rid)) := by
  refine ⟨?_, ?_, ?_, ?_⟩
  · intro p marker maxA rid st st1 cs couts rest code msg h1 h2 hrc
    rw [run_stream, if_pos ⟨h1, h2⟩]
    simp only []
    rw [hrc]
    dsimp only
    constructor
    · intro hretry
      rw [if_pos hretry]
    · intro hstop
      rw [if_neg hstop]
  · intro p marker maxA rid st st1 cs couts rest msg h1 h2 hrc
    rw [run_stream, if_pos ⟨h1, h2⟩]
    simp only []
    rw [hrc]
    dsimp only
    constructor
    · intro hretry
      rw [if_pos hretry]
    · intro hstop
      rw [if_neg hstop]
  · intro code msg att rid
    exact ⟨⟨JVal.str (txt "upstream_error"), rfl⟩, rfl, rfl, rfl⟩
  · intro msg att rid
    exact ⟨⟨JVal.str (txt "upstream_request_error"), rfl⟩, rfl, rfl, rfl⟩

/-- Witness for C5: a 429 on attempt 1 of 3 with a clean state retries
producing no output of its own. -/
theorem c5_error_classification_witness :
    run_stream Protocol.openai (txt "[done]") 3 (txt "rid") initEState
        [{ chunks := [], ending := AttemptEnd.statusError 429 (txt "upstream 429") },
         { chunks := [], ending := AttemptEnd.eof }] =
      ((run_stream Protocol.openai (txt "[done]") 3 (txt "rid")
          { initEState with attempt := 1 }
          [{ chunks := [], ending := AttemptEnd.eof }]).1,
        ([] : List Chunk).map Out.forwarded ++
          (run_stream Protocol.openai (txt "[done]") 3 (txt "rid")
            { initEState with attempt := 1 }
            [{ chunks := [], ending := AttemptEnd.eof }]).2) :=
  ((c5_error_classification.1 Protocol.openai (txt "[done]") 3 (txt "rid")
      initEState { initEState with attempt := 1 } [] []
      [{ chunks := [], ending := AttemptEnd.eof }] 429 (txt "upstream 429")
      (by decide) rfl rfl).1
    ⟨by decide, by decide, rfl, rfl⟩)

/-! ### Claim C7: strip preserves marker-free chunks -/

/-- The `delta.content` string of one OpenAI choice, when present (the
fields the strip loop can rewrite). -/
def openai_choice_content (c : JVal) : Option (List Char) :=
  match c with
  | JVal.obj cfs =>
    match (jGet cfs (txt "delta")).getD (JVal.obj []) with
    | JVal.obj dfs =>
      match jGet dfs (txt "content") with
      | some (JVal.str s) => some s
      | _ => none
    | _ => none
  | _ => none

/-- All `choices[*].delta.content` strings of an OpenAI payload. -/
def openai_json_contents (j : JVal) : List (List Char) :=
  match j with
  | JVal.obj fs =>
    match jGet fs (txt "choices") with
    | some (JVal.arr xs) => xs.filterMap openai_choice_content
    | _ => []
  | _ => []

/-- The text/content fields of a chunk under the OpenAI dialect. -/
def openai_chunk_contents : Chunk → List (List Char)
  | Chunk.data j => openai_json_contents j
  | _ => []

theorem openai_strip_choice_unmodified (marker : List Char) (c : JVal)
    (h : ∀ s, openai_choice_content c = some s → ¬ pyIn marker s) :
    ∀ out, openai_strip_choice marker c = some out → out.2 = false := by
  intro out hout
  unfold openai_strip_choice at hout
  unfold openai_choice_content at h
  cases c with
  | obj cfs =>
    dsimp only at hout h
    rcases hdelta : (jGet cfs (txt "delta")).getD (JVal.obj []) with _ | _ | _ | s | xs | dfs
    all_goals rw [hdelta] at hout h
    all_goals dsimp only at hout h
    · exact absurd hout (by simp)
    · exact absurd hout (by simp)
    · exact absurd hout (by simp)
    · split at hout
      · exact absurd hout (by simp)
      · cases hout
        rfl
    · split at hout
      · exact absurd hout (by simp)
      · cases hout
        rfl
    · rcases hc : jGet dfs (txt "content") with _ | v
      · rw [hc] at hout
        dsimp only at hout
        cases hout
        rfl
      · rw [hc] at hout h
        cases v with
        | str s =>
          dsimp only at hout h
          have hs := h s rfl
          rw [if_neg hs] at hout
          cases hout
          rfl
        | null => exact absurd hout (by simp)
        | bool b => exact absurd hout (by simp)
        | num n => exact absurd hout (by simp)
        | arr ys => exact absurd hout (by simp)
        | obj gs => exact absurd hout (by simp)
  | null => exact absurd hout (by simp)
  | bool b => exact absurd hout (by simp)
  | num n => exact absurd hout (by simp)
  | str s => exact absurd hout (by simp)
  | arr ys => exact absurd hout (by simp)

theorem openai_strip_choices_unmodified (marker : List Char) (xs : List JVal)
    (h : ∀ s ∈ xs.filterMap openai_choice_content, ¬ pyIn marker s) :
    ∀ out, openai_strip_choices marker xs = some out → out.2 = false := by
  induction xs with
  | nil =>
    intro out hout
    cases hout
    rfl
  | cons c rest ih =>
    intro out hout
    unfold openai_strip_choices at hout
    rcases h1 : openai_strip_choice marker c with _ | p1
    · rw [h1] at hout
      exact absurd hout (by simp)
    · rcases h2 : openai_strip_choices marker rest with _ | p2
      · rw [h1, h2] at hout
        rcases p1 with ⟨c2, m1⟩
        exact absurd hout (by simp)
      · rw [h1, h2] at hout
        rcases p1 with ⟨c2, m1⟩
        rcases p2 with ⟨rest2, m2⟩
        dsimp only at hout
        cases hout
        have hm1 : m1 = false := by
          have := openai_strip_choice_unmodified marker c
            (fun s hs => h s (List.mem_filterMap.mpr ⟨c, by simp, hs⟩)) (c2, m1) h1
          simpa using this
        have hm2 : m2 = false := by
          have := ih (fun s hs => by
            obtain ⟨a, ha, hfa⟩ := List.mem_filterMap.mp hs
            exact h s (List.mem_filterMap.mpr ⟨a, by simp [ha], hfa⟩)) (rest2, m2) h2
          simpa using this
        simp [hm1, hm2]

theorem openai_strip_json_unmodified (marker : List Char) (j : JVal)
    (h : ∀ s ∈ openai_json_contents j, ¬ pyIn marker s) :
    ∀ out, openai_strip_json marker j = some out → out.2 = false := by
  intro out hout
  unfold openai_strip_json at hout
  unfold openai_json_contents at h
  cases j with
  | obj fs =>
    try dsimp only at hout
    try dsimp only at h
    rcases hch : jGet fs (txt "choices") with _ | v
    · rw [hch] at hout
      try dsimp only at hout
      cases hout
      rfl
    · rw [hch] at hout h
      cases v with
      | arr xs =>
        try dsimp only at hout
        try dsimp only at h
        rcases hsc : openai_strip_choices marker xs with _ | p
        · rw [hsc] at hout
          exact absurd hout (by simp)
        · rw [hsc] at hout
          try dsimp only at hout
          cases hout
          exact openai_strip_choices_unmodified marker xs h p hsc
      | str s =>
        try dsimp only at hout
        split at hout
        · cases hout
          rfl
        · exact absurd hout (by simp)
      | obj gs =>
        try dsimp only at hout
        split at hout
        · cases hout
          rfl
        · exact absurd hout (by simp)
      | null => exact absurd hout (by simp)
      | bool b => exact absurd hout (by simp)
      | num n => exact absurd hout (by simp)
  | null => exact absurd hout (by simp)
  | bool b => exact absurd hout (by simp)
  | num n => exact absurd hout (by simp)
  | str s => exact absurd hout (by simp)
  | arr ys => exact absurd hout (by simp)

theorem openai_strip_marker_free (marker : List Char) (c : Chunk)
    (h : ∀ s ∈ openai_chunk_contents c, ¬ pyIn marker s) :
    openai_strip_done_marker c marker = c := by
  unfold openai_strip_done_marker
  by_cases h1 : pyIn marker c.bytes
  · rw [if_neg (not_not_intro h1)]
    by_cases h2 : pyStarts (txt "data: ") c.bytes
    · rw [if_pos h2]
      cases c with
      | raw s => rfl
      | event name j => rfl
      | data j =>
        dsimp only
        rcases hs : openai_strip_json marker j with _ | p
        · rfl
        · rcases p with ⟨j2, b⟩
          have hb : b = false := by
            have := openai_strip_json_unmodified marker j h (j2, b) hs
            simpa using this
          rw [hb]
    · rw [if_neg h2]
  · rw [if_pos h1]

/-- The `text` string of one Gemini part, when present. -/
def gemini_part_text (p : JVal) : Option (List Char) :=
  match p with
  | JVal.obj pfs =>
    match jGet pfs (txt "text") with
    | some (JVal.str s) => some s
    | _ => none
  | _ => none

/-- The `content.parts[*].text` strings of one Gemini candidate. -/
def gemini_cand_texts (c : JVal) : List (List Char) :=
  match c with
  | JVal.obj cfs =>
    match (jGet cfs (txt "content")).getD (JVal.obj []) with
    | JVal.obj cofs =>
      match jGet cofs (txt "parts") with
      | some (JVal.arr ps) => ps.filterMap gemini_part_text
      | _ => []
    | _ => []
  | _ => []

/-- All `candidates[*].content.parts[*].text` strings of a payload. -/
def gemini_json_texts (j : JVal) : List (List Char) :=
  match j with
  | JVal.obj fs =>
    match jGet fs (txt "candidates") with
    | some (JVal.arr xs) => xs.flatMap gemini_cand_texts
    | _ => []
  | _ => []

/-- The text fields of a chunk under the Gemini dialect. -/
def gemini_chunk_texts : Chunk → List (List Char)
  | Chunk.data j => gemini_json_texts j
  | _ => []

theorem gemini_strip_part_unmodified (marker : List Char) (p : JVal)
    (h : ∀ s, gemini_part_text p = some s → ¬ pyIn marker s) :
    ∀ out, gemini_strip_part marker p = some out → out.2 = false := by
  intro out hout
  unfold gemini_strip_part at hout
  unfold gemini_part_text at h
  cases p with
  | obj pfs =>
    try dsimp only at hout
    try dsimp only at h
    rcases ht : jGet pfs (txt "text") with _ | v
    · rw [ht] at hout
      try dsimp only at hout
      cases hout
      rfl
    · rw [ht] at hout h
      cases v with
      | str s =>
        try dsimp only at hout
        try dsimp only at h
        have hs := h s rfl
        rw [if_neg hs] at hout
        cases hout
        rfl
      | null => exact absurd hout (by simp)
      | bool b => exact absurd hout (by simp)
      | num n => exact absurd hout (by simp)
      | arr ys => exact absurd hout (by simp)
      | obj gs => exact absurd hout (by simp)
  | str s =>
    try dsimp only at hout
    split at hout
    · exact absurd hout (by simp)
    · cases hout
      rfl
  | arr xs =>
    try dsimp only at hout
    split at hout
    · exact absurd hout (by simp)
    · cases hout
      rfl
  | null => exact absurd hout (by simp)
  | bool b => exact absurd hout (by simp)
  | num n => exact absurd hout (by simp)

theorem gemini_strip_parts_unmodified (marker : List Char) (ps : List JVal)
    (h : ∀ s ∈ ps.filterMap gemini_part_text, ¬ pyIn marker s) :
    ∀ out, gemini_strip_parts marker ps = some out → out.2 = false := by
  induction ps with
  | nil =>
    intro out hout
    cases hout
    rfl
  | cons p rest ih =>
    intro out hout
    unfold gemini_strip_parts at hout
    rcases h1 : gemini_strip_part marker p with _ | p1
    · rw [h1] at hout
      exact absurd hout (by simp)
    · rcases h2 : gemini_strip_parts marker rest with _ | p2
      · rw [h1, h2] at hout
        rcases p1 with ⟨q1, m1⟩
        exact absurd hout (by simp)
      · rw [h1, h2] at hout
        rcases p1 with ⟨q1, m1⟩
        rcases p2 with ⟨rest2, m2⟩
        dsimp only at hout
        cases hout
        have hm1 : m1 = false := by
          have := gemini_strip_part_unmodified marker p
            (fun s hs => h s (List.mem_filterMap.mpr ⟨p, by simp, hs⟩)) (q1, m1) h1
          simpa using this
        have hm2 : m2 = false := by
          have := ih (fun s hs => by
            obtain ⟨a, ha, hfa⟩ := List.mem_filterMap.mp hs
            exact h s (List.mem_filterMap.mpr ⟨a, by simp [ha], hfa⟩)) (rest2, m2) h2
          simpa using this
        simp [hm1, hm2]

theorem gemini_strip_cand_unmodified (marker : List Char) (c : JVal)
    (h : ∀ s ∈ gemini_cand_texts c, ¬ pyIn marker s) :
    ∀ out, gemini_strip_cand marker c = some out → out.2 = false := by
  intro out hout
  unfold gemini_strip_cand at hout
  unfold gemini_cand_texts at h
  cases c with
  | obj cfs =>
    try dsimp only at hout
    try dsimp only at h
    rcases hco : (jGet cfs (txt "content")).getD (JVal.obj []) with _ | _ | _ | s | xs | cofs
    all_goals rw [hco] at hout h
    · exact absurd hout (by simp)
    · exact absurd hout (by simp)
    · exact absurd hout (by simp)
    · exact absurd hout (by simp)
    · exact absurd hout (by simp)
    · try dsimp only at hout
      try dsimp only at h
      rcases hp : jGet cofs (txt "parts") with _ | v
      · rw [hp] at hout
        try dsimp only at hout
        cases hout
        rfl
      · rw [hp] at hout h
        cases v with
        | arr ps =>
          try dsimp only at hout
          try dsimp only at h
          rcases hsp : gemini_strip_parts marker ps with _ | q
          · rw [hsp] at hout
            exact absurd hout (by simp)
          · rw [hsp] at hout
            try dsimp only at hout
            cases hout
            exact gemini_strip_parts_unmodified marker ps h q hsp
        | str s =>
          try dsimp only at hout
          split at hout
          · cases hout
            rfl
          · exact absurd hout (by simp)
        | obj gs =>
          try dsimp only at hout
          split at hout
          · cases hout
            rfl
          · exact absurd hout (by simp)
        | null => exact absurd hout (by simp)
        | bool b => exact absurd hout (by simp)
        | num n => exact absurd hout (by simp)
  | null => exact absurd hout (by simp)
  | bool b => exact absurd hout (by simp)
  | num n => exact absurd hout (by simp)
  | str s => exact absurd hout (by simp)
  | arr ys => exact absurd hout (by simp)

theorem gemini_strip_cands_unmodified (marker : List Char) (xs : List JVal)
    (h : ∀ s ∈ xs.flatMap gemini_cand_texts, ¬ pyIn marker s) :
    ∀ out, gemini_strip_cands marker xs = some out → out.2 = false := by
  induction xs with
  | nil =>
    intro out hout
    cases hout
    rfl
  | cons c rest ih =>
    intro out hout
    unfold gemini_strip_cands at hout
    rcases h1 : gemini_strip_cand marker c with _ | p1
    · rw [h1] at hout
      exact absurd hout (by simp)
    · rcases h2 : gemini_strip_cands marker rest with _ | p2
      · rw [h1, h2] at hout
        rcases p1 with ⟨c2, m1⟩
        exact absurd hout (by simp)
      · rw [h1, h2] at hout
        rcases p1 with ⟨c2, m1⟩
        rcases p2 with ⟨rest2, m2⟩
        dsimp only at hout
        cases hout
        have hm1 : m1 = false := by
          have := gemini_strip_cand_unmodified marker c
            (fun s hs => h s (List.mem_flatMap.mpr ⟨c, by simp, hs⟩)) (c2, m1) h1
          simpa using this
        have hm2 : m2 = false := by
          have := ih (fun s hs => by
            obtain ⟨a, ha, hfa⟩ := List.mem_flatMap.mp hs
            exact h s (List.mem_flatMap.mpr ⟨a, by simp [ha], hfa⟩)) (rest2, m2) h2
          simpa using this
        simp [hm1, hm2]

theorem gemini_strip_json_unmodified (marker : List Char) (j : JVal)
    (h : ∀ s ∈ gemini_json_texts j, ¬ pyIn marker s) :
    ∀ out, gemini_strip_json marker j = some out → out.2 = false := by
  intro out hout
  unfold gemini_strip_json at hout
  unfold gemini_json_texts at h
  cases j with
  | obj fs =>
    try dsimp only at hout
    try dsimp only at h
    rcases hch : jGet fs (txt "candidates") with _ | v
    · rw [hch] at hout
      try dsimp only at hout
      cases hout
      rfl
    · rw [hch] at hout h
      cases v with
      | arr xs =>
        try dsimp only at hout
        try dsimp only at h
        rcases hsc : gemini_strip_cands marker xs with _ | p
        · rw [hsc] at hout
          exact absurd hout (by simp)
        · rw [hsc] at hout
          try dsimp only at hout
          cases hout
          exact gemini_strip_cands_unmodified marker xs h p hsc
      | str s =>
        try dsimp only at hout
        split at hout
        · cases hout
          rfl
        · exact absurd hout (by simp)
      | obj gs =>
        try dsimp only at hout
        split at hout
        · cases hout
          rfl
        · exact absurd hout (by simp)
      | null => exact absurd hout (by simp)
      | bool b => exact absurd hout (by simp)
      | num n => exact absurd hout (by simp)
  | null => exact absurd hout (by simp)
  | bool b => exact absurd hout (by simp)
  | num n => exact absurd hout (by simp)
  | str s => exact absurd hout (by simp)
  | arr ys => exact absurd hout (by simp)

theorem gemini_strip_marker_free (marker : List Char) (c : Chunk)
    (h : ∀ s ∈ gemini_chunk_texts c, ¬ pyIn marker s) :
    gemini_strip_done_marker c marker = c := by
  unfold gemini_strip_done_marker
  by_cases h1 : pyIn marker c.bytes
  · rw [if_neg (not_not_intro h1)]
    by_cases h2 : pyStarts (txt "data: ") c.bytes
    · rw [if_pos h2]
      cases c with
      | raw s => rfl
      | event name j => rfl
      | data j =>
        dsimp only
        rcases hs : gemini_strip_json marker j with _ | p
        · rfl
        · rcases p with ⟨j2, b⟩
          have hb : b = false := by
            have := gemini_strip_json_unmodified marker j h (j2, b) hs
            simpa using this
          rw [hb]
    · rw [if_neg h2]
  · rw [if_pos h1]

/-- The `delta.text` string of a Claude event payload, when present. -/
def claude_delta_text (j : JVal) : Option (List Char) :=
  match j with
  | JVal.obj fs =>
    match (jGet fs (txt "delta")).getD (JVal.obj []) with
    | JVal.obj dfs =>
      match jGet dfs (txt "text") with
      | some (JVal.str s) => some s
      | _ => none
    | _ => none
  | _ => none

/-- The text fields of a chunk under the Claude dialect (only a
`content_block_delta` event carries one). -/
def claude_chunk_texts : Chunk → List (List Char)
  | Chunk.event name j =>
    if name = txt "content_block_delta" then (claude_delta_text j).toList else []
  | _ => []

theorem claude_strip_json_unmodified (marker : List Char) (j : JVal)
    (h : ∀ s, claude_delta_text j = some s → ¬ pyIn marker s) :
    ∀ out, claude_strip_json marker j = some out → out = none := by
  intro out hout
  unfold claude_strip_json at hout
  unfold claude_delta_text at h
  cases j with
  | obj fs =>
    try dsimp only at hout
    try dsimp only at h
    rcases hdelta : (jGet fs (txt "delta")).getD (JVal.obj []) with _ | _ | _ | s | xs | dfs
    all_goals rw [hdelta] at hout h
    · exact absurd hout (by simp)
    · exact absurd hout (by simp)
    · exact absurd hout (by simp)
    · try dsimp only at hout
      split at hout
      · exact absurd hout (by simp)
      · cases hout
        rfl
    · try dsimp only at hout
      split at hout
      · exact absurd hout (by simp)
      · cases hout
        rfl
    · try dsimp only at hout
      try dsimp only at h
      rcases hc : jGet dfs (txt "text") with _ | v
      · rw [hc] at hout
        try dsimp only at hout
        cases hout
        rfl
      · rw [hc] at hout h
        cases v with
        | str s =>
          try dsimp only at hout
          try dsimp only at h
          have hs := h s rfl
          rw [if_neg hs] at hout
          cases hout
          rfl
        | null => exact absurd hout (by simp)
        | bool b => exact absurd hout (by simp)
        | num n => exact absurd hout (by simp)
        | arr ys => exact absurd hout (by simp)
        | obj gs => exact absurd hout (by simp)
  | null => exact absurd hout (by simp)
  | bool b => exact absurd hout (by simp)
  | num n => exact absurd hout (by simp)
  | str s => exact absurd hout (by simp)
  | arr ys => exact absurd hout (by simp)

theorem claude_strip_marker_free (marker : List Char) (c : Chunk)
    (h : ∀ s ∈ claude_chunk_texts c, ¬ pyIn marker s) :
    claude_strip_done_marker c marker = c := by
  unfold claude_strip_done_marker
  by_cases h1 : pyIn marker c.bytes
  · rw [if_neg (not_not_intro h1)]
    cases c with
    | raw s => rfl
    | data j => rfl
    | event name j =>
      dsimp only
      by_cases hn : name = txt "content_block_delta"
      · rw [if_pos hn]
        rcases hs : claude_strip_json marker j with _ | o
        · rfl
        · have ho : o = none := by
            apply claude_strip_json_unmodified marker j ?_ o hs
            intro s hds
            apply h s
            unfold claude_chunk_texts
            dsimp only
            rw [if_pos hn, hds]
            simp
          rw [ho]
      · rw [if_neg hn]
  · rw [if_pos h1]

/-- C7: a chunk whose text/content fields do not contain the marker -
including malformed, non-JSON, empty and comment-only chunks, which
have no such fields at all - is returned byte-identical by
`strip_done_marker`, for each of the three dialect parsers.  (Equality
of chunks gives equality of their byte sequences via `Chunk.bytes`.) -/
theorem c7_strip_preserves_marker_free_chunks :
    (∀ (marker : List Char) (c : Chunk),
      (∀ s ∈ openai_chunk_contents c, ¬ pyIn marker s) →
      openai_strip_done_marker c marker = c) ∧
    (∀ (marker : List Char) (c : Chunk),
      (∀ s ∈ gemini_chunk_texts c, ¬ pyIn marker s) →
      gemini_strip_done_marker c marker = c) ∧
    (∀ (marker : List Char) (c : Chunk),
      (∀ s ∈ claude_chunk_texts c, ¬ pyIn marker s) →
      claude_strip_done_marker c marker = c) :=
  ⟨openai_strip_marker_free, gemini_strip_marker_free, claude_strip_marker_free⟩

/-- Witness for C7: a malformed non-JSON chunk containing the marker,
and a well-formed chunk whose content lacks the marker, both survive
all three strips byte-identically. -/
theorem c7_strip_preserves_marker_free_chunks_witness :
    openai_strip_done_marker (Chunk.raw (txt "data: not json [done]\n\n"))
        (txt "[done]") = Chunk.raw (txt "data: not json [done]\n\n") ∧
    openai_strip_done_marker
        (Chunk.data (JVal.obj [(txt "choices", JVal.arr [JVal.obj [(txt "delta",
          JVal.obj [(txt "content", JVal.str (txt "hello"))])]])]))
        (txt "[done]") =
      Chunk.data (JVal.obj [(txt "choices", JVal.arr [JVal.obj [(txt "delta",
        JVal.obj [(txt "content", JVal.str (txt "hello"))])]])]) ∧
    gemini_strip_done_marker (Chunk.raw (txt ": comment [done]\n\n")) (txt "[done]") =
      Chunk.raw (txt ": comment [done]\n\n") ∧
    claude_strip_done_marker (Chunk.raw (txt "")) (txt "[done]") = Chunk.raw (txt "") :=
  ⟨c7_strip_preserves_marker_free_chunks.1 (txt "[done]")
      (Chunk.raw (txt "data: not json [done]\n\n")) (by intro s hs; simp [openai_chunk_contents] at hs),
   c7_strip_preserves_marker_free_chunks.1 (txt "[done]") _ (by
      intro s hs
      simp [openai_chunk_contents, openai_json_contents, jGet,
        openai_choice_content, txt] at hs
      subst hs
      decide),
   c7_strip_preserves_marker_free_chunks.2.1 (txt "[done]")
      (Chunk.raw (txt ": comment [done]\n\n")) (by intro s hs; simp [gemini_chunk_texts] at hs),
   c7_strip_preserves_marker_free_chunks.2.2 (txt "[done]")
      (Chunk.raw (txt "")) (by intro s hs; simp [claude_chunk_texts] at hs)⟩

/-! ### Claim C6: strip idempotence -/

theorem jGet_jSet_present (fs : List (List Char × JVal)) (k : List Char) (v w : JVal)
    (h : jGet fs k = some w) : jGet (jSet fs k v) k = some v := by
  induction fs with
  | nil => simp [jGet] at h
  | cons f rest ih =>
    by_cases hk : f.1 = k
    · simp [jGet, jSet, hk]
    · have h' : jGet rest k = some w := by
        simpa [jGet, List.find?_cons, hk] using h
      simpa [jGet, jSet, hk] using ih h'

theorem openai_strip_choice_content_src (marker : List Char) (c c2 : JVal) (m : Bool)
    (h : openai_strip_choice marker c = some (c2, m)) :
    ∀ s', openai_choice_content c2 = some s' →
      (openai_choice_content c = some s' ∧ ¬ pyIn marker s') ∨
      (∃ s, openai_choice_content c = some s ∧ s' = pyRemoveAll marker s ∧
        pyIn marker s) := by
  intro s' hs'
  unfold openai_strip_choice at h
  cases c with
  | obj cfs =>
    dsimp only at h
    rcases hdelta : (jGet cfs (txt "delta")).getD (JVal.obj []) with _ | _ | _ | t | xs | dfs
    all_goals rw [hdelta] at h
    · exact absurd h (by simp)
    · exact absurd h (by simp)
    · exact absurd h (by simp)
    · try dsimp only at h
      split at h
      · exact absurd h (by simp)
      · cases h
        unfold openai_choice_content at hs'
        dsimp only at hs'
        rw [hdelta] at hs'
        exact absurd hs' (by simp)
    · try dsimp only at h
      split at h
      · exact absurd h (by simp)
      · cases h
        unfold openai_choice_content at hs'
        dsimp only at hs'
        rw [hdelta] at hs'
        exact absurd hs' (by simp)
    · try dsimp only at h
      rcases hc : jGet dfs (txt "content") with _ | v
      · rw [hc] at h
        try dsimp only at h
        cases h
        unfold openai_choice_content at hs'
        dsimp only at hs'
        rw [hdelta] at hs'
        dsimp only at hs'
        rw [hc] at hs'
        exact absurd hs' (by simp)
      · rw [hc] at h
        cases v with
        | str s =>
          try dsimp only at h
          by_cases hin : pyIn marker s
          · rw [if_pos hin] at h
            cases h
            -- the delta key must be present for a nonempty dfs lookup
            rcases hjd : jGet cfs (txt "delta") with _ | d
            · rw [hjd] at hdelta
              simp only [Option.getD_none, JVal.obj.injEq] at hdelta
              rw [← hdelta] at hc
              simp [jGet] at hc
            · rw [hjd] at hdelta
              simp only [Option.getD_some] at hdelta
              subst hdelta
              right
              refine ⟨s, ?_, ?_, hin⟩
              · unfold openai_choice_content
                dsimp only
                rw [hjd]
                simp only [Option.getD_some]
                try dsimp only
                rw [hc]
              · unfold openai_choice_content at hs'
                dsimp only at hs'
                rw [jGet_jSet_present cfs (txt "delta") _ _ hjd] at hs'
                simp only [Option.getD_some] at hs'
                rw [jGet_jSet_present dfs (txt "content") _ _ hc] at hs'
                simp only [Option.some.injEq] at hs'
                exact hs'.symm
          · rw [if_neg hin] at h
            cases h
            unfold openai_choice_content at hs'
            dsimp only at hs'
            rw [hdelta] at hs'
            dsimp only at hs'
            rw [hc] at hs'
            simp only [Option.some.injEq] at hs'
            subst hs'
            left
            constructor
            · unfold openai_choice_content
              dsimp only
              rw [hdelta]
              dsimp only
              rw [hc]
            · exact hin
        | null => exact absurd h (by simp)
        | bool b => exact absurd h (by simp)
        | num n => exact absurd h (by simp)
        | arr ys => exact absurd h (by simp)
        | obj gs => exact absurd h (by simp)
  | null => exact absurd h (by simp)
  | bool b => exact absurd h (by simp)
  | num n => exact absurd h (by simp)
  | str s => exact absurd h (by simp)
  | arr ys => exact absurd h (by simp)

theorem openai_strip_choices_content_src (marker : List Char) (xs : List JVal) :
    ∀ (xs2 : List JVal) (m : Bool),
      openai_strip_choices marker xs = some (xs2, m) →
      ∀ s' ∈ xs2.filterMap openai_choice_content,
        (s' ∈ xs.filterMap openai_choice_content ∧ ¬ pyIn marker s') ∨
        (∃ s ∈ xs.filterMap openai_choice_content,
          s' = pyRemoveAll marker s ∧ pyIn marker s) := by
  induction xs with
  | nil =>
    intro xs2 m h s' hs'
    cases h
    simp at hs'
  | cons c rest ih =>
    intro xs2 m h s' hs'
    unfold openai_strip_choices at h
    rcases h1 : openai_strip_choice marker c with _ | p1
    · rw [h1] at h
      exact absurd h (by simp)
    · rcases h2 : openai_strip_choices marker rest with _ | p2
      · rw [h1, h2] at h
        rcases p1 with ⟨c2, m1⟩
        exact absurd h (by simp)
      · rw [h1, h2] at h
        rcases p1 with ⟨c2, m1⟩
        rcases p2 with ⟨rest2, m2⟩
        dsimp only at h
        cases h
        obtain ⟨a, ha, hfa⟩ := List.mem_filterMap.mp hs'
        rcases List.mem_cons.mp ha with rfl | ha'
        · rcases openai_strip_choice_content_src marker c a m1 h1 s' hfa with
            ⟨hcc, hnin⟩ | ⟨s, hcc, hrw, hin⟩
          · exact Or.inl ⟨List.mem_filterMap.mpr ⟨c, by simp, hcc⟩, hnin⟩
          · exact Or.inr ⟨s, List.mem_filterMap.mpr ⟨c, by simp, hcc⟩, hrw, hin⟩
        · rcases ih rest2 m2 h2 s' (List.mem_filterMap.mpr ⟨a, ha', hfa⟩) with
            ⟨hmem, hnin⟩ | ⟨s, hmem, hrw, hin⟩
          · obtain ⟨b, hb, hfb⟩ := List.mem_filterMap.mp hmem
            exact Or.inl ⟨List.mem_filterMap.mpr ⟨b, by simp [hb], hfb⟩, hnin⟩
          · obtain ⟨b, hb, hfb⟩ := List.mem_filterMap.mp hmem
            exact Or.inr ⟨s, List.mem_filterMap.mpr ⟨b, by simp [hb], hfb⟩, hrw, hin⟩

theorem openai_strip_json_content_src (marker : List Char) (j j2 : JVal) (m : Bool)
    (h : openai_strip_json marker j = some (j2, m)) :
    ∀ s' ∈ openai_json_contents j2,
      (s' ∈ openai_json_contents j ∧ ¬ pyIn marker s') ∨
      (∃ s ∈ openai_json_contents j,
        s' = pyRemoveAll marker s ∧ pyIn marker s) := by
  intro s' hs'
  unfold openai_strip_json at h
  cases j with
  | obj fs =>
    try dsimp only at h
    rcases hch : jGet fs (txt "choices") with _ | v
    · rw [hch] at h
      try dsimp only at h
      cases h
      unfold openai_json_contents at hs'
      dsimp only at hs'
      rw [hch] at hs'
      simp at hs'
    · rw [hch] at h
      cases v with
      | arr xs =>
        try dsimp only at h
        rcases hsc : openai_strip_choices marker xs with _ | p
        · rw [hsc] at h
          exact absurd h (by simp)
        · rw [hsc] at h
          try dsimp only at h
          cases h
          unfold openai_json_contents at hs'
          dsimp only at hs'
          rw [jGet_jSet_present fs (txt "choices") _ _ hch] at hs'
          have := openai_strip_choices_content_src marker xs p.1 p.2 (by
            rw [hsc]) s' hs'
          unfold openai_json_contents
          dsimp only
          rw [hch]
          exact this
      | str s =>
        try dsimp only at h
        split at h
        · cases h
          unfold openai_json_contents at hs'
          dsimp only at hs'
          rw [hch] at hs'
          simp at hs'
        · exact absurd h (by simp)
      | obj gs =>
        try dsimp only at h
        split at h
        · cases h
          unfold openai_json_contents at hs'
          dsimp only at hs'
          rw [hch] at hs'
          simp at hs'
        · exact absurd h (by simp)
      | null => exact absurd h (by simp)
      | bool b => exact absurd h (by simp)
      | num n => exact absurd h (by simp)
  | null => exact absurd h (by simp)
  | bool b => exact absurd h (by simp)
  | num n => exact absurd h (by simp)
  | str s => exact absurd h (by simp)
  | arr ys => exact absurd h (by simp)

theorem data_bytes_starts (j : JVal) : pyStarts (txt "data: ") (Chunk.data j).bytes :=
  ⟨jdumps j ++ ['\n', '\n'], by simp [Chunk.bytes]⟩

theorem openai_strip_idem (marker : List Char) (c : Chunk)
    (h : ∀ s ∈ openai_chunk_contents c,
      pyIn marker s → ¬ pyIn marker (pyRemoveAll marker s)) :
    openai_strip_done_marker (openai_strip_done_marker c marker) marker =
      openai_strip_done_marker c marker := by
  by_cases h1 : pyIn marker c.bytes
  · by_cases h2 : pyStarts (txt "data: ") c.bytes
    · cases c with
      | raw s =>
        have e : openai_strip_done_marker (Chunk.raw s) marker = Chunk.raw s := by
          unfold openai_strip_done_marker
          rw [if_neg (not_not_intro h1), if_pos h2]
        rw [e, e]
      | event name j =>
        have e : openai_strip_done_marker (Chunk.event name j) marker =
            Chunk.event name j := by
          unfold openai_strip_done_marker
          rw [if_neg (not_not_intro h1), if_pos h2]
        rw [e, e]
      | data j =>
        rcases hs : openai_strip_json marker j with _ | p
        · have e : openai_strip_done_marker (Chunk.data j) marker = Chunk.data j := by
            unfold openai_strip_done_marker
            rw [if_neg (not_not_intro h1), if_pos h2]
            dsimp only
            rw [hs]
          rw [e, e]
        · rcases p with ⟨j2, b⟩
          cases b with
          | false =>
            have e : openai_strip_done_marker (Chunk.data j) marker = Chunk.data j := by
              unfold openai_strip_done_marker
              rw [if_neg (not_not_intro h1), if_pos h2]
              dsimp only
              rw [hs]
            rw [e, e]
          | true =>
            have e : openai_strip_done_marker (Chunk.data j) marker = Chunk.data j2 := by
              unfold openai_strip_done_marker
              rw [if_neg (not_not_intro h1), if_pos h2]
              dsimp only
              rw [hs]
            rw [e]
            apply openai_strip_marker_free
            intro s' hs'
            rcases openai_strip_json_content_src marker j j2 true hs s' hs' with
              ⟨hmem, hnin⟩ | ⟨s, hmem, hrw, hin⟩
            · exact hnin
            · rw [hrw]
              exact h s hmem hin
    · have e : openai_strip_done_marker c marker = c := by
        unfold openai_strip_done_marker
        rw [if_neg (not_not_intro h1), if_neg h2]
      rw [e, e]
  · have e : openai_strip_done_marker c marker = c := by
      unfold openai_strip_done_marker
      rw [if_pos h1]
    rw [e, e]

theorem gemini_strip_part_content_src (marker : List Char) (p p2 : JVal) (m : Bool)
    (h : gemini_strip_part marker p = some (p2, m)) :
    ∀ s', gemini_part_text p2 = some s' →
      (gemini_part_text p = some s' ∧ ¬ pyIn marker s') ∨
      (∃ s, gemini_part_text p = some s ∧ s' = pyRemoveAll marker s ∧
        pyIn marker s) := by
  intro s' hs'
  unfold gemini_strip_part at h
  cases p with
  | obj pfs =>
    try dsimp only at h
    rcases ht : jGet pfs (txt "text") with _ | v
    · rw [ht] at h
      try dsimp only at h
      cases h
      unfold gemini_part_text at hs'
      dsimp only at hs'
      rw [ht] at hs'
      exact absurd hs' (by simp)
    · rw [ht] at h
      cases v with
      | str s =>
        try dsimp only at h
        by_cases hin : pyIn marker s
        · rw [if_pos hin] at h
          cases h
          right
          refine ⟨s, ?_, ?_, hin⟩
          · unfold gemini_part_text
            dsimp only
            rw [ht]
          · unfold gemini_part_text at hs'
            dsimp only at hs'
            rw [jGet_jSet_present pfs (txt "text") _ _ ht] at hs'
            simp only [Option.some.injEq] at hs'
            exact hs'.symm
        · rw [if_neg hin] at h
          cases h
          unfold gemini_part_text at hs'
          dsimp only at hs'
          rw [ht] at hs'
          simp only [Option.some.injEq] at hs'
          subst hs'
          left
          refine ⟨?_, hin⟩
          unfold gemini_part_text
          dsimp only
          rw [ht]
      | null => exact absurd h (by simp)
      | bool b => exact absurd h (by simp)
      | num n => exact absurd h (by simp)
      | arr ys => exact absurd h (by simp)
      | obj gs => exact absurd h (by simp)
  | str s =>
    try dsimp only at h
    split at h
    · exact absurd h (by simp)
    · cases h
      unfold gemini_part_text at hs'
      exact absurd hs' (by simp)
  | arr xs =>
    try dsimp only at h
    split at h
    · exact absurd h (by simp)
    · cases h
      unfold gemini_part_text at hs'
      exact absurd hs' (by simp)
  | null => exact absurd h (by simp)
  | bool b => exact absurd h (by simp)
  | num n => exact absurd h (by simp)

theorem gemini_strip_parts_content_src (marker : List Char) (ps : List JVal) :
    ∀ (ps2 : List JVal) (m : Bool),
      gemini_strip_parts marker ps = some (ps2, m) →
      ∀ s' ∈ ps2.filterMap gemini_part_text,
        (s' ∈ ps.filterMap gemini_part_text ∧ ¬ pyIn marker s') ∨
        (∃ s ∈ ps.filterMap gemini_part_text,
          s' = pyRemoveAll marker s ∧ pyIn marker s) := by
  induction ps with
  | nil =>
    intro ps2 m h s' hs'
    cases h
    simp at hs'
  | cons p rest ih =>
    intro ps2 m h s' hs'
    unfold gemini_strip_parts at h
    rcases h1 : gemini_strip_part marker p with _ | q1
    · rw [h1] at h
      exact absurd h (by simp)
    · rcases h2 : gemini_strip_parts marker rest with _ | q2
      · rw [h1, h2] at h
        rcases q1 with ⟨p2, m1⟩
        exact absurd h (by simp)
      · rw [h1, h2] at h
        rcases q1 with ⟨p2, m1⟩
        rcases q2 with ⟨rest2, m2⟩
        dsimp only at h
        cases h
        obtain ⟨a, ha, hfa⟩ := List.mem_filterMap.mp hs'
        rcases List.mem_cons.mp ha with rfl | ha'
        · rcases gemini_strip_part_content_src marker p a m1 h1 s' hfa with
            ⟨hcc, hnin⟩ | ⟨s, hcc, hrw, hin⟩
          · exact Or.inl ⟨List.mem_filterMap.mpr ⟨p, by simp, hcc⟩, hnin⟩
          · exact Or.inr ⟨s, List.mem_filterMap.mpr ⟨p, by simp, hcc⟩, hrw, hin⟩
        · rcases ih rest2 m2 h2 s' (List.mem_filterMap.mpr ⟨a, ha', hfa⟩) with
            ⟨hmem, hnin⟩ | ⟨s, hmem, hrw, hin⟩
          · obtain ⟨b, hb, hfb⟩ := List.mem_filterMap.mp hmem
            exact Or.inl ⟨List.mem_filterMap.mpr ⟨b, by simp [hb], hfb⟩, hnin⟩
          · obtain ⟨b, hb, hfb⟩ := List.mem_filterMap.mp hmem
            exact Or.inr ⟨s, List.mem_filterMap.mpr ⟨b, by simp [hb], hfb⟩, hrw, hin⟩

theorem gemini_strip_cand_content_src (marker : List Char) (c c2 : JVal) (m : Bool)
    (h : gemini_strip_cand marker c = some (c2, m)) :
    ∀ s' ∈ gemini_cand_texts c2,
      (s' ∈ gemini_cand_texts c ∧ ¬ pyIn marker s') ∨
      (∃ s ∈ gemini_cand_texts c,
        s' = pyRemoveAll marker s ∧ pyIn marker s) := by
  intro s' hs'
  unfold gemini_strip_cand at h
  cases c with
  | obj cfs =>
    try dsimp only at h
    rcases hco : (jGet cfs (txt "content")).getD (JVal.obj []) with _ | _ | _ | t | xs | cofs
    all_goals rw [hco] at h
    · exact absurd h (by simp)
    · exact absurd h (by simp)
    · exact absurd h (by simp)
    · exact absurd h (by simp)
    · exact absurd h (by simp)
    · try dsimp only at h
      rcases hp : jGet cofs (txt "parts") with _ | v
      · rw [hp] at h
        try dsimp only at h
        cases h
        unfold gemini_cand_texts at hs'
        dsimp only at hs'
        rw [hco] at hs'
        dsimp only at hs'
        rw [hp] at hs'
        simp at hs'
      · rw [hp] at h
        cases v with
        | arr ps =>
          try dsimp only at h
          rcases hsp : gemini_strip_parts marker ps with _ | q
          · rw [hsp] at h
            exact absurd h (by simp)
          · rw [hsp] at h
            try dsimp only at h
            cases h
            -- the content and parts keys must be present
            rcases hjc : jGet cfs (txt "content") with _ | d
            · rw [hjc] at hco
              simp only [Option.getD_none, JVal.obj.injEq] at hco
              rw [← hco] at hp
              simp [jGet] at hp
            · rw [hjc] at hco
              simp only [Option.getD_some] at hco
              subst hco
              unfold gemini_cand_texts at hs'
              dsimp only at hs'
              rw [jGet_jSet_present cfs (txt "content") _ _ hjc] at hs'
              simp only [Option.getD_some] at hs'
              try dsimp only at hs'
              rw [jGet_jSet_present cofs (txt "parts") _ _ hp] at hs'
              have := gemini_strip_parts_content_src marker ps q.1 q.2 (by rw [hsp])
                s' hs'
              unfold gemini_cand_texts
              dsimp only
              rw [hjc]
              simp only [Option.getD_some]
              try dsimp only
              rw [hp]
              exact this
        | str s =>
          try dsimp only at h
          split at h
          · cases h
            unfold gemini_cand_texts at hs'
            dsimp only at hs'
            rw [hco] at hs'
            dsimp only at hs'
            rw [hp] at hs'
            simp at hs'
          · exact absurd h (by simp)
        | obj gs =>
          try dsimp only at h
          split at h
          · cases h
            unfold gemini_cand_texts at hs'
            dsimp only at hs'
            rw [hco] at hs'
            dsimp only at hs'
            rw [hp] at hs'
            simp at hs'
          · exact absurd h (by simp)
        | null => exact absurd h (by simp)
        | bool b => exact absurd h (by simp)
        | num n => exact absurd h (by simp)
  | null => exact absurd h (by simp)
  | bool b => exact absurd h (by simp)
  | num n => exact absurd h (by simp)
  | str s => exact absurd h (by simp)
  | arr ys => exact absurd h (by simp)

theorem gemini_strip_cands_content_src (marker : List Char) (xs : List JVal) :
    ∀ (xs2 : List JVal) (m : Bool),
      gemini_strip_cands marker xs = some (xs2, m) →
      ∀ s' ∈ xs2.flatMap gemini_cand_texts,
        (s' ∈ xs.flatMap gemini_cand_texts ∧ ¬ pyIn marker s') ∨
        (∃ s ∈ xs.flatMap gemini_cand_texts,
          s' = pyRemoveAll marker s ∧ pyIn marker s) := by
  induction xs with
  | nil =>
    intro xs2 m h s' hs'
    cases h
    simp at hs'
  | cons c rest ih =>
    intro xs2 m h s' hs'
    unfold gemini_strip_cands at h
    rcases h1 : gemini_strip_cand marker c with _ | q1
    · rw [h1] at h
      exact absurd h (by simp)
    · rcases h2 : gemini_strip_cands marker rest with _ | q2
      · rw [h1, h2] at h
        rcases q1 with ⟨c2, m1⟩
        exact absurd h (by simp)
      · rw [h1, h2] at h
        rcases q1 with ⟨c2, m1⟩
        rcases q2 with ⟨rest2, m2⟩
        dsimp only at h
        cases h
        obtain ⟨a, ha, hfa⟩ := List.mem_flatMap.mp hs'
        rcases List.mem_cons.mp ha with rfl | ha'
        · rcases gemini_strip_cand_content_src marker c a m1 h1 s' hfa with
            ⟨hcc, hnin⟩ | ⟨s, hcc, hrw, hin⟩
          · exact Or.inl ⟨List.mem_flatMap.mpr ⟨c, by simp, hcc⟩, hnin⟩
          · exact Or.inr ⟨s, List.mem_flatMap.mpr ⟨c, by simp, hcc⟩, hrw, hin⟩
        · rcases ih rest2 m2 h2 s' (List.mem_flatMap.mpr ⟨a, ha', hfa⟩) with
            ⟨hmem, hnin⟩ | ⟨s, hmem, hrw, hin⟩
          · obtain ⟨b, hb, hfb⟩ := List.mem_flatMap.mp hmem
            exact Or.inl ⟨List.mem_flatMap.mpr ⟨b, by simp [hb], hfb⟩, hnin⟩
          · obtain ⟨b, hb, hfb⟩ := List.mem_flatMap.mp hmem
            exact Or.inr ⟨s, List.mem_flatMap.mpr ⟨b, by simp [hb], hfb⟩, hrw, hin⟩

theorem gemini_strip_json_content_src (marker : List Char) (j j2 : JVal) (m : Bool)
    (h : gemini_strip_json marker j = some (j2, m)) :
    ∀ s' ∈ gemini_json_texts j2,
      (s' ∈ gemini_json_texts j ∧ ¬ pyIn marker s') ∨
      (∃ s ∈ gemini_json_texts j,
        s' = pyRemoveAll marker s ∧ pyIn marker s) := by
  intro s' hs'
  unfold gemini_strip_json at h
  cases j with
  | obj fs =>
    try dsimp only at h
    rcases hch : jGet fs (txt "candidates") with _ | v
    · rw [hch] at h
      try dsimp only at h
      cases h
      unfold gemini_json_texts at hs'
      dsimp only at hs'
      rw [hch] at hs'
      simp at hs'
    · rw [hch] at h
      cases v with
      | arr xs =>
        try dsimp only at h
        rcases hsc : gemini_strip_cands marker xs with _ | p
        · rw [hsc] at h
          exact absurd h (by simp)
        · rw [hsc] at h
          try dsimp only at h
          cases h
          unfold gemini_json_texts at hs'
          dsimp only at hs'
          rw [jGet_jSet_present fs (txt "candidates") _ _ hch] at hs'
          have := gemini_strip_cands_content_src marker xs p.1 p.2 (by rw [hsc])
            s' hs'
          unfold gemini_json_texts
          dsimp only
          rw [hch]
          exact this
      | str s =>
        try dsimp only at h
        split at h
        · cases h
          unfold gemini_json_texts at hs'
          dsimp only at hs'
          rw [hch] at hs'
          simp at hs'
        · exact absurd h (by simp)
      | obj gs =>
        try dsimp only at h
        split at h
        · cases h
          unfold gemini_json_texts at hs'
          dsimp only at hs'
          rw [hch] at hs'
          simp at hs'
        · exact absurd h (by simp)
      | null => exact absurd h (by simp)
      | bool b => exact absurd h (by simp)
      | num n => exact absurd h (by simp)
  | null => exact absurd h (by simp)
  | bool b => exact absurd h (by simp)
  | num n => exact absurd h (by simp)
  | str s => exact absurd h (by simp)
  | arr ys => exact absurd h (by simp)

theorem gemini_strip_idem (marker : List Char) (c : Chunk)
    (h : ∀ s ∈ gemini_chunk_texts c,
      pyIn marker s → ¬ pyIn marker (pyRemoveAll marker s)) :
    gemini_strip_done_marker (gemini_strip_done_marker c marker) marker =
      gemini_strip_done_marker c marker := by
  by_cases h1 : pyIn marker c.bytes
  · by_cases h2 : pyStarts (txt "data: ") c.bytes
    · cases c with
      | raw s =>
        have e : gemini_strip_done_marker (Chunk.raw s) marker = Chunk.raw s := by
          unfold gemini_strip_done_marker
          rw [if_neg (not_not_intro h1), if_pos h2]
        rw [e, e]
      | event name j =>
        have e : gemini_strip_done_marker (Chunk.event name j) marker =
            Chunk.event name j := by
          unfold gemini_strip_done_marker
          rw [if_neg (not_not_intro h1), if_pos h2]
        rw [e, e]
      | data j =>
        rcases hs : gemini_strip_json marker j with _ | p
        · have e : gemini_strip_done_marker (Chunk.data j) marker = Chunk.data j := by
            unfold gemini_strip_done_marker
            rw [if_neg (not_not_intro h1), if_pos h2]
            dsimp only
            rw [hs]
          rw [e, e]
        · rcases p with ⟨j2, b⟩
          cases b with
          | false =>
            have e : gemini_strip_done_marker (Chunk.data j) marker = Chunk.data j := by
              unfold gemini_strip_done_marker
              rw [if_neg (not_not_intro h1), if_pos h2]
              dsimp only
              rw [hs]
            rw [e, e]
          | true =>
            have e : gemini_strip_done_marker (Chunk.data j) marker = Chunk.data j2 := by
              unfold gemini_strip_done_marker
              rw [if_neg (not_not_intro h1), if_pos h2]
              dsimp only
              rw [hs]
            rw [e]
            apply gemini_strip_marker_free
            intro s' hs'
            rcases gemini_strip_json_content_src marker j j2 true hs s' hs' with
              ⟨hmem, hnin⟩ | ⟨s, hmem, hrw, hin⟩
            · exact hnin
            · rw [hrw]
              exact h s hmem hin
    · have e : gemini_strip_done_marker c marker = c := by
        unfold gemini_strip_done_marker
        rw [if_neg (not_not_intro h1), if_neg h2]
      rw [e, e]
  · have e : gemini_strip_done_marker c marker = c := by
      unfold gemini_strip_done_marker
      rw [if_pos h1]
    rw [e, e]

theorem claude_strip_json_content_src (marker : List Char) (j j2 : JVal)
    (h : claude_strip_json marker j = some (some j2)) :
    ∀ s', claude_delta_text j2 = some s' →
      ∃ s, claude_delta_text j = some s ∧ s' = pyRemoveAll marker s ∧
        pyIn marker s := by
  intro s' hs'
  unfold claude_strip_json at h
  cases j with
  | obj fs =>
    try dsimp only at h
    rcases hdelta : (jGet fs (txt "delta")).getD (JVal.obj []) with _ | _ | _ | t | xs | dfs
    all_goals rw [hdelta] at h
    · exact absurd h (by simp)
    · exact absurd h (by simp)
    · exact absurd h (by simp)
    · try dsimp only at h
      split at h
      · exact absurd h (by simp)
      · exact absurd h (by simp)
    · try dsimp only at h
      split at h
      · exact absurd h (by simp)
      · exact absurd h (by simp)
    · try dsimp only at h
      rcases hc : jGet dfs (txt "text") with _ | v
      · rw [hc] at h
        try dsimp only at h
        exact absurd h (by simp)
      · rw [hc] at h
        cases v with
        | str s =>
          try dsimp only at h
          by_cases hin : pyIn marker s
          · rw [if_pos hin] at h
            simp only [Option.some.injEq] at h
            subst h
            rcases hjd : jGet fs (txt "delta") with _ | d
            · rw [hjd] at hdelta
              simp only [Option.getD_none, JVal.obj.injEq] at hdelta
              rw [← hdelta] at hc
              simp [jGet] at hc
            · rw [hjd] at hdelta
              simp only [Option.getD_some] at hdelta
              subst hdelta
              refine ⟨s, ?_, ?_, hin⟩
              · unfold claude_delta_text
                dsimp only
                rw [hjd]
                simp only [Option.getD_some]
                try dsimp only
                rw [hc]
              · unfold claude_delta_text at hs'
                dsimp only at hs'
                rw [jGet_jSet_present fs (txt "delta") _ _ hjd] at hs'
                simp only [Option.getD_some] at hs'
                try dsimp only at hs'
                rw [jGet_jSet_present dfs (txt "text") _ _ hc] at hs'
                simp only [Option.some.injEq] at hs'
                exact hs'.symm
          · rw [if_neg hin] at h
            exact absurd h (by simp)
        | null => exact absurd h (by simp)
        | bool b => exact absurd h (by simp)
        | num n => exact absurd h (by simp)
        | arr ys => exact absurd h (by simp)
        | obj gs => exact absurd h (by simp)
  | null => exact absurd h (by simp)
  | bool b => exact absurd h (by simp)
  | num n => exact absurd h (by simp)
  | str s => exact absurd h (by simp)
  | arr ys => exact absurd h (by simp)

theorem claude_strip_idem (marker : List Char) (c : Chunk)
    (h : ∀ s ∈ claude_chunk_texts c,
      pyIn marker s → ¬ pyIn marker (pyRemoveAll marker s)) :
    claude_strip_done_marker (claude_strip_done_marker c marker) marker =
      claude_strip_done_marker c marker := by
  by_cases h1 : pyIn marker c.bytes
  · cases c with
    | raw s =>
      have e : claude_strip_done_marker (Chunk.raw s) marker = Chunk.raw s := by
        unfold claude_strip_done_marker
        rw [if_neg (not_not_intro h1)]
      rw [e, e]
    | data j =>
      have e : claude_strip_done_marker (Chunk.data j) marker = Chunk.data j := by
        unfold claude_strip_done_marker
        rw [if_neg (not_not_intro h1)]
      rw [e, e]
    | event name j =>
      by_cases hn : name = txt "content_block_delta"
      · rcases hs : claude_strip_json marker j with _ | o
        · have e : claude_strip_done_marker (Chunk.event name j) marker =
              Chunk.event name j := by
            unfold claude_strip_done_marker
            rw [if_neg (not_not_intro h1)]
            dsimp only
            rw [if_pos hn, hs]
          rw [e, e]
        · cases o with
          | none =>
            have e : claude_strip_done_marker (Chunk.event name j) marker =
                Chunk.event name j := by
              unfold claude_strip_done_marker
              rw [if_neg (not_not_intro h1)]
              dsimp only
              rw [if_pos hn, hs]
            rw [e, e]
          | some j2 =>
            have e : claude_strip_done_marker (Chunk.event name j) marker =
                Chunk.event name j2 := by
              unfold claude_strip_done_marker
              rw [if_neg (not_not_intro h1)]
              dsimp only
              rw [if_pos hn, hs]
            rw [e]
            apply claude_strip_marker_free
            intro s' hs'
            unfold claude_chunk_texts at hs'
            dsimp only at hs'
            rw [if_pos hn] at hs'
            rcases hdt : claude_delta_text j2 with _ | t
            · rw [hdt] at hs'
              simp at hs'
            · rw [hdt] at hs'
              simp only [Option.toList_some, List.mem_singleton] at hs'
              subst hs'
              obtain ⟨s, hds, hrw, hin⟩ := claude_strip_json_content_src marker j j2 hs s' hdt
              rw [hrw]
              apply h s ?_ hin
              unfold claude_chunk_texts
              dsimp only
              rw [if_pos hn, hds]
              simp
      · have e : claude_strip_done_marker (Chunk.event name j) marker =
            Chunk.event name j := by
          unfold claude_strip_done_marker
          rw [if_neg (not_not_intro h1)]
          dsimp only
          rw [if_neg hn]
        rw [e, e]
  · have e : claude_strip_done_marker c marker = c := by
      unfold claude_strip_done_marker
      rw [if_pos h1]
    rw [e, e]

/-- C6 (counterexample): strip is not idempotent as stated.  With marker
`ab` and an OpenAI chunk whose content is `aabb`, the first strip
removes the middle occurrence and the remaining characters merge into a
fresh `ab`, which the second strip removes as well, so the two byte
sequences differ. -/
theorem c6_strip_idempotent_counterexample :
    (openai_strip_done_marker
        (openai_strip_done_marker
          (Chunk.data (JVal.obj [(txt "choices", JVal.arr [JVal.obj [(txt "delta",
            JVal.obj [(txt "content", JVal.str (txt "aabb"))])]])]))
          (txt "ab"))
        (txt "ab")).bytes ≠
      (openai_strip_done_marker
        (Chunk.data (JVal.obj [(txt "choices", JVal.arr [JVal.obj [(txt "delta",
          JVal.obj [(txt "content", JVal.str (txt "aabb"))])]])]))
        (txt "ab")).bytes := by
  decide

/-- C6 (amended): strip is idempotent - `strip(strip(c)) == strip(c)` -
for every chunk and marker such that removing all marker occurrences
from a text field containing the marker does not itself produce a new
marker occurrence, for each of the three dialect parsers. -/
theorem c6_strip_idempotent_amended :
    (∀ (marker : List Char) (c : Chunk),
      (∀ s ∈ openai_chunk_contents c,
        pyIn marker s → ¬ pyIn marker (pyRemoveAll marker s)) →
      openai_strip_done_marker (openai_strip_done_marker c marker) marker =
        openai_strip_done_marker c marker) ∧
    (∀ (marker : List Char) (c : Chunk),
      (∀ s ∈ gemini_chunk_texts c,
        pyIn marker s → ¬ pyIn marker (pyRemoveAll marker s)) →
      gemini_strip_done_marker (gemini_strip_done_marker c marker) marker =
        gemini_strip_done_marker c marker) ∧
    (∀ (marker : List Char) (c : Chunk),
      (∀ s ∈ claude_chunk_texts c,
        pyIn marker s → ¬ pyIn marker (pyRemoveAll marker s)) →
      claude_strip_done_marker (claude_strip_done_marker c marker) marker =
        claude_strip_done_marker c marker) :=
  ⟨openai_strip_idem, gemini_strip_idem, claude_strip_idem⟩

/-- Witness for the amended C6 at a concrete OpenAI chunk whose content
`x[done]y` strips to the marker-free `xy`. -/
theorem c6_strip_idempotent_amended_witness :
    openai_strip_done_marker
        (openai_strip_done_marker
          (Chunk.data (JVal.obj [(txt "choices", JVal.arr [JVal.obj [(txt "delta",
            JVal.obj [(txt "content", JVal.str (txt "x[done]y"))])]])]))
          (txt "[done]"))
        (txt "[done]") =
      openai_strip_done_marker
        (Chunk.data (JVal.obj [(txt "choices", JVal.arr [JVal.obj [(txt "delta",
          JVal.obj [(txt "content", JVal.str (txt "x[done]y"))])]])]))
        (txt "[done]") :=
  c6_strip_idempotent_amended.1 (txt "[done]") _ (by
    intro s hs
    simp [openai_chunk_contents, openai_json_contents, jGet,
      openai_choice_content, txt] at hs
    subst hs
    intro _
    decide)

/-! ### Claim C1: no marker in downstream text fields -/

/-- Markers whose characters survive JSON string escaping verbatim (no
backslash, double quote, or control characters) - such markers appear
literally in the serialized bytes wherever they occur in a text field.
The default marker `[done]` qualifies. -/
def escape_free (marker : List Char) : Prop := ∀ ch ∈ marker, escChar ch = [ch]

theorem escStr_append (a b : List Char) : escStr (a ++ b) = escStr a ++ escStr b := by
  unfold escStr
  simp

theorem escStr_id_of_free {m : List Char} (h : escape_free m) : escStr m = m := by
  induction m with
  | nil => rfl
  | cons ch rest ih =>
    unfold escStr at ih ⊢
    simp only [List.flatMap_cons]
    rw [h ch (by simp), ih (fun c hc => h c (by simp [hc]))]
    rfl

theorem pyIn_escStr {m s : List Char} (hm : escape_free m) (h : pyIn m s) :
    pyIn m (escStr s) := by
  obtain ⟨u, v, huv⟩ := h
  refine ⟨escStr u, escStr v, ?_⟩
  rw [← huv, escStr_append, escStr_append, escStr_id_of_free hm]

/-- The string `s` occurs as a string leaf of the JSON value. -/
inductive StrLeaf (s : List Char) : JVal → Prop where
  | here : StrLeaf s (JVal.str s)
  | inArr {xs : List JVal} {x : JVal} : x ∈ xs → StrLeaf s x → StrLeaf s (JVal.arr xs)
  | inObj {fs : List (List Char × JVal)} {k : List Char} {v : JVal} :
      (k, v) ∈ fs → StrLeaf s v → StrLeaf s (JVal.obj fs)

theorem jdumps_mem_arr {x : JVal} {xs : List JVal} (h : x ∈ xs) :
    jdumps x <:+: jdumpsArr xs := by
  induction xs with
  | nil => cases h
  | cons y rest ih =>
    rcases List.mem_cons.mp h with rfl | h'
    · cases rest with
      | nil => exact List.infix_refl _
      | cons z t =>
        rw [jdumpsArr]
        exact (List.prefix_append _ _).isInfix
    · cases rest with
      | nil => cases h'
      | cons z t =>
        rw [jdumpsArr]
        have := ih h'
        calc jdumps x <:+: jdumpsArr (z :: t) := this
          _ <:+: jdumps y ++ (',' :: ' ' :: jdumpsArr (z :: t)) := by
              refine ⟨jdumps y ++ [',', ' '], [], ?_⟩
              simp

theorem jdumps_mem_obj {k : List Char} {v : JVal} {fs : List (List Char × JVal)}
    (h : (k, v) ∈ fs) : jdumps v <:+: jdumpsObj fs := by
  induction fs with
  | nil => cases h
  | cons f rest ih =>
    rcases List.mem_cons.mp h with rfl | h'
    · cases rest with
      | nil =>
        rw [jdumpsObj]
        exact ⟨'"' :: (escStr k ++ ['"', ':', ' ']), [], by simp⟩
      | cons g t =>
        rw [jdumpsObj]
        refine ⟨'"' :: (escStr k ++ ['"', ':', ' ']), ',' :: ' ' :: jdumpsObj (g :: t), ?_⟩
        simp
    · cases rest with
      | nil => cases h'
      | cons g t =>
        rw [jdumpsObj]
        have := ih h'
        calc jdumps v <:+: jdumpsObj (g :: t) := this
          _ <:+: _ := by
              refine ⟨('"' :: (escStr f.1 ++ ['"', ':', ' '])) ++ jdumps f.2 ++ [',', ' '],
                [], ?_⟩
              simp

theorem strLeaf_infix_jdumps {s : List Char} {j : JVal} (h : StrLeaf s j) :
    escStr s <:+: jdumps j := by
  induction h with
  | here =>
    rw [jdumps]
    exact ⟨['"'], ['"'], by simp⟩
  | inArr hmem _ ih =>
    calc escStr s <:+: jdumps _ := ih
      _ <:+: jdumpsArr _ := jdumps_mem_arr hmem
      _ <:+: jdumps (JVal.arr _) := by
          rw [jdumps]
          exact ⟨['['], [']'], by simp⟩
  | inObj hmem _ ih =>
    calc escStr s <:+: jdumps _ := ih
      _ <:+: jdumpsObj _ := jdumps_mem_obj hmem
      _ <:+: jdumps (JVal.obj _) := by
          rw [jdumps]
          exact ⟨['\x7b'], ['\x7d'], by simp⟩

theorem jGet_mem {fs : List (List Char × JVal)} {k : List Char} {v : JVal}
    (h : jGet fs k = some v) : (k, v) ∈ fs := by
  unfold jGet at h
  induction fs with
  | nil => simp at h
  | cons f rest ih =>
    obtain ⟨k0, v0⟩ := f
    by_cases hk : k0 = k
    · subst hk
      rw [List.find?_cons_of_pos _ (by simp)] at h
      simp at h
      subst h
      exact List.mem_cons_self _ _
    · rw [List.find?_cons_of_neg _ (by simp [hk])] at h
      exact List.mem_cons_of_mem _ (ih h)

theorem pyIn_trans {a b c : List Char} (h1 : a <:+: b) (h2 : b <:+: c) :
    a <:+: c := h1.trans h2

theorem marker_in_bytes_of_content {marker s : List Char} {j : JVal}
    (hm : escape_free marker) (hleaf : StrLeaf s j) (hin : pyIn marker s) :
    pyIn marker (Chunk.data j).bytes := by
  have h1 : pyIn marker (escStr s) := pyIn_escStr hm hin
  have h2 : escStr s <:+: jdumps j := strLeaf_infix_jdumps hleaf
  have h3 : jdumps j <:+: (Chunk.data j).bytes := by
    show jdumps j <:+: txt "data: " ++ jdumps j ++ ['\n', '\n']
    exact ⟨txt "data: ", ['\n', '\n'], rfl⟩
  exact pyIn_trans (pyIn_trans h1 h2) h3

theorem openai_choice_content_leaf {c : JVal} {s : List Char}
    (h : openai_choice_content c = some s) : StrLeaf s c := by
  unfold openai_choice_content at h
  cases c with
  | obj cfs =>
    dsimp only at h
    rcases hdelta : (jGet cfs (txt "delta")).getD (JVal.obj []) with _ | _ | _ | t | xs | dfs
    all_goals rw [hdelta] at h
    · exact absurd h (by simp)
    · exact absurd h (by simp)
    · exact absurd h (by simp)
    · exact absurd h (by simp)
    · exact absurd h (by simp)
    · try dsimp only at h
      rcases hc : jGet dfs (txt "content") with _ | v
      · rw [hc] at h
        exact absurd h (by simp)
      · rw [hc] at h
        cases v with
        | str t =>
          simp only [Option.some.injEq] at h
          subst h
          rcases hjd : jGet cfs (txt "delta") with _ | d
          · rw [hjd] at hdelta
            simp only [Option.getD_none, JVal.obj.injEq] at hdelta
            rw [← hdelta] at hc
            simp [jGet] at hc
          · rw [hjd] at hdelta
            simp only [Option.getD_some] at hdelta
            subst hdelta
            exact StrLeaf.inObj (jGet_mem hjd) (StrLeaf.inObj (jGet_mem hc) StrLeaf.here)
        | null => exact absurd h (by simp)
        | bool b => exact absurd h (by simp)
        | num n => exact absurd h (by simp)
        | arr ys => exact absurd h (by simp)
        | obj gs => exact absurd h (by simp)
  | null => exact absurd h (by simp)
  | bool b => exact absurd h (by simp)
  | num n => exact absurd h (by simp)
  | str t => exact absurd h (by simp)
  | arr ys => exact absurd h (by simp)

theorem openai_json_contents_leaf {j : JVal} {s : List Char}
    (h : s ∈ openai_json_contents j) : StrLeaf s j := by
  unfold openai_json_contents at h
  cases j with
  | obj fs =>
    dsimp only at h
    rcases hch : jGet fs (txt "choices") with _ | v
    · rw [hch] at h
      simp at h
    · rw [hch] at h
      cases v with
      | arr xs =>
        obtain ⟨c, hc, hcc⟩ := List.mem_filterMap.mp h
        exact StrLeaf.inObj (jGet_mem hch)
          (StrLeaf.inArr hc (openai_choice_content_leaf hcc))
      | null => simp at h
      | bool b => simp at h
      | num n => simp at h
      | str t => simp at h
      | obj gs => simp at h
  | null => simp at h
  | bool b => simp at h
  | num n => simp at h
  | str t => simp at h
  | arr ys => simp at h

theorem gemini_part_text_leaf {p : JVal} {s : List Char}
    (h : gemini_part_text p = some s) : StrLeaf s p := by
  unfold gemini_part_text at h
  cases p with
  | obj pfs =>
    dsimp only at h
    rcases ht : jGet pfs (txt "text") with _ | v
    · rw [ht] at h
      exact absurd h (by simp)
    · rw [ht] at h
      cases v with
      | str t =>
        simp only [Option.some.injEq] at h
        subst h
        exact StrLeaf.inObj (jGet_mem ht) StrLeaf.here
      | null => exact absurd h (by simp)
      | bool b => exact absurd h (by simp)
      | num n => exact absurd h (by simp)
      | arr ys => exact absurd h (by simp)
      | obj gs => exact absurd h (by simp)
  | null => exact absurd h (by simp)
  | bool b => exact absurd h (by simp)
  | num n => exact absurd h (by simp)
  | str t => exact absurd h (by simp)
  | arr ys => exact absurd h (by simp)

theorem gemini_cand_texts_leaf {c : JVal} {s : List Char}
    (h : s ∈ gemini_cand_texts c) : StrLeaf s c := by
  unfold gemini_cand_texts at h
  cases c with
  | obj cfs =>
    dsimp only at h
    rcases hco : (jGet cfs (txt "content")).getD (JVal.obj []) with _ | _ | _ | t | xs | cofs
    all_goals rw [hco] at h
    · simp at h
    · simp at h
    · simp at h
    · simp at h
    · simp at h
    · try dsimp only at h
      rcases hp : jGet cofs (txt "parts") with _ | v
      · rw [hp] at h
        simp at h
      · rw [hp] at h
        cases v with
        | arr ps =>
          obtain ⟨q, hq, hqt⟩ := List.mem_filterMap.mp h
          rcases hjc : jGet cfs (txt "content") with _ | d
          · rw [hjc] at hco
            simp only [Option.getD_none, JVal.obj.injEq] at hco
            rw [← hco] at hp
            simp [jGet] at hp
          · rw [hjc] at hco
            simp only [Option.getD_some] at hco
            subst hco
            exact StrLeaf.inObj (jGet_mem hjc)
              (StrLeaf.inObj (jGet_mem hp)
                (StrLeaf.inArr hq (gemini_part_text_leaf hqt)))
        | null => simp at h
        | bool b => simp at h
        | num n => simp at h
        | str t => simp at h
        | obj gs => simp at h
  | null => simp at h
  | bool b => simp at h
  | num n => simp at h
  | str t => simp at h
  | arr ys => simp at h

theorem gemini_json_texts_leaf {j : JVal} {s : List Char}
    (h : s ∈ gemini_json_texts j) : StrLeaf s j := by
  unfold gemini_json_texts at h
  cases j with
  | obj fs =>
    dsimp only at h
    rcases hch : jGet fs (txt "candidates") with _ | v
    · rw [hch] at h
      simp at h
    · rw [hch] at h
      cases v with
      | arr xs =>
        obtain ⟨c, hc, hcc⟩ := List.mem_flatMap.mp h
        exact StrLeaf.inObj (jGet_mem hch)
          (StrLeaf.inArr hc (gemini_cand_texts_leaf hcc))
      | null => simp at h
      | bool b => simp at h
      | num n => simp at h
      | str t => simp at h
      | obj gs => simp at h
  | null => simp at h
  | bool b => simp at h
  | num n => simp at h
  | str t => simp at h
  | arr ys => simp at h

theorem claude_delta_text_leaf {j : JVal} {s : List Char}
    (h : claude_delta_text j = some s) : StrLeaf s j := by
  unfold claude_delta_text at h
  cases j with
  | obj fs =>
    dsimp only at h
    rcases hdelta : (jGet fs (txt "delta")).getD (JVal.obj []) with _ | _ | _ | t | xs | dfs
    all_goals rw [hdelta] at h
    · exact absurd h (by simp)
    · exact absurd h (by simp)
    · exact absurd h (by simp)
    · exact absurd h (by simp)
    · exact absurd h (by simp)
    · try dsimp only at h
      rcases hc : jGet dfs (txt "text") with _ | v
      · rw [hc] at h
        exact absurd h (by simp)
      · rw [hc] at h
        cases v with
        | str t =>
          simp only [Option.some.injEq] at h
          subst h
          rcases hjd : jGet fs (txt "delta") with _ | d
          · rw [hjd] at hdelta
            simp only [Option.getD_none, JVal.obj.injEq] at hdelta
            rw [← hdelta] at hc
            simp [jGet] at hc
          · rw [hjd] at hdelta
            simp only [Option.getD_some] at hdelta
            subst hdelta
            exact StrLeaf.inObj (jGet_mem hjd) (StrLeaf.inObj (jGet_mem hc) StrLeaf.here)
        | null => exact absurd h (by simp)
        | bool b => exact absurd h (by simp)
        | num n => exact absurd h (by simp)
        | arr ys => exact absurd h (by simp)
        | obj gs => exact absurd h (by simp)
  | null => exact absurd h (by simp)
  | bool b => exact absurd h (by simp)
  | num n => exact absurd h (by simp)
  | str t => exact absurd h (by simp)
  | arr ys => exact absurd h (by simp)

theorem marker_in_event_bytes_of_content {marker s name : List Char} {j : JVal}
    (hm : escape_free marker) (hleaf : StrLeaf s j) (hin : pyIn marker s) :
    pyIn marker (Chunk.event name j).bytes := by
  have h1 : pyIn marker (escStr s) := pyIn_escStr hm hin
  have h2 : escStr s <:+: jdumps j := strLeaf_infix_jdumps hleaf
  have h3 : jdumps j <:+: (Chunk.event name j).bytes := by
    show jdumps j <:+:
      txt "event: " ++ name ++ ('\n' :: txt "data: ") ++ jdumps j ++ ['\n', '\n']
    exact ⟨txt "event: " ++ name ++ ('\n' :: txt "data: "), ['\n', '\n'], by simp⟩
  exact pyIn_trans (pyIn_trans h1 h2) h3

theorem openai_find_content_mem {xs : List JVal} {s : List Char}
    (h : openai_find_content xs = some (JVal.str s)) :
    s ∈ xs.filterMap openai_choice_content := by
  induction xs with
  | nil => simp [openai_find_content] at h
  | cons c rest ih =>
    unfold openai_find_content at h
    cases c with
    | obj cfs =>
      dsimp only at h
      rcases hdelta : (jGet cfs (txt "delta")).getD (JVal.obj []) with _ | _ | _ | t | ys | dfs
      all_goals rw [hdelta] at h
      · exact absurd h (by simp)
      · exact absurd h (by simp)
      · exact absurd h (by simp)
      · exact absurd h (by simp)
      · exact absurd h (by simp)
      · try dsimp only at h
        rcases hc : jGet dfs (txt "content") with _ | v
        · rw [hc] at h
          obtain ⟨a, ha, hfa⟩ := List.mem_filterMap.mp (ih h)
          exact List.mem_filterMap.mpr ⟨a, by simp [ha], hfa⟩
        · rw [hc] at h
          dsimp only at h
          by_cases htr : jTruthy v
          · rw [if_pos htr] at h
            simp only [Option.some.injEq] at h
            subst h
            refine List.mem_filterMap.mpr ⟨JVal.obj cfs, by simp, ?_⟩
            unfold openai_choice_content
            dsimp only
            rw [hdelta]
            try dsimp only
            rw [hc]
          · rw [if_neg htr] at h
            obtain ⟨a, ha, hfa⟩ := List.mem_filterMap.mp (ih h)
            exact List.mem_filterMap.mpr ⟨a, by simp [ha], hfa⟩
    | null => exact absurd h (by simp)
    | bool b => exact absurd h (by simp)
    | num n => exact absurd h (by simp)
    | str t => exact absurd h (by simp)
    | arr ys => exact absurd h (by simp)

theorem openai_parse_chunk_mem {c : Chunk} {s : List Char}
    (h : openai_parse_chunk c = some (JVal.str s)) :
    s ∈ openai_chunk_contents c := by
  unfold openai_parse_chunk at h
  by_cases h1 : pyStrip c.bytes = []
  · rw [if_pos h1] at h
    exact absurd h (by simp)
  · rw [if_neg h1] at h
    by_cases h2 : pyStarts [':'] (pyStrip c.bytes)
    · rw [if_pos h2] at h
      exact absurd h (by simp)
    · rw [if_neg h2] at h
      by_cases h3 : pyIn (txt "data: [DONE]") c.bytes
      · rw [if_pos h3] at h
        exact absurd h (by simp)
      · rw [if_neg h3] at h
        by_cases h4 : pyStarts (txt "data: ") c.bytes
        · rw [if_pos h4] at h
          cases c with
          | data j =>
            unfold openai_chunk_contents
            cases j with
            | obj fs =>
              unfold openai_extract at h
              dsimp only at h
              rcases hch : jGet fs (txt "choices") with _ | v
              · rw [hch] at h
                exact absurd h (by simp)
              · rw [hch] at h
                cases v with
                | arr xs =>
                  unfold openai_json_contents
                  dsimp only
                  rw [hch]
                  exact openai_find_content_mem h
                | null => exact absurd h (by simp)
                | bool b => exact absurd h (by simp)
                | num n => exact absurd h (by simp)
                | str t => exact absurd h (by simp)
                | obj gs => exact absurd h (by simp)
            | null => exact absurd h (by simp [openai_extract])
            | bool b => exact absurd h (by simp [openai_extract])
            | num n => exact absurd h (by simp [openai_extract])
            | str t => exact absurd h (by simp [openai_extract])
            | arr ys => exact absurd h (by simp [openai_extract])
          | raw t => exact absurd h (by simp)
          | event name j => exact absurd h (by simp)
        · rw [if_neg h4] at h
          exact absurd h (by simp)

theorem gemini_find_part_mem {ps : List JVal} {s : List Char}
    (h : gemini_find_part ps = Except.ok (some (JVal.str s))) :
    s ∈ ps.filterMap gemini_part_text := by
  induction ps with
  | nil => simp [gemini_find_part] at h
  | cons p rest ih =>
    unfold gemini_find_part at h
    cases p with
    | obj pfs =>
      dsimp only at h
      rcases ht : jGet pfs (txt "text") with _ | v
      · rw [ht] at h
        obtain ⟨a, ha, hfa⟩ := List.mem_filterMap.mp (ih h)
        exact List.mem_filterMap.mpr ⟨a, by simp [ha], hfa⟩
      · rw [ht] at h
        dsimp only at h
        by_cases htr : jTruthy v
        · rw [if_pos htr] at h
          simp only [Except.ok.injEq, Option.some.injEq] at h
          subst h
          refine List.mem_filterMap.mpr ⟨JVal.obj pfs, by simp, ?_⟩
          unfold gemini_part_text
          dsimp only
          rw [ht]
        · rw [if_neg htr] at h
          obtain ⟨a, ha, hfa⟩ := List.mem_filterMap.mp (ih h)
          exact List.mem_filterMap.mpr ⟨a, by simp [ha], hfa⟩
    | null => exact absurd h (by simp)
    | bool b => exact absurd h (by simp)
    | num n => exact absurd h (by simp)
    | str t => exact absurd h (by simp)
    | arr ys => exact absurd h (by simp)

theorem gemini_find_cand_mem {xs : List JVal} {s : List Char}
    (h : gemini_find_cand xs = some (JVal.str s)) :
    s ∈ xs.flatMap gemini_cand_texts := by
  induction xs with
  | nil => simp [gemini_find_cand] at h
  | cons c rest ih =>
    unfold gemini_find_cand at h
    cases c with
    | obj cfs =>
      dsimp only at h
      rcases hco : (jGet cfs (txt "content")).getD (JVal.obj []) with _ | _ | _ | t | ys | cofs
      all_goals rw [hco] at h
      · exact absurd h (by simp)
      · exact absurd h (by simp)
      · exact absurd h (by simp)
      · exact absurd h (by simp)
      · exact absurd h (by simp)
      · try dsimp only at h
        rcases hp : jGet cofs (txt "parts") with _ | v
        · rw [hp] at h
          obtain ⟨a, ha, hfa⟩ := List.mem_flatMap.mp (ih h)
          exact List.mem_flatMap.mpr ⟨a, by simp [ha], hfa⟩
        · rw [hp] at h
          cases v with
          | arr ps =>
            try dsimp only at h
            rcases hfp : gemini_find_part ps with e | o
            · rw [hfp] at h
              exact absurd h (by simp)
            · rw [hfp] at h
              cases o with
              | none =>
                obtain ⟨a, ha, hfa⟩ := List.mem_flatMap.mp (ih h)
                exact List.mem_flatMap.mpr ⟨a, by simp [ha], hfa⟩
              | some v =>
                simp only [Option.some.injEq] at h
                subst h
                refine List.mem_flatMap.mpr ⟨JVal.obj cfs, by simp, ?_⟩
                unfold gemini_cand_texts
                dsimp only
                rw [hco]
                dsimp only
                rw [hp]
                exact gemini_find_part_mem hfp
          | str t =>
            try dsimp only at h
            split at h
            · obtain ⟨a, ha, hfa⟩ := List.mem_flatMap.mp (ih h)
              exact List.mem_flatMap.mpr ⟨a, by simp [ha], hfa⟩
            · exact absurd h (by simp)
          | obj gs =>
            try dsimp only at h
            split at h
            · obtain ⟨a, ha, hfa⟩ := List.mem_flatMap.mp (ih h)
              exact List.mem_flatMap.mpr ⟨a, by simp [ha], hfa⟩
            · exact absurd h (by simp)
          | null => exact absurd h (by simp)
          | bool b => exact absurd h (by simp)
          | num n => exact absurd h (by simp)
    | null => exact absurd h (by simp)
    | bool b => exact absurd h (by simp)
    | num n => exact absurd h (by simp)
    | str t => exact absurd h (by simp)
    | arr ys => exact absurd h (by simp)

theorem gemini_parse_chunk_mem {c : Chunk} {s : List Char}
    (h : gemini_parse_chunk c = some (JVal.str s)) :
    s ∈ gemini_chunk_texts c := by
  unfold gemini_parse_chunk at h
  by_cases h1 : pyStrip c.bytes = []
  · rw [if_pos h1] at h
    exact absurd h (by simp)
  · rw [if_neg h1] at h
    by_cases h2 : pyStarts [':'] (pyStrip c.bytes)
    · rw [if_pos h2] at h
      exact absurd h (by simp)
    · rw [if_neg h2] at h
      by_cases h3 : pyIn (txt "data: [DONE]") c.bytes
      · rw [if_pos h3] at h
        exact absurd h (by simp)
      · rw [if_neg h3] at h
        by_cases h4 : pyStarts (txt "data: ") c.bytes
        · rw [if_pos h4] at h
          cases c with
          | data j =>
            unfold gemini_chunk_texts
            cases j with
            | obj fs =>
              unfold gemini_extract at h
              dsimp only at h
              rcases hch : jGet fs (txt "candidates") with _ | v
              · rw [hch] at h
                exact absurd h (by simp)
              · rw [hch] at h
                cases v with
                | arr xs =>
                  unfold gemini_json_texts
                  dsimp only
                  rw [hch]
                  exact gemini_find_cand_mem h
                | null => exact absurd h (by simp)
                | bool b => exact absurd h (by simp)
                | num n => exact absurd h (by simp)
                | str t => exact absurd h (by simp)
                | obj gs => exact absurd h (by simp)
            | null => exact absurd h (by simp [gemini_extract])
            | bool b => exact absurd h (by simp [gemini_extract])
            | num n => exact absurd h (by simp [gemini_extract])
            | str t => exact absurd h (by simp [gemini_extract])
            | arr ys => exact absurd h (by simp [gemini_extract])
          | raw t => exact absurd h (by simp)
          | event name j => exact absurd h (by simp)
        · rw [if_neg h4] at h
          exact absurd h (by simp)

theorem claude_parse_chunk_mem {c : Chunk} {s : List Char}
    (h : claude_parse_chunk c = some (JVal.str s)) :
    s ∈ claude_chunk_texts c := by
  unfold claude_parse_chunk at h
  by_cases h1 : pyStrip c.bytes = []
  · rw [if_pos h1] at h
    exact absurd h (by simp)
  · rw [if_neg h1] at h
    by_cases h2 : pyStarts [':'] (pyStrip c.bytes)
    · rw [if_pos h2] at h
      exact absurd h (by simp)
    · rw [if_neg h2] at h
      by_cases h3 : pyIn (txt "event: message_stop") c.bytes ∨
          pyIn (txt "event: done") c.bytes
      · rw [if_pos h3] at h
        exact absurd h (by simp)
      · rw [if_neg h3] at h
        cases c with
        | event name j =>
          dsimp only at h
          by_cases hn : name = txt "content_block_delta"
          · rw [if_pos hn] at h
            unfold claude_chunk_texts
            dsimp only
            rw [if_pos hn]
            cases j with
            | obj fs =>
              unfold claude_extract at h
              dsimp only at h
              rcases hdelta : (jGet fs (txt "delta")).getD (JVal.obj []) with
                _ | _ | _ | t | ys | dfs
              all_goals rw [hdelta] at h
              · exact absurd h (by simp)
              · exact absurd h (by simp)
              · exact absurd h (by simp)
              · exact absurd h (by simp)
              · exact absurd h (by simp)
              · try dsimp only at h
                rcases hc : jGet dfs (txt "text") with _ | v
                · rw [hc] at h
                  exact absurd h (by simp)
                · rw [hc] at h
                  try dsimp only at h
                  by_cases htr : jTruthy v
                  · rw [if_pos htr] at h
                    simp only [Option.some.injEq] at h
                    subst h
                    have hdt : claude_delta_text (JVal.obj fs) = some s := by
                      unfold claude_delta_text
                      dsimp only
                      rw [hdelta]
                      try dsimp only
                      rw [hc]
                    rw [hdt]
                    simp
                  · rw [if_neg htr] at h
                    exact absurd h (by simp)
            | null => exact absurd h (by simp [claude_extract])
            | bool b => exact absurd h (by simp [claude_extract])
            | num n => exact absurd h (by simp [claude_extract])
            | str t => exact absurd h (by simp [claude_extract])
            | arr ys => exact absurd h (by simp [claude_extract])
          · rw [if_neg hn] at h
            exact absurd h (by simp)
        | raw t => exact absurd h (by simp)
        | data j => exact absurd h (by simp)

theorem openai_strip_choice_false (marker : List Char) (c c2 : JVal)
    (h : openai_strip_choice marker c = some (c2, false)) :
    ∀ s, openai_choice_content c = some s → ¬ pyIn marker s := by
  intro s hs hin
  unfold openai_strip_choice at h
  unfold openai_choice_content at hs
  cases c with
  | obj cfs =>
    dsimp only at h hs
    rcases hdelta : (jGet cfs (txt "delta")).getD (JVal.obj []) with _ | _ | _ | t | xs | dfs
    all_goals rw [hdelta] at h hs
    · exact absurd hs (by simp)
    · exact absurd hs (by simp)
    · exact absurd hs (by simp)
    · exact absurd hs (by simp)
    · exact absurd hs (by simp)
    · try dsimp only at h hs
      rcases hc : jGet dfs (txt "content") with _ | v
      · rw [hc] at hs
        exact absurd hs (by simp)
      · rw [hc] at h hs
        cases v with
        | str t =>
          simp only [Option.some.injEq] at hs
          subst hs
          try dsimp only at h
          rw [if_pos hin] at h
          simp at h
        | null => exact absurd hs (by simp)
        | bool b => exact absurd hs (by simp)
        | num n => exact absurd hs (by simp)
        | arr ys => exact absurd hs (by simp)
        | obj gs => exact absurd hs (by simp)
  | null => exact absurd hs (by simp)
  | bool b => exact absurd hs (by simp)
  | num n => exact absurd hs (by simp)
  | str t => exact absurd hs (by simp)
  | arr ys => exact absurd hs (by simp)

theorem openai_strip_choices_false (marker : List Char) (xs : List JVal) :
    ∀ xs2, openai_strip_choices marker xs = some (xs2, false) →
    ∀ s ∈ xs.filterMap openai_choice_content, ¬ pyIn marker s := by
  induction xs with
  | nil =>
    intro xs2 h s hs
    simp at hs
  | cons c rest ih =>
    intro xs2 h s hs
    unfold openai_strip_choices at h
    rcases h1 : openai_strip_choice marker c with _ | p1
    · rw [h1] at h
      exact absurd h (by simp)
    · rcases h2 : openai_strip_choices marker rest with _ | p2
      · rw [h1, h2] at h
        rcases p1 with ⟨c2, m1⟩
        exact absurd h (by simp)
      · rw [h1, h2] at h
        rcases p1 with ⟨c2, m1⟩
        rcases p2 with ⟨rest2, m2⟩
        dsimp only at h
        simp only [Option.some.injEq, Prod.mk.injEq] at h
        have hm : m1 = false ∧ m2 = false := by
          have := h.2
          constructor <;> [exact Bool.or_eq_false_iff.mp this |>.1;
            exact Bool.or_eq_false_iff.mp this |>.2]
        obtain ⟨a, ha, hfa⟩ := List.mem_filterMap.mp hs
        rcases List.mem_cons.mp ha with rfl | ha'
        · exact openai_strip_choice_false marker a c2 (by rw [h1, hm.1]) s hfa
        · exact ih rest2 (by rw [h2, hm.2]) s (List.mem_filterMap.mpr ⟨a, ha', hfa⟩)

theorem openai_strip_json_false (marker : List Char) (j : JVal) (out : JVal)
    (h : openai_strip_json marker j = some (out, false)) :
    ∀ s ∈ openai_json_contents j, ¬ pyIn marker s := by
  intro s hs
  unfold openai_strip_json at h
  unfold openai_json_contents at hs
  cases j with
  | obj fs =>
    dsimp only at h hs
    rcases hch : jGet fs (txt "choices") with _ | v
    · rw [hch] at hs
      simp at hs
    · rw [hch] at h hs
      cases v with
      | arr xs =>
        try dsimp only at h
        rcases hsc : openai_strip_choices marker xs with _ | p
        · rw [hsc] at h
          exact absurd h (by simp)
        · rw [hsc] at h
          rcases p with ⟨xs2, m⟩
          try dsimp only [Option.map] at h
          simp only [Option.some.injEq, Prod.mk.injEq] at h
          exact openai_strip_choices_false marker xs xs2 (by rw [hsc, h.2]) s hs
      | null => simp at hs
      | bool b => simp at hs
      | num n => simp at hs
      | str t => simp at hs
      | obj gs => simp at hs
  | null => simp at hs
  | bool b => simp at hs
  | num n => simp at hs
  | str t => simp at hs
  | arr ys => simp at hs

theorem gemini_strip_part_false (marker : List Char) (p p2 : JVal)
    (h : gemini_strip_part marker p = some (p2, false)) :
    ∀ s, gemini_part_text p = some s → ¬ pyIn marker s := by
  intro s hs hin
  unfold gemini_strip_part at h
  unfold gemini_part_text at hs
  cases p with
  | obj pfs =>
    dsimp only at h hs
    rcases ht : jGet pfs (txt "text") with _ | v
    · rw [ht] at hs
      exact absurd hs (by simp)
    · rw [ht] at h hs
      cases v with
      | str t =>
        simp only [Option.some.injEq] at hs
        subst hs
        try dsimp only at h
        rw [if_pos hin] at h
        simp at h
      | null => exact absurd hs (by simp)
      | bool b => exact absurd hs (by simp)
      | num n => exact absurd hs (by simp)
      | arr ys => exact absurd hs (by simp)
      | obj gs => exact absurd hs (by simp)
  | null => exact absurd hs (by simp)
  | bool b => exact absurd hs (by simp)
  | num n => exact absurd hs (by simp)
  | str t => exact absurd hs (by simp)
  | arr ys => exact absurd hs (by simp)

theorem gemini_strip_parts_false (marker : List Char) (ps : List JVal) :
    ∀ ps2, gemini_strip_parts marker ps = some (ps2, false) →
    ∀ s ∈ ps.filterMap gemini_part_text, ¬ pyIn marker s := by
  induction ps with
  | nil =>
    intro ps2 h s hs
    simp at hs
  | cons p rest ih =>
    intro ps2 h s hs
    unfold gemini_strip_parts at h
    rcases h1 : gemini_strip_part marker p with _ | q1
    · rw [h1] at h
      exact absurd h (by simp)
    · rcases h2 : gemini_strip_parts marker rest with _ | q2
      · rw [h1, h2] at h
        rcases q1 with ⟨p2, m1⟩
        exact absurd h (by simp)
      · rw [h1, h2] at h
        rcases q1 with ⟨p2, m1⟩
        rcases q2 with ⟨rest2, m2⟩
        dsimp only at h
        simp only [Option.some.injEq, Prod.mk.injEq] at h
        have hm := Bool.or_eq_false_iff.mp h.2
        obtain ⟨a, ha, hfa⟩ := List.mem_filterMap.mp hs
        rcases List.mem_cons.mp ha with rfl | ha'
        · exact gemini_strip_part_false marker a p2 (by rw [h1, hm.1]) s hfa
        · exact ih rest2 (by rw [h2, hm.2]) s (List.mem_filterMap.mpr ⟨a, ha', hfa⟩)

theorem gemini_strip_cand_false (marker : List Char) (c c2 : JVal)
    (h : gemini_strip_cand marker c = some (c2, false)) :
    ∀ s ∈ gemini_cand_texts c, ¬ pyIn marker s := by
  intro s hs
  unfold gemini_strip_cand at h
  unfold gemini_cand_texts at hs
  cases c with
  | obj cfs =>
    dsimp only at h hs
    rcases hco : (jGet cfs (txt "content")).getD (JVal.obj []) with _ | _ | _ | t | xs | cofs
    all_goals rw [hco] at h hs
    · simp at hs
    · simp at hs
    · simp at hs
    · simp at hs
    · simp at hs
    · try dsimp only at h hs
      rcases hp : jGet cofs (txt "parts") with _ | v
      · rw [hp] at hs
        simp at hs
      · rw [hp] at h hs
        cases v with
        | arr ps =>
          try dsimp only at h
          rcases hsp : gemini_strip_parts marker ps with _ | q
          · rw [hsp] at h
            exact absurd h (by simp)
          · rw [hsp] at h
            rcases q with ⟨ps2, m⟩
            try dsimp only [Option.map] at h
            simp only [Option.some.injEq, Prod.mk.injEq] at h
            exact gemini_strip_parts_false marker ps ps2 (by rw [hsp, h.2]) s hs
        | null => simp at hs
        | bool b => simp at hs
        | num n => simp at hs
        | str t => simp at hs
        | obj gs => simp at hs
  | null => simp at hs
  | bool b => simp at hs
  | num n => simp at hs
  | str t => simp at hs
  | arr ys => simp at hs

theorem gemini_strip_cands_false (marker : List Char) (xs : List JVal) :
    ∀ xs2, gemini_strip_cands marker xs = some (xs2, false) →
    ∀ s ∈ xs.flatMap gemini_cand_texts, ¬ pyIn marker s := by
  induction xs with
  | nil =>
    intro xs2 h s hs
    simp at hs
  | cons c rest ih =>
    intro xs2 h s hs
    unfold gemini_strip_cands at h
    rcases h1 : gemini_strip_cand marker c with _ | q1
    · rw [h1] at h
      exact absurd h (by simp)
    · rcases h2 : gemini_strip_cands marker rest with _ | q2
      · rw [h1, h2] at h
        rcases q1 with ⟨c2, m1⟩
        exact absurd h (by simp)
      · rw [h1, h2] at h
        rcases q1 with ⟨c2, m1⟩
        rcases q2 with ⟨rest2, m2⟩
        dsimp only at h
        simp only [Option.some.injEq, Prod.mk.injEq] at h
        have hm := Bool.or_eq_false_iff.mp h.2
        obtain ⟨a, ha, hfa⟩ := List.mem_flatMap.mp hs
        rcases List.mem_cons.mp ha with rfl | ha'
        · exact gemini_strip_cand_false marker a c2 (by rw [h1, hm.1]) s hfa
        · exact ih rest2 (by rw [h2, hm.2]) s (List.mem_flatMap.mpr ⟨a, ha', hfa⟩)

theorem gemini_strip_json_false (marker : List Char) (j : JVal) (out : JVal)
    (h : gemini_strip_json marker j = some (out, false)) :
    ∀ s ∈ gemini_json_texts j, ¬ pyIn marker s := by
  intro s hs
  unfold gemini_strip_json at h
  unfold gemini_json_texts at hs
  cases j with
  | obj fs =>
    dsimp only at h hs
    rcases hch : jGet fs (txt "candidates") with _ | v
    · rw [hch] at hs
      simp at hs
    · rw [hch] at h hs
      cases v with
      | arr xs =>
        try dsimp only at h
        rcases hsc : gemini_strip_cands marker xs with _ | p
        · rw [hsc] at h
          exact absurd h (by simp)
        · rw [hsc] at h
          rcases p with ⟨xs2, m⟩
          try dsimp only [Option.map] at h
          simp only [Option.some.injEq, Prod.mk.injEq] at h
          exact gemini_strip_cands_false marker xs xs2 (by rw [hsc, h.2]) s hs
      | null => simp at hs
      | bool b => simp at hs
      | num n => simp at hs
      | str t => simp at hs
      | obj gs => simp at hs
  | null => simp at hs
  | bool b => simp at hs
  | num n => simp at hs
  | str t => simp at hs
  | arr ys => simp at hs

theorem claude_strip_json_no_rewrite (marker : List Char) (j : JVal)
    (h : claude_strip_json marker j = some none) :
    ∀ s, claude_delta_text j = some s → ¬ pyIn marker s := by
  intro s hs hin
  unfold claude_strip_json at h
  unfold claude_delta_text at hs
  cases j with
  | obj fs =>
    dsimp only at h hs
    rcases hdelta : (jGet fs (txt "delta")).getD (JVal.obj []) with _ | _ | _ | t | xs | dfs
    all_goals rw [hdelta] at h hs
    · exact absurd hs (by simp)
    · exact absurd hs (by simp)
    · exact absurd hs (by simp)
    · exact absurd hs (by simp)
    · exact absurd hs (by simp)
    · try dsimp only at h hs
      rcases hc : jGet dfs (txt "text") with _ | v
      · rw [hc] at hs
        exact absurd hs (by simp)
      · rw [hc] at h hs
        cases v with
        | str t =>
          simp only [Option.some.injEq] at hs
          subst hs
          try dsimp only at h
          rw [if_pos hin] at h
          simp at h
        | null => exact absurd hs (by simp)
        | bool b => exact absurd hs (by simp)
        | num n => exact absurd hs (by simp)
        | arr ys => exact absurd hs (by simp)
        | obj gs => exact absurd hs (by simp)
  | null => exact absurd hs (by simp)
  | bool b => exact absurd hs (by simp)
  | num n => exact absurd hs (by simp)
  | str t => exact absurd hs (by simp)
  | arr ys => exact absurd hs (by simp)

/-- The text/content fields of a chunk under a dialect (dispatcher). -/
def chunk_texts (p : Protocol) (c : Chunk) : List (List Char) :=
  match p with
  | Protocol.openai => openai_chunk_contents c
  | Protocol.gemini => gemini_chunk_texts c
  | Protocol.claude => claude_chunk_texts c

/-- `strip_done_marker` runs without reaching its exception handlers on
this chunk (the handlers return the chunk unchanged, marker and all). -/
def strip_no_exc (p : Protocol) (marker : List Char) (c : Chunk) : Prop :=
  match p, c with
  | Protocol.openai, Chunk.data j => (openai_strip_json marker j).isSome = true
  | Protocol.gemini, Chunk.data j => (gemini_strip_json marker j).isSome = true
  | Protocol.claude, Chunk.event name j =>
      name = txt "content_block_delta" → (claude_strip_json marker j).isSome = true
  | _, _ => True

instance (p : Protocol) (marker : List Char) (c : Chunk) :
    Decidable (strip_no_exc p marker c) := by
  unfold strip_no_exc
  cases p <;> cases c <;> dsimp only <;> infer_instance

instance (m : List Char) : Decidable (escape_free m) := by
  unfold escape_free
  infer_instance

theorem openai_strip_output_marker_free (marker : List Char) (c : Chunk)
    (hesc : escape_free marker)
    (hno : ∀ s ∈ openai_chunk_contents c,
      pyIn marker s → ¬ pyIn marker (pyRemoveAll marker s))
    (hexc : ∀ j, c = Chunk.data j → (openai_strip_json marker j).isSome = true)
    (s : List Char)
    (hp : openai_parse_chunk (openai_strip_done_marker c marker) = some (JVal.str s)) :
    ¬ pyIn marker s := by
  intro hin
  by_cases h1 : pyIn marker c.bytes
  · by_cases h2 : pyStarts (txt "data: ") c.bytes
    · cases c with
      | raw r =>
        have hc : openai_strip_done_marker (Chunk.raw r) marker = Chunk.raw r := by
          unfold openai_strip_done_marker
          rw [if_neg (not_not_intro h1), if_pos h2]
        rw [hc] at hp
        have hmem := openai_parse_chunk_mem hp
        simp [openai_chunk_contents] at hmem
      | event name j =>
        have hc : openai_strip_done_marker (Chunk.event name j) marker
            = Chunk.event name j := by
          unfold openai_strip_done_marker
          rw [if_neg (not_not_intro h1), if_pos h2]
        rw [hc] at hp
        have hmem := openai_parse_chunk_mem hp
        simp [openai_chunk_contents] at hmem
      | data j =>
        rcases hs : openai_strip_json marker j with _ | p
        · have hx := hexc j rfl
          rw [hs] at hx
          simp at hx
        · rcases p with ⟨j2, m⟩
          cases m with
          | false =>
            have hc : openai_strip_done_marker (Chunk.data j) marker
                = Chunk.data j := by
              unfold openai_strip_done_marker
              rw [if_neg (not_not_intro h1), if_pos h2]
              dsimp only
              rw [hs]
            rw [hc] at hp
            have hmem := openai_parse_chunk_mem hp
            exact openai_strip_json_false marker j j2 hs s hmem hin
          | true =>
            have hc : openai_strip_done_marker (Chunk.data j) marker
                = Chunk.data j2 := by
              unfold openai_strip_done_marker
              rw [if_neg (not_not_intro h1), if_pos h2]
              dsimp only
              rw [hs]
            rw [hc] at hp
            have hmem := openai_parse_chunk_mem hp
            rcases openai_strip_json_content_src marker j j2 true hs s hmem with
              ⟨hmem0, hfree⟩ | ⟨s0, hmem0, hrw, hin0⟩
            · exact hfree hin
            · rw [hrw] at hin
              exact hno s0 hmem0 hin0 hin
    · have hc : openai_strip_done_marker c marker = c := by
        unfold openai_strip_done_marker
        rw [if_neg (not_not_intro h1), if_neg h2]
      rw [hc] at hp
      have hmem := openai_parse_chunk_mem hp
      cases c with
      | data j => exact h2 (data_bytes_starts j)
      | raw r => simp [openai_chunk_contents] at hmem
      | event name j => simp [openai_chunk_contents] at hmem
  · have hc : openai_strip_done_marker c marker = c := by
      unfold openai_strip_done_marker
      rw [if_pos h1]
    rw [hc] at hp
    have hmem := openai_parse_chunk_mem hp
    cases c with
    | data j =>
      exact h1 (marker_in_bytes_of_content hesc (openai_json_contents_leaf hmem) hin)
    | raw r => simp [openai_chunk_contents] at hmem
    | event name j => simp [openai_chunk_contents] at hmem

theorem gemini_strip_output_marker_free (marker : List Char) (c : Chunk)
    (hesc : escape_free marker)
    (hno : ∀ s ∈ gemini_chunk_texts c,
      pyIn marker s → ¬ pyIn marker (pyRemoveAll marker s))
    (hexc : ∀ j, c = Chunk.data j → (gemini_strip_json marker j).isSome = true)
    (s : List Char)
    (hp : gemini_parse_chunk (gemini_strip_done_marker c marker) = some (JVal.str s)) :
    ¬ pyIn marker s := by
  intro hin
  by_cases h1 : pyIn marker c.bytes
  · by_cases h2 : pyStarts (txt "data: ") c.bytes
    · cases c with
      | raw r =>
        have hc : gemini_strip_done_marker (Chunk.raw r) marker = Chunk.raw r := by
          unfold gemini_strip_done_marker
          rw [if_neg (not_not_intro h1), if_pos h2]
        rw [hc] at hp
        have hmem := gemini_parse_chunk_mem hp
        simp [gemini_chunk_texts] at hmem
      | event name j =>
        have hc : gemini_strip_done_marker (Chunk.event name j) marker
            = Chunk.event name j := by
          unfold gemini_strip_done_marker
          rw [if_neg (not_not_intro h1), if_pos h2]
        rw [hc] at hp
        have hmem := gemini_parse_chunk_mem hp
        simp [gemini_chunk_texts] at hmem
      | data j =>
        rcases hs : gemini_strip_json marker j with _ | p
        · have hx := hexc j rfl
          rw [hs] at hx
          simp at hx
        · rcases p with ⟨j2, m⟩
          cases m with
          | false =>
            have hc : gemini_strip_done_marker (Chunk.data j) marker
                = Chunk.data j := by
              unfold gemini_strip_done_marker
              rw [if_neg (not_not_intro h1), if_pos h2]
              dsimp only
              rw [hs]
            rw [hc] at hp
            have hmem := gemini_parse_chunk_mem hp
            exact gemini_strip_json_false marker j j2 hs s hmem hin
          | true =>
            have hc : gemini_strip_done_marker (Chunk.data j) marker
                = Chunk.data j2 := by
              unfold gemini_strip_done_marker
              rw [if_neg (not_not_intro h1), if_pos h2]
              dsimp only
              rw [hs]
            rw [hc] at hp
            have hmem := gemini_parse_chunk_mem hp
            rcases gemini_strip_json_content_src marker j j2 true hs s hmem with
              ⟨hmem0, hfree⟩ | ⟨s0, hmem0, hrw, hin0⟩
            · exact hfree hin
            · rw [hrw] at hin
              exact hno s0 hmem0 hin0 hin
    · have hc : gemini_strip_done_marker c marker = c := by
        unfold gemini_strip_done_marker
        rw [if_neg (not_not_intro h1), if_neg h2]
      rw [hc] at hp
      have hmem := gemini_parse_chunk_mem hp
      cases c with
      | data j => exact h2 (data_bytes_starts j)
      | raw r => simp [gemini_chunk_texts] at hmem
      | event name j => simp [gemini_chunk_texts] at hmem
  · have hc : gemini_strip_done_marker c marker = c := by
      unfold gemini_strip_done_marker
      rw [if_pos h1]
    rw [hc] at hp
    have hmem := gemini_parse_chunk_mem hp
    cases c with
    | data j =>
      exact h1 (marker_in_bytes_of_content hesc (gemini_json_texts_leaf hmem) hin)
    | raw r => simp [gemini_chunk_texts] at hmem
    | event name j => simp [gemini_chunk_texts] at hmem

theorem claude_strip_output_marker_free (marker : List Char) (c : Chunk)
    (hesc : escape_free marker)
    (hno : ∀ s ∈ claude_chunk_texts c,
      pyIn marker s → ¬ pyIn marker (pyRemoveAll marker s))
    (hexc : ∀ name j, c = Chunk.event name j →
      name = txt "content_block_delta" → (claude_strip_json marker j).isSome = true)
    (s : List Char)
    (hp : claude_parse_chunk (claude_strip_done_marker c marker) = some (JVal.str s)) :
    ¬ pyIn marker s := by
  intro hin
  by_cases h1 : pyIn marker c.bytes
  · cases c with
    | raw r =>
      have hc : claude_strip_done_marker (Chunk.raw r) marker = Chunk.raw r := by
        unfold claude_strip_done_marker
        rw [if_neg (not_not_intro h1)]
      rw [hc] at hp
      have hmem := claude_parse_chunk_mem hp
      simp [claude_chunk_texts] at hmem
    | data j =>
      have hc : claude_strip_done_marker (Chunk.data j) marker = Chunk.data j := by
        unfold claude_strip_done_marker
        rw [if_neg (not_not_intro h1)]
      rw [hc] at hp
      have hmem := claude_parse_chunk_mem hp
      simp [claude_chunk_texts] at hmem
    | event name j =>
      by_cases hn : name = txt "content_block_delta"
      · rcases hs : claude_strip_json marker j with _ | o
        · have hx := hexc name j rfl hn
          rw [hs] at hx
          simp at hx
        · cases o with
          | none =>
            have hc : claude_strip_done_marker (Chunk.event name j) marker
                = Chunk.event name j := by
              unfold claude_strip_done_marker
              rw [if_neg (not_not_intro h1)]
              dsimp only
              rw [if_pos hn, hs]
            rw [hc] at hp
            have hmem := claude_parse_chunk_mem hp
            have hdt : claude_delta_text j = some s := by
              unfold claude_chunk_texts at hmem
              dsimp only at hmem
              rw [if_pos hn] at hmem
              simp only [Option.mem_toList, Option.mem_def] at hmem
              exact hmem
            exact claude_strip_json_no_rewrite marker j hs s hdt hin
          | some j2 =>
            have hc : claude_strip_done_marker (Chunk.event name j) marker
                = Chunk.event name j2 := by
              unfold claude_strip_done_marker
              rw [if_neg (not_not_intro h1)]
              dsimp only
              rw [if_pos hn, hs]
            rw [hc] at hp
            have hmem := claude_parse_chunk_mem hp
            have hdt : claude_delta_text j2 = some s := by
              unfold claude_chunk_texts at hmem
              dsimp only at hmem
              rw [if_pos hn] at hmem
              simp only [Option.mem_toList, Option.mem_def] at hmem
              exact hmem
            rcases claude_strip_json_content_src marker j j2 hs s hdt with
              ⟨s0, hd0, hrw, hin0⟩
            rw [hrw] at hin
            refine hno s0 ?_ hin0 hin
            unfold claude_chunk_texts
            dsimp only
            rw [if_pos hn, hd0]
            simp
      · have hc : claude_strip_done_marker (Chunk.event name j) marker
            = Chunk.event name j := by
          unfold claude_strip_done_marker
          rw [if_neg (not_not_intro h1)]
          dsimp only
          rw [if_neg hn]
        rw [hc] at hp
        have hmem := claude_parse_chunk_mem hp
        unfold claude_chunk_texts at hmem
        dsimp only at hmem
        rw [if_neg hn] at hmem
        simp at hmem
  · have hc : claude_strip_done_marker c marker = c := by
      unfold claude_strip_done_marker
      rw [if_pos h1]
    rw [hc] at hp
    have hmem := claude_parse_chunk_mem hp
    cases c with
    | raw r => simp [claude_chunk_texts] at hmem
    | data j => simp [claude_chunk_texts] at hmem
    | event name j =>
      unfold claude_chunk_texts at hmem
      dsimp only at hmem
      by_cases hn : name = txt "content_block_delta"
      · rw [if_pos hn] at hmem
        have hdt : claude_delta_text j = some s := by
          simp only [Option.mem_toList, Option.mem_def] at hmem
          exact hmem
        exact h1 (marker_in_event_bytes_of_content hesc (claude_delta_text_leaf hdt) hin)
      · rw [if_neg hn] at hmem
        simp at hmem

theorem strip_output_marker_free (p : Protocol) (marker : List Char) (c : Chunk)
    (hesc : escape_free marker)
    (hno : ∀ s ∈ chunk_texts p c,
      pyIn marker s → ¬ pyIn marker (pyRemoveAll marker s))
    (hexc : strip_no_exc p marker c)
    (s : List Char)
    (hp : parse_chunk_for p (strip_done_marker_for p c marker) = some (JVal.str s)) :
    ¬ pyIn marker s := by
  cases p with
  | openai =>
    refine openai_strip_output_marker_free marker c hesc hno ?_ s hp
    intro j hj
    subst hj
    exact hexc
  | gemini =>
    refine gemini_strip_output_marker_free marker c hesc hno ?_ s hp
    intro j hj
    subst hj
    exact hexc
  | claude =>
    refine claude_strip_output_marker_free marker c hesc hno ?_ s hp
    intro name j hj hn
    subst hj
    exact hexc hn

/-- The SSE record an `Out` puts on the wire, as a chunk the dialect
parser can be re-run on: a forwarded chunk itself, the comment line
`: <text>\n\n`, the sentinel `data: [DONE]\n\n`, or a `data: ` line
carrying an error object. -/
def out_chunk : Out → Chunk
  | Out.forwarded c => c
  | Out.comment s => Chunk.raw (':' :: (s ++ txt "\n\n"))
  | Out.doneSentinel => Chunk.raw (txt "data: [DONE]\n\n")
  | Out.errorEvent j => Chunk.data j

theorem parse_done_sentinel_none (p : Protocol) :
    parse_chunk_for p (out_chunk Out.doneSentinel) = none := by
  cases p <;> rfl

theorem parse_max_comment_none (p : Protocol) :
    parse_chunk_for p (out_chunk (Out.comment max_attempts_comment)) = none := by
  cases p <;> rfl

theorem openai_extract_no_choices (fs : List (List Char × JVal))
    (h : jGet fs (txt "choices") = none) : openai_extract (JVal.obj fs) = none := by
  unfold openai_extract
  dsimp only
  rw [h]

theorem gemini_extract_no_cands (fs : List (List Char × JVal))
    (h : jGet fs (txt "candidates") = none) : gemini_extract (JVal.obj fs) = none := by
  unfold gemini_extract
  dsimp only
  rw [h]

theorem openai_parse_data_none (j : JVal) (hx : openai_extract j = none) :
    openai_parse_chunk (Chunk.data j) = none := by
  unfold openai_parse_chunk
  by_cases h1 : pyStrip (Chunk.data j).bytes = []
  · rw [if_pos h1]
  · rw [if_neg h1]
    by_cases h2 : pyStarts [':'] (pyStrip (Chunk.data j).bytes)
    · rw [if_pos h2]
    · rw [if_neg h2]
      by_cases h3 : pyIn (txt "data: [DONE]") (Chunk.data j).bytes
      · rw [if_pos h3]
      · rw [if_neg h3]
        by_cases h4 : pyStarts (txt "data: ") (Chunk.data j).bytes
        · rw [if_pos h4]
          exact hx
        · rw [if_neg h4]

theorem gemini_parse_data_none (j : JVal) (hx : gemini_extract j = none) :
    gemini_parse_chunk (Chunk.data j) = none := by
  unfold gemini_parse_chunk
  by_cases h1 : pyStrip (Chunk.data j).bytes = []
  · rw [if_pos h1]
  · rw [if_neg h1]
    by_cases h2 : pyStarts [':'] (pyStrip (Chunk.data j).bytes)
    · rw [if_pos h2]
    · rw [if_neg h2]
      by_cases h3 : pyIn (txt "data: [DONE]") (Chunk.data j).bytes
      · rw [if_pos h3]
      · rw [if_neg h3]
        by_cases h4 : pyStarts (txt "data: ") (Chunk.data j).bytes
        · rw [if_pos h4]
          exact hx
        · rw [if_neg h4]

theorem claude_parse_data_none (j : JVal) :
    claude_parse_chunk (Chunk.data j) = none := by
  unfold claude_parse_chunk
  by_cases h1 : pyStrip (Chunk.data j).bytes = []
  · rw [if_pos h1]
  · rw [if_neg h1]
    by_cases h2 : pyStarts [':'] (pyStrip (Chunk.data j).bytes)
    · rw [if_pos h2]
    · rw [if_neg h2]
      by_cases h3 : pyIn (txt "event: message_stop") (Chunk.data j).bytes ∨
          pyIn (txt "event: done") (Chunk.data j).bytes
      · rw [if_pos h3]
      · rw [if_neg h3]

theorem parse_data_none_of_extract (p : Protocol) (j : JVal)
    (h1 : openai_extract j = none) (h2 : gemini_extract j = none) :
    parse_chunk_for p (Chunk.data j) = none := by
  cases p with
  | openai => exact openai_parse_data_none j h1
  | gemini => exact gemini_parse_data_none j h2
  | claude => exact claude_parse_data_none j

theorem run_chunks_outputs (p : Protocol) (marker : List Char) (cs : List Chunk) :
    ∀ st : EState, ∀ c' ∈ (run_chunks p marker st cs).2.1,
      ∃ c ∈ cs, c' = strip_done_marker_for p c marker := by
  induction cs with
  | nil =>
    intro st c' h
    simp [run_chunks] at h
  | cons c rest ih =>
    intro st c' h
    rw [run_chunks] at h
    split at h
    · simp at h
    · split at h
      · rename_i s _
        simp only [] at h
        split at h
        · simp at h
          exact ⟨c, List.mem_cons_self _ _, h⟩
        · dsimp only at h
          simp only [List.mem_cons] at h
          rcases h with rfl | h'
          · exact ⟨c, List.mem_cons_self _ _, rfl⟩
          · obtain ⟨c0, hc0, he⟩ := ih _ c' h'
            exact ⟨c0, List.mem_cons_of_mem _ hc0, he⟩
      · simp at h
      · split at h
        · simp at h
          exact ⟨c, List.mem_cons_self _ _, h⟩
        · dsimp only at h
          simp only [List.mem_cons] at h
          rcases h with rfl | h'
          · exact ⟨c, List.mem_cons_self _ _, rfl⟩
          · obtain ⟨c0, hc0, he⟩ := ih _ c' h'
            exact ⟨c0, List.mem_cons_of_mem _ hc0, he⟩

theorem run_stream_outputs_marker_free (p : Protocol) (marker : List Char)
    (maxA : Nat) (rid : List Char) (hesc : escape_free marker) :
    ∀ script : List Attempt,
      (∀ a ∈ script, ∀ c ∈ a.chunks, ∀ s ∈ chunk_texts p c,
        pyIn marker s → ¬ pyIn marker (pyRemoveAll marker s)) →
      (∀ a ∈ script, ∀ c ∈ a.chunks, strip_no_exc p marker c) →
      ∀ st : EState, ∀ o ∈ (run_stream p marker maxA rid st script).2, ∀ s,
        parse_chunk_for p (out_chunk o) = some (JVal.str s) → ¬ pyIn marker s := by
  intro script
  induction script with
  | nil =>
    intro _ _ st o ho
    simp [run_stream] at ho
  | cons a rest ih =>
    intro hno hexc st o ho s hp
    have hF : ∀ o2 ∈ ((run_chunks p marker { st with attempt := st.attempt + 1 }
        a.chunks).2.1.map Out.forwarded),
        ∀ s2, parse_chunk_for p (out_chunk o2) = some (JVal.str s2) →
          ¬ pyIn marker s2 := by
      intro o2 ho2 s2 hp2
      obtain ⟨c', hc', rfl⟩ := List.mem_map.mp ho2
      obtain ⟨c0, hc0, he⟩ := run_chunks_outputs p marker a.chunks _ c' hc'
      dsimp only [out_chunk] at hp2
      rw [he] at hp2
      exact strip_output_marker_free p marker c0 hesc
        (hno a (List.mem_cons_self _ _) c0 hc0)
        (hexc a (List.mem_cons_self _ _) c0 hc0) s2 hp2
    have hD : ∀ o2 ∈ doneIf p,
        ∀ s2, parse_chunk_for p (out_chunk o2) = some (JVal.str s2) →
          ¬ pyIn marker s2 := by
      intro o2 ho2 s2 hp2
      unfold doneIf at ho2
      split at ho2
      · simp only [List.mem_singleton] at ho2
        subst ho2
        rw [parse_done_sentinel_none p] at hp2
        exact absurd hp2 (by simp)
      · simp at ho2
    have hE : ∀ (fs : List (List Char × JVal)),
        jGet fs (txt "choices") = none → jGet fs (txt "candidates") = none →
        ∀ s2, parse_chunk_for p (out_chunk (Out.errorEvent (JVal.obj fs)))
          = some (JVal.str s2) → ¬ pyIn marker s2 := by
      intro fs h1 h2 s2 hp2
      dsimp only [out_chunk] at hp2
      rw [parse_data_none_of_extract p (JVal.obj fs)
        (openai_extract_no_choices fs h1) (gemini_extract_no_cands fs h2)] at hp2
      exact absurd hp2 (by simp)
    have hC : ∀ s2, parse_chunk_for p (out_chunk (Out.comment max_attempts_comment))
        = some (JVal.str s2) → ¬ pyIn marker s2 := by
      intro s2 hp2
      rw [parse_max_comment_none p] at hp2
      exact absurd hp2 (by simp)
    have hIH := ih (fun a' ha' => hno a' (List.mem_cons_of_mem _ ha'))
      (fun a' ha' => hexc a' (List.mem_cons_of_mem _ ha'))
    rw [run_stream] at ho
    split at ho
    · simp only [] at ho
      cases hx : (run_chunks p marker { st with attempt := st.attempt + 1 }
          a.chunks).2.2 with
      | crashed =>
        rw [hx] at ho
        dsimp only at ho
        rcases List.mem_append.mp ho with h | h
        · exact hF o h s hp
        · rcases List.mem_cons.mp h with rfl | h2
          · refine hE _ ?_ ?_ s hp
            · rfl
            · rfl
          · exact hD o h2 s hp
      | ranOut =>
        cases hy : a.ending with
        | eof =>
          rw [hx, hy] at ho
          dsimp only at ho
          split at ho
          · dsimp only at ho
            rcases List.mem_append.mp ho with h | h
            · exact hF o h s hp
            · exact hD o h s hp
          · split at ho
            · dsimp only at ho
              rcases List.mem_append.mp ho with h | h
              · exact hF o h s hp
              · rcases List.mem_cons.mp h with rfl | h2
                · exact hC s hp
                · exact hD o h2 s hp
            · dsimp only at ho
              rcases List.mem_append.mp ho with h | h
              · exact hF o h s hp
              · exact hIH _ o h s hp
        | statusError code msg =>
          rw [hx, hy] at ho
          dsimp only at ho
          split at ho
          · dsimp only at ho
            rcases List.mem_append.mp ho with h | h
            · exact hF o h s hp
            · exact hIH _ o h s hp
          · dsimp only at ho
            rcases List.mem_append.mp ho with h | h
            · exact hF o h s hp
            · rcases List.mem_cons.mp h with rfl | h2
              · refine hE _ ?_ ?_ s hp
                · rfl
                · rfl
              · exact hD o h2 s hp
        | requestError msg =>
          rw [hx, hy] at ho
          dsimp only at ho
          split at ho
          · dsimp only at ho
            rcases List.mem_append.mp ho with h | h
            · exact hF o h s hp
            · exact hIH _ o h s hp
          · dsimp only at ho
            rcases List.mem_append.mp ho with h | h
            · exact hF o h s hp
            · rcases List.mem_cons.mp h with rfl | h2
              · refine hE _ ?_ ?_ s hp
                · rfl
                · rfl
              · exact hD o h2 s hp
        | idleRetry =>
          rw [hx, hy] at ho
          dsimp only at ho
          split at ho
          · dsimp only at ho
            rcases List.mem_append.mp ho with h | h
            · exact hF o h s hp
            · exact hIH _ o h s hp
          · dsimp only at ho
            exact hF o ho s hp
      | sentinelBreak =>
        rw [hx] at ho
        dsimp only at ho
        split at ho
        · dsimp only at ho
          rcases List.mem_append.mp ho with h | h
          · exact hF o h s hp
          · exact hD o h s hp
        · split at ho
          · dsimp only at ho
            rcases List.mem_append.mp ho with h | h
            · exact hF o h s hp
            · rcases List.mem_cons.mp h with rfl | h2
              · exact hC s hp
              · exact hD o h2 s hp
          · dsimp only at ho
            rcases List.mem_append.mp ho with h | h
            · exact hF o h s hp
            · exact hIH _ o h s hp
      | markerBreak =>
        rw [hx] at ho
        dsimp only at ho
        split at ho
        · dsimp only at ho
          rcases List.mem_append.mp ho with h | h
          · exact hF o h s hp
          · exact hD o h s hp
        · split at ho
          · dsimp only at ho
            rcases List.mem_append.mp ho with h | h
            · exact hF o h s hp
            · rcases List.mem_cons.mp h with rfl | h2
              · exact hC s hp
              · exact hD o h2 s hp
          · dsimp only at ho
            rcases List.mem_append.mp ho with h | h
            · exact hF o h s hp
            · exact hIH _ o h s hp
    · simp at ho

/-! ### Claim C1: downstream marker-freedom under re-parsing -/

/-- C1 (amended): for every protocol, marker, attempt budget and
upstream script, provided that (i) JSON escaping rewrites no character
of the marker, (ii) removing every marker occurrence from a text field
that contains the marker never manufactures a fresh occurrence, and
(iii) `strip_done_marker` reaches none of its exception handlers on the
upstream chunks, every record the engine emits downstream - forwarded
chunk, SSE comment, `[DONE]` sentinel or error event - re-parses under
the dialect parser to a text/content field free of the marker.  Without
(ii) the claim is false: see the counterexample, where `str.replace`
merges the characters around a removed occurrence into a new one. -/
theorem c1_downstream_reparse_marker_free (p : Protocol) (marker : List Char)
    (maxA : Nat) (rid : List Char) (script : List Attempt)
    (hesc : escape_free marker)
    (hno : ∀ a ∈ script, ∀ c ∈ a.chunks, ∀ s ∈ chunk_texts p c,
      pyIn marker s → ¬ pyIn marker (pyRemoveAll marker s))
    (hexc : ∀ a ∈ script, ∀ c ∈ a.chunks, strip_no_exc p marker c) :
    ∀ o ∈ (run_stream p marker maxA rid initEState script).2, ∀ s,
      parse_chunk_for p (out_chunk o) = some (JVal.str s) → ¬ pyIn marker s :=
  run_stream_outputs_marker_free p marker maxA rid hesc script hno hexc initEState

/-- C1 counterexample to the claim as stated: with the default marker
`[done]` and an OpenAI content `[do[done]ne]`, the engine detects the
marker and strips the chunk, but `str.replace` turns the content into
`[done]`, so the forwarded record re-parses to a content that contains
(indeed equals) the marker. -/
theorem c1_downstream_reparse_marker_free_counterexample :
    ((run_stream Protocol.openai (txt "[done]") 2 (txt "rid") initEState
        [{ chunks := [Chunk.data (JVal.obj [(txt "choices", JVal.arr
            [JVal.obj [(txt "delta", JVal.obj
              [(txt "content", JVal.str (txt "[do[done]ne]"))])]])])],
           ending := AttemptEnd.eof }]).2.any (fun o =>
      match parse_chunk_for Protocol.openai (out_chunk o) with
      | some (JVal.str s) => decide (pyIn (txt "[done]") s)
      | _ => false)) = true := by
  rfl

/-- C1 witness: the amended theorem applied to an OpenAI attempt whose
single chunk carries the content `hello [done]` - the forwarded record
re-parses to `hello `, which is marker-free. -/
theorem c1_downstream_reparse_marker_free_witness :
    ¬ pyIn (txt "[done]") (txt "hello ") :=
  c1_downstream_reparse_marker_free Protocol.openai (txt "[done]") 3 (txt "rid")
    [{ chunks := [Chunk.data (JVal.obj [(txt "choices", JVal.arr
        [JVal.obj [(txt "delta", JVal.obj
          [(txt "content", JVal.str (txt "hello [done]"))])]])])],
       ending := AttemptEnd.eof }]
    (by decide) (by decide) (by decide)
    (Out.forwarded (Chunk.data (JVal.obj [(txt "choices", JVal.arr
      [JVal.obj [(txt "delta", JVal.obj
        [(txt "content", JVal.str (txt "hello "))])]])])))
    (by exact List.mem_cons_self _ _)
    (txt "hello ") (by rfl)

/-! ### Claim C8: the injectors never mutate the original body
(`app/injection.py`)

Python objects live on a heap and are passed by reference; mutation of a
dict or list is visible through every reference to it.  We model the
heap explicitly: a value is a string or a reference to a heap object
(dict or list), `copy.deepcopy` allocates a fresh copy of the reachable
tree, and each injector is translated statement by statement, item
assignment and `insert`/`append` becoming writes to the referenced
address.  A raised exception (`.get`/`insert` on a non-container, or an
f-string rendering of a non-string value, which we do not model) is
`none`.  The readout of a value - the tree a reference denotes - is
`readVal`; the claim is that a successful injector call leaves the
readout of the original body unchanged. -/

/-- A Python value: a string, or a reference to a heap object. -/
inductive PVal where
  | str (s : List Char)
  | ref (a : Nat)

/-- A heap object: a dict (insertion-ordered fields) or a list. -/
inductive PObj where
  | dict (fields : List (List Char × PVal))
  | list (items : List PVal)

instance : Nonempty PVal := ⟨PVal.str []⟩

instance : Nonempty PObj := ⟨PObj.list []⟩

/-- The Python heap: an address-to-object store and the next fresh
address. -/
structure Heap where
  objs : List (Nat × PObj)
  next : Nat

/-- The object at an address, if any. -/
def hGet (h : Heap) (a : Nat) : Option PObj :=
  (h.objs.find? (fun p => p.1 = a)).map (fun p => p.2)

/-- In-place update of the object at an address (Python mutation). -/
def hSet (h : Heap) (a : Nat) (o : PObj) : Heap :=
  { h with objs := h.objs.map (fun p => if p.1 = a then (a, o) else p) }

/-- Allocate a fresh object, returning the new heap and its address. -/
def alloc (h : Heap) (o : PObj) : Heap × Nat :=
  ({ objs := h.objs ++ [(h.next, o)], next := h.next + 1 }, h.next)

/-- Python `d.get(k)` / `d[k]` on dict fields. -/
def pGet (fs : List (List Char × PVal)) (k : List Char) : Option PVal :=
  (fs.find? (fun f => f.1 = k)).map (fun f => f.2)

/-- Python `d[k] = v`: replace in place if the key exists, else append
(dicts keep insertion order). -/
def pSet (fs : List (List Char × PVal)) (k : List Char) (v : PVal) :
    List (List Char × PVal) :=
  if (fs.find? (fun f => f.1 = k)).isSome then
    fs.map (fun f => if f.1 = k then (k, v) else f)
  else fs ++ [(k, v)]

/-- The tree a value denotes (for comparing before/after states);
`bad` on a dangling reference or exhausted fuel. -/
inductive PTree where
  | str (s : List Char)
  | dict (fields : List (List Char × PTree))
  | list (items : List PTree)
  | bad

instance : Nonempty PTree := ⟨PTree.bad⟩

/-- Read the full tree reachable from a value. -/
def readVal : Heap → Nat → PVal → PTree
  | _, _, PVal.str s => PTree.str s
  | _, 0, PVal.ref _ => PTree.bad
  | h, fuel+1, PVal.ref a =>
    match hGet h a with
    | some (PObj.dict fs) => PTree.dict (fs.map (fun f => (f.1, readVal h fuel f.2)))
    | some (PObj.list xs) => PTree.list (xs.map (fun v => readVal h fuel v))
    | none => PTree.bad

/-- Copy a list of values left to right, threading the heap. -/
def copyAll {α β : Type} (cp : Heap → α → Option (Heap × β)) (h : Heap)
    (xs : List α) : Option (Heap × List β) :=
  xs.foldl (fun acc x =>
    match acc with
    | none => none
    | some (h0, done) =>
      match cp h0 x with
      | none => none
      | some (h1, v) => some (h1, done ++ [v])) (some (h, []))

/-- `copy.deepcopy`: copy the reachable tree, allocating fresh objects;
`none` on exhausted fuel (a cyclic or deeper-than-fuel value). -/
def copyVal : Heap → Nat → PVal → Option (Heap × PVal)
  | h, _, PVal.str s => some (h, PVal.str s)
  | _, 0, PVal.ref _ => none
  | h, fuel+1, PVal.ref a =>
    match hGet h a with
    | some (PObj.dict fs) =>
      match copyAll (fun h0 f =>
          (copyVal h0 fuel f.2).map (fun r => (r.1, (f.1, r.2)))) h fs with
      | none => none
      | some (h1, fs1) =>
        some ((alloc h1 (PObj.dict fs1)).1, PVal.ref (alloc h1 (PObj.dict fs1)).2)
    | some (PObj.list xs) =>
      match copyAll (fun h0 v => copyVal h0 fuel v) h xs with
      | none => none
      | some (h1, xs1) =>
        some ((alloc h1 (PObj.list xs1)).1, PVal.ref (alloc h1 (PObj.list xs1)).2)
    | none => none
/-- Every reference of the value points below `n`. -/
def valLo (n : Nat) : PVal → Prop
  | PVal.str _ => True
  | PVal.ref a => a < n

/-- Every reference of the object points below `n`. -/
def objLo (n : Nat) : PObj → Prop
  | PObj.dict fs => ∀ f ∈ fs, valLo n f.2
  | PObj.list xs => ∀ v ∈ xs, valLo n v

/-- Every reference of the value points at or above `n`. -/
def valHi (n : Nat) : PVal → Prop
  | PVal.str _ => True
  | PVal.ref a => n ≤ a

/-- Every reference of the object points at or above `n`. -/
def objHi (n : Nat) : PObj → Prop
  | PObj.dict fs => ∀ f ∈ fs, valHi n f.2
  | PObj.list xs => ∀ v ∈ xs, valHi n v

/-- Every object stored at or above `n` only references at or above
`n` (the freshly built region is closed). -/
def hiInv (n : Nat) (h : Heap) : Prop :=
  ∀ a, n ≤ a → ∀ o, hGet h a = some o → objHi n o

/-- Well-formed heap: stored addresses are below `next` and stored
objects only reference stored addresses. -/
def heapWF (h : Heap) : Prop :=
  ∀ p ∈ h.objs, p.1 < h.next ∧ objLo h.next p.2

/-- The heap `h1` extends the base heap `horig` without touching
anything below `n`: below-`n` readbacks agree, the allocator stays at
or above `n`, and the region at or above `n` is closed. -/
def HExt (n : Nat) (horig h1 : Heap) : Prop :=
  (∀ a, a < n → hGet h1 a = hGet horig a) ∧ n ≤ h1.next ∧ hiInv n h1

instance (n : Nat) (v : PVal) : Decidable (valLo n v) := by
  unfold valLo
  cases v <;> infer_instance

instance (n : Nat) (o : PObj) : Decidable (objLo n o) := by
  unfold objLo
  cases o <;> infer_instance

instance (h : Heap) : Decidable (heapWF h) := by
  unfold heapWF
  infer_instance

/-- Python `lst.insert(0, v)` through a reference. -/
def insert_front (h : Heap) (ma : Nat) (v : PVal) : Option Heap :=
  match hGet h ma with
  | some (PObj.list items) => some (hSet h ma (PObj.list (v :: items)))
  | _ => none

/-- Python `lst.append(v)` through a reference. -/
def append_item (h : Heap) (ma : Nat) (v : PVal) : Option Heap :=
  match hGet h ma with
  | some (PObj.list items) => some (hSet h ma (PObj.list (items ++ [v])))
  | _ => none

/-- Python `d[k] = v` through a reference. -/
def set_key (h : Heap) (b : Nat) (k : List Char) (v : PVal) : Option Heap :=
  match hGet h b with
  | some (PObj.dict fs) => some (hSet h b (PObj.dict (pSet fs k v)))
  | _ => none

theorem hGet_mem {h : Heap} {a : Nat} {o : PObj} (hg : hGet h a = some o) :
    ∃ p ∈ h.objs, p.1 = a ∧ p.2 = o := by
  unfold hGet at hg
  rcases hf : h.objs.find? (fun p => p.1 = a) with _ | p
  · rw [hf] at hg
    exact absurd hg (by simp)
  · rw [hf] at hg
    try dsimp only [Option.map] at hg
    simp only [Option.some.injEq] at hg
    have hm := List.mem_of_find?_eq_some hf
    have hk := List.find?_some hf
    simp only [decide_eq_true_eq] at hk
    exact ⟨p, hm, hk, hg⟩

theorem find_map_set_ne (l : List (Nat × PObj)) (b : Nat) (o : PObj) (a : Nat)
    (hne : a ≠ b) :
    (l.map (fun p => if p.1 = b then (b, o) else p)).find? (fun p => p.1 = a)
      = l.find? (fun p => p.1 = a) := by
  induction l with
  | nil => rfl
  | cons p rest ih =>
    by_cases hb : p.1 = b
    · simp only [List.map_cons, if_pos hb]
      rw [List.find?_cons_of_neg _
          (by simp only [decide_eq_true_eq]; exact Ne.symm hne),
        List.find?_cons_of_neg _
          (by simp only [decide_eq_true_eq]; rw [hb]; exact Ne.symm hne)]
      exact ih
    · simp only [List.map_cons, if_neg hb]
      by_cases ha : p.1 = a
      · rw [List.find?_cons_of_pos _ (by simp [ha]),
          List.find?_cons_of_pos _ (by simp [ha])]
      · rw [List.find?_cons_of_neg _ (by simp [ha]),
          List.find?_cons_of_neg _ (by simp [ha])]
        exact ih

theorem hGet_hSet_ne (h : Heap) (b : Nat) (o : PObj) (a : Nat) (hne : a ≠ b) :
    hGet (hSet h b o) a = hGet h a := by
  unfold hGet hSet
  dsimp only
  rw [find_map_set_ne h.objs b o a hne]

theorem find_map_set_self (l : List (Nat × PObj)) (b : Nat) (o : PObj) (a : Nat)
    (q : Nat × PObj)
    (hg : (l.map (fun p => if p.1 = b then (b, o) else p)).find?
      (fun p => p.1 = a) = some q) :
    q = (b, o) ∨ l.find? (fun p => p.1 = a) = some q := by
  induction l with
  | nil => exact absurd hg (by simp)
  | cons p rest ih =>
    by_cases hb : p.1 = b
    · rw [List.map_cons, if_pos hb] at hg
      by_cases hba : b = a
      · rw [List.find?_cons_of_pos _ (by simp [hba])] at hg
        simp only [Option.some.injEq] at hg
        exact Or.inl hg.symm
      · rw [List.find?_cons_of_neg _ (by simp [hba])] at hg
        rcases ih hg with hq | hq
        · exact Or.inl hq
        · right
          have hpa : ¬ p.1 = a := by
            rw [hb]
            exact hba
          rw [List.find?_cons_of_neg _ (by simp [hpa])]
          exact hq
    · rw [List.map_cons, if_neg hb] at hg
      by_cases ha : p.1 = a
      · rw [List.find?_cons_of_pos _ (by simp [ha])] at hg
        right
        rw [List.find?_cons_of_pos _ (by simp [ha])]
        exact hg
      · rw [List.find?_cons_of_neg _ (by simp [ha])] at hg
        rcases ih hg with hq | hq
        · exact Or.inl hq
        · right
          rw [List.find?_cons_of_neg _ (by simp [ha])]
          exact hq

theorem hGet_hSet_cases (h : Heap) (b : Nat) (o : PObj) (a : Nat) (o' : PObj)
    (hg : hGet (hSet h b o) a = some o') : o' = o ∨ hGet h a = some o' := by
  unfold hGet hSet at hg
  dsimp only at hg
  rcases hf : (h.objs.map (fun p => if p.1 = b then (b, o) else p)).find?
      (fun p => p.1 = a) with _ | q
  · rw [hf] at hg
    exact absurd hg (by simp)
  · rw [hf] at hg
    try dsimp only [Option.map] at hg
    simp only [Option.some.injEq] at hg
    rcases find_map_set_self h.objs b o a q hf with hq | hq
    · left
      rw [← hg, hq]
    · right
      unfold hGet
      rw [hq]
      try dsimp only [Option.map]
      rw [hg]

theorem hGet_alloc_lt (h : Heap) (o : PObj) (a : Nat) (ha : a < h.next) :
    hGet (alloc h o).1 a = hGet h a := by
  unfold hGet alloc
  dsimp only
  rw [List.find?_append]
  rcases hf : h.objs.find? (fun p => p.1 = a) with _ | p
  · rw [hf]
    simp only [Option.none_or]
    rw [List.find?_cons_of_neg _
        (by simp only [decide_eq_true_eq]; exact Nat.ne_of_gt ha),
      List.find?_nil]
  · rw [hf]
    rfl

theorem hGet_alloc_cases (h : Heap) (o : PObj) (a : Nat) (o' : PObj)
    (hg : hGet (alloc h o).1 a = some o') : o' = o ∨ hGet h a = some o' := by
  unfold hGet alloc at hg
  dsimp only at hg
  rw [List.find?_append] at hg
  rcases hf : h.objs.find? (fun p => p.1 = a) with _ | p
  · rw [hf] at hg
    simp only [Option.none_or] at hg
    by_cases hn : h.next = a
    · rw [List.find?_cons_of_pos _ (by simp [hn])] at hg
      left
      try dsimp only [Option.map] at hg
      simp only [Option.some.injEq] at hg
      rw [← hg]
    · rw [List.find?_cons_of_neg _ (by simp [hn]), List.find?_nil] at hg
      exact absurd hg (by simp)
  · rw [hf] at hg
    right
    unfold hGet
    rw [hf]
    try dsimp only [Option.or] at hg
    exact hg

theorem pGet_mem {fs : List (List Char × PVal)} {k : List Char} {v : PVal}
    (hg : pGet fs k = some v) : ∃ f ∈ fs, f.2 = v := by
  unfold pGet at hg
  rcases hf : fs.find? (fun f => f.1 = k) with _ | f
  · rw [hf] at hg
    exact absurd hg (by simp)
  · rw [hf] at hg
    try dsimp only [Option.map] at hg
    simp only [Option.some.injEq] at hg
    exact ⟨f, List.mem_of_find?_eq_some hf, hg⟩

theorem pSet_mem {fs : List (List Char × PVal)} {k : List Char} {v : PVal}
    {f : List Char × PVal} (hf : f ∈ pSet fs k v) : f = (k, v) ∨ f ∈ fs := by
  unfold pSet at hf
  split at hf
  · obtain ⟨g, hg, hfg⟩ := List.mem_map.mp hf
    by_cases hk : g.1 = k
    · rw [if_pos hk] at hfg
      exact Or.inl hfg.symm
    · rw [if_neg hk] at hfg
      exact Or.inr (hfg ▸ hg)
  · rcases List.mem_append.mp hf with hf' | hf'
    · exact Or.inr hf'
    · left
      simpa using hf'

theorem hext_refl (h : Heap) (hwf : heapWF h) : HExt h.next h h := by
  refine ⟨fun a ha => rfl, Nat.le_refl _, ?_⟩
  intro a ha o hg
  obtain ⟨p, hp, hpa, hpo⟩ := hGet_mem hg
  exact absurd (hpa ▸ (hwf p hp).1) (not_lt.mpr ha)

theorem hext_set (n : Nat) (horig h : Heap) (hx : HExt n horig h) (b : Nat)
    (hb : n ≤ b) (o : PObj) (ho : objHi n o) : HExt n horig (hSet h b o) := by
  obtain ⟨hag, hn, hinv⟩ := hx
  refine ⟨?_, hn, ?_⟩
  · intro a ha
    rw [hGet_hSet_ne h b o a (by omega)]
    exact hag a ha
  · intro a ha o' hg
    rcases hGet_hSet_cases h b o a o' hg with rfl | hg'
    · exact ho
    · exact hinv a ha o' hg'

theorem hext_alloc (n : Nat) (horig h : Heap) (hx : HExt n horig h) (o : PObj)
    (ho : objHi n o) : HExt n horig (alloc h o).1 := by
  obtain ⟨hag, hn, hinv⟩ := hx
  refine ⟨?_, ?_, ?_⟩
  · intro a ha
    rw [hGet_alloc_lt h o a (by omega)]
    exact hag a ha
  · show n ≤ h.next + 1
    omega
  · intro a ha o' hg
    rcases hGet_alloc_cases h o a o' hg with rfl | hg'
    · exact ho
    · exact hinv a ha o' hg'

theorem insert_front_hext (n : Nat) (horig h : Heap) (hx : HExt n horig h)
    (ma : Nat) (hma : n ≤ ma) (v : PVal) (hv : valHi n v) (h1 : Heap)
    (hr : insert_front h ma v = some h1) : HExt n horig h1 := by
  unfold insert_front at hr
  rcases hg : hGet h ma with _ | o
  · rw [hg] at hr
    exact absurd hr (by simp)
  · rw [hg] at hr
    cases o with
    | dict fs => exact absurd hr (by simp)
    | list items =>
      simp only [Option.some.injEq] at hr
      subst hr
      refine hext_set n horig h hx ma hma _ ?_
      intro w hw
      rcases List.mem_cons.mp hw with rfl | hw'
      · exact hv
      · exact hx.2.2 ma hma _ hg w hw'

theorem append_item_hext (n : Nat) (horig h : Heap) (hx : HExt n horig h)
    (ma : Nat) (hma : n ≤ ma) (v : PVal) (hv : valHi n v) (h1 : Heap)
    (hr : append_item h ma v = some h1) : HExt n horig h1 := by
  unfold append_item at hr
  rcases hg : hGet h ma with _ | o
  · rw [hg] at hr
    exact absurd hr (by simp)
  · rw [hg] at hr
    cases o with
    | dict fs => exact absurd hr (by simp)
    | list items =>
      simp only [Option.some.injEq] at hr
      subst hr
      refine hext_set n horig h hx ma hma _ ?_
      intro w hw
      rcases List.mem_append.mp hw with hw' | hw'
      · exact hx.2.2 ma hma _ hg w hw'
      · rw [List.mem_singleton.mp hw']
        exact hv

theorem set_key_hext (n : Nat) (horig h : Heap) (hx : HExt n horig h)
    (b : Nat) (hb : n ≤ b) (k : List Char) (v : PVal) (hv : valHi n v) (h1 : Heap)
    (hr : set_key h b k v = some h1) : HExt n horig h1 := by
  unfold set_key at hr
  rcases hg : hGet h b with _ | o
  · rw [hg] at hr
    exact absurd hr (by simp)
  · rw [hg] at hr
    cases o with
    | list xs => exact absurd hr (by simp)
    | dict fs =>
      simp only [Option.some.injEq] at hr
      subst hr
      refine hext_set n horig h hx b hb _ ?_
      intro f hf
      rcases pSet_mem hf with rfl | hf'
      · exact hv
      · exact hx.2.2 b hb _ hg f hf'

theorem readVal_agree (n : Nat) (horig h1 : Heap)
    (hag : ∀ a, a < n → hGet h1 a = hGet horig a)
    (hcl : ∀ a, a < n → ∀ o, hGet horig a = some o → objLo n o) :
    ∀ fuel v, valLo n v → readVal h1 fuel v = readVal horig fuel v := by
  intro fuel
  induction fuel with
  | zero =>
    intro v hv
    cases v <;> rfl
  | succ fuel ih =>
    intro v hv
    cases v with
    | str s => rfl
    | ref a =>
      have ha : a < n := hv
      unfold readVal
      rw [hag a ha]
      rcases hg : hGet horig a with _ | o
      · rfl
      · have hb := hcl a ha o hg
        cases o with
        | dict fs =>
          dsimp only
          congr 1
          apply List.map_congr_left
          intro f hf
          rw [ih f.2 (hb f hf)]
        | list xs =>
          dsimp only
          congr 1
          apply List.map_congr_left
          intro w hw
          rw [ih w (hb w hw)]

theorem readVal_of_hext (h : Heap) (hwf : heapWF h) (h1 : Heap)
    (hx : HExt h.next h h1) (body : PVal) (hlo : valLo h.next body)
    (rfuel : Nat) : readVal h1 rfuel body = readVal h rfuel body := by
  refine readVal_agree h.next h h1 hx.1 ?_ rfuel body hlo
  intro a ha o hg
  obtain ⟨p, hp, hpa, hpo⟩ := hGet_mem hg
  rw [← hpo]
  exact (hwf p hp).2

theorem copyAll_fold_none {α β : Type} (cp : Heap → α → Option (Heap × β)) :
    ∀ (xs : List α),
      xs.foldl (fun acc x =>
        match acc with
        | none => none
        | some (h0, done) =>
          match cp h0 x with
          | none => none
          | some (h1, v) => some (h1, done ++ [v]))
        (none : Option (Heap × List β)) = none := by
  intro xs
  induction xs with
  | nil => rfl
  | cons x rest ih =>
    rw [List.foldl_cons]
    exact ih

theorem copyAll_fold_inv {α β : Type} (cp : Heap → α → Option (Heap × β))
    (P : Heap → Prop) (Q : β → Prop)
    (hstep : ∀ h0 x h1 v, P h0 → cp h0 x = some (h1, v) → P h1 ∧ Q v) :
    ∀ (xs : List α) (acc : Option (Heap × List β)) (h1 : Heap) (ys : List β),
      xs.foldl (fun acc x =>
        match acc with
        | none => none
        | some (h0, done) =>
          match cp h0 x with
          | none => none
          | some (h1, v) => some (h1, done ++ [v])) acc = some (h1, ys) →
      (∀ h0 done, acc = some (h0, done) → P h0 ∧ ∀ v ∈ done, Q v) →
      P h1 ∧ ∀ v ∈ ys, Q v := by
  intro xs
  induction xs with
  | nil =>
    intro acc h1 ys heq hacc
    rw [List.foldl_nil] at heq
    exact hacc h1 ys heq
  | cons x rest ih =>
    intro acc h1 ys heq hacc
    rw [List.foldl_cons] at heq
    rcases acc with _ | p
    · dsimp only at heq
      rw [copyAll_fold_none] at heq
      exact absurd heq (by simp)
    · rcases p with ⟨h0, done⟩
      obtain ⟨hP0, hQ0⟩ := hacc h0 done rfl
      dsimp only at heq
      rcases hcp : cp h0 x with _ | q
      · rw [hcp] at heq
        dsimp only at heq
        rw [copyAll_fold_none] at heq
        exact absurd heq (by simp)
      · rw [hcp] at heq
        rcases q with ⟨hh, v⟩
        dsimp only at heq
        obtain ⟨hPh, hQv⟩ := hstep h0 x hh v hP0 hcp
        refine ih _ h1 ys heq ?_
        intro h0' done' he
        simp only [Option.some.injEq, Prod.mk.injEq] at he
        obtain ⟨he1, he2⟩ := he
        subst he1
        subst he2
        refine ⟨hPh, ?_⟩
        intro w hw
        rcases List.mem_append.mp hw with hw' | hw'
        · exact hQ0 w hw'
        · rw [List.mem_singleton.mp hw']
          exact hQv

theorem copyAll_inv {α β : Type} (cp : Heap → α → Option (Heap × β))
    (P : Heap → Prop) (Q : β → Prop)
    (hstep : ∀ h0 x h1 v, P h0 → cp h0 x = some (h1, v) → P h1 ∧ Q v)
    (xs : List α) (h h1 : Heap) (ys : List β)
    (hc : copyAll cp h xs = some (h1, ys)) (hP : P h) :
    P h1 ∧ ∀ v ∈ ys, Q v := by
  unfold copyAll at hc
  refine copyAll_fold_inv cp P Q hstep xs (some (h, [])) h1 ys hc ?_
  intro h0 done he
  simp only [Option.some.injEq, Prod.mk.injEq] at he
  obtain ⟨he1, he2⟩ := he
  subst he1
  subst he2
  exact ⟨hP, by simp⟩

theorem copyVal_hext (n : Nat) (horig : Heap) :
    ∀ (fuel : Nat) (h : Heap) (v : PVal) (h1 : Heap) (v1 : PVal),
      HExt n horig h → copyVal h fuel v = some (h1, v1) →
      HExt n horig h1 ∧ valHi n v1 := by
  intro fuel
  induction fuel with
  | zero =>
    intro h v h1 v1 hx hc
    cases v with
    | str s =>
      unfold copyVal at hc
      simp only [Option.some.injEq, Prod.mk.injEq] at hc
      obtain ⟨rfl, he2⟩ := hc
      rw [← he2]
      exact ⟨hx, trivial⟩
    | ref a =>
      unfold copyVal at hc
      exact absurd hc (by simp)
  | succ fuel ih =>
    intro h v h1 v1 hx hc
    cases v with
    | str s =>
      unfold copyVal at hc
      simp only [Option.some.injEq, Prod.mk.injEq] at hc
      obtain ⟨rfl, he2⟩ := hc
      rw [← he2]
      exact ⟨hx, trivial⟩
    | ref a =>
      unfold copyVal at hc
      rcases hg : hGet h a with _ | o
      · rw [hg] at hc
        exact absurd hc (by simp)
      · rw [hg] at hc
        cases o with
        | dict fs =>
          dsimp only at hc
          rcases hca : copyAll (fun h0 f =>
              (copyVal h0 fuel f.2).map (fun r => (r.1, (f.1, r.2)))) h fs
            with _ | p
          · rw [hca] at hc
            exact absurd hc (by simp)
          · rw [hca] at hc
            rcases p with ⟨hmid, fs1⟩
            dsimp only at hc
            simp only [Option.some.injEq, Prod.mk.injEq] at hc
            obtain ⟨he1, he2⟩ := hc
            have hmidP : HExt n horig hmid ∧
                ∀ f1 ∈ fs1, valHi n (Prod.snd f1) := by
              refine copyAll_inv _ (HExt n horig)
                (fun f1 => valHi n (Prod.snd f1)) ?_ fs h hmid fs1 hca hx
              intro h0 x hh w hP0 hcp
              rcases hmap : copyVal h0 fuel x.2 with _ | r
              · rw [hmap] at hcp
                exact absurd hcp (by simp)
              · rw [hmap] at hcp
                rcases r with ⟨hr, vr⟩
                try dsimp only [Option.map] at hcp
                simp only [Option.some.injEq, Prod.mk.injEq] at hcp
                obtain ⟨hc1, hc2⟩ := hcp
                subst hc1
                obtain ⟨hPr, hHr⟩ := ih h0 x.2 hr vr hP0 hmap
                refine ⟨hPr, ?_⟩
                rw [← hc2]
                exact hHr
              
            rw [← he1, ← he2]
            constructor
            · exact hext_alloc n horig hmid hmidP.1 _ hmidP.2
            · show n ≤ hmid.next
              exact hmidP.1.2.1
        | list xs =>
          dsimp only at hc
          rcases hca : copyAll (fun h0 v => copyVal h0 fuel v) h xs with _ | p
          · rw [hca] at hc
            exact absurd hc (by simp)
          · rw [hca] at hc
            rcases p with ⟨hmid, xs1⟩
            dsimp only at hc
            simp only [Option.some.injEq, Prod.mk.injEq] at hc
            obtain ⟨he1, he2⟩ := hc
            have hmidP : HExt n horig hmid ∧ ∀ w ∈ xs1, valHi n w := by
              refine copyAll_inv _ (HExt n horig) (valHi n) ?_ xs h hmid xs1 hca hx
              intro h0 x hh w hP0 hcp
              exact ih h0 x hh w hP0 hcp
            rw [← he1, ← he2]
            constructor
            · exact hext_alloc n horig hmid hmidP.1 _ hmidP.2
            · show n ≤ hmid.next
              exact hmidP.1.2.1

/-- The instruction f-string of `injection.py` (two concatenated
literals with the configured marker interpolated). -/
def injection_instruction (marker : List Char) : List Char :=
  txt "重要：当你完成回答后，请在最后单独一行输出 " ++ marker ++
    txt "（不要有其他字符）。这是一个完成标记，用于确认你的回答已经完整输出。"

/-- The dict literal `\x7b"role": role, "content": content\x7d`. -/
def role_content_obj (role content : List Char) : PObj :=
  PObj.dict [(txt "role", PVal.str role), (txt "content", PVal.str content)]

/-- The dict literal `\x7b"text": text\x7d`. -/
def text_obj (text : List Char) : PObj :=
  PObj.dict [(txt "text", PVal.str text)]

/-- The dict literal `\x7b"type": "text", "text": text\x7d`. -/
def type_text_obj (text : List Char) : PObj :=
  PObj.dict [(txt "type", PVal.str (txt "text")), (txt "text", PVal.str text)]

/-- Allocate `\x7b"role": role, "parts": [\x7b"text": text\x7d]\x7d`
(inner dict, then the list, then the outer dict, as Python evaluates the
literal). -/
def alloc_parts_message (h : Heap) (role text : List Char) : Heap × Nat :=
  let a1 := alloc h (text_obj text)
  let a2 := alloc a1.1 (PObj.list [PVal.ref a1.2])
  alloc a2.1 (PObj.dict [(txt "role", PVal.str role), (txt "parts", PVal.ref a2.2)])

/-- The insert branch of `inject_done_marker_instruction_openai` (lines
42-46 and 48): `messages.insert(0, \x7b"role": "system", "content":
instruction\x7d)` then `body["messages"] = messages`. -/
def openai_insert_new_system (marker : List Char) (h : Heap) (b ma : Nat) :
    Option (Heap × PVal) :=
  match insert_front (alloc h (role_content_obj (txt "system")
      (injection_instruction marker))).1 ma
      (PVal.ref (alloc h (role_content_obj (txt "system")
        (injection_instruction marker))).2) with
  | none => none
  | some h2 =>
    match set_key h2 b (txt "messages") (PVal.ref ma) with
    | none => none
    | some h3 => some (h3, PVal.ref b)

/-- `inject_done_marker_instruction_openai` (lines 13-49): deepcopy the
body, read `messages` (a fresh empty list when absent), merge the
instruction into a leading system message or insert a new one, store
`messages` back, return the copy.  `none` is a raised exception (a
non-dict body, `.get`/indexing/`insert` on a non-container) or an
f-string rendering of a non-string `content`, which we do not model. -/
def inject_done_marker_instruction_openai (marker : List Char) (fuel : Nat)
    (h : Heap) (body : PVal) : Option (Heap × PVal) :=
  match copyVal h fuel body with
  | none => none
  | some (_, PVal.str _) => none
  | some (h0, PVal.ref b) =>
    match hGet h0 b with
    | some (PObj.dict fs) =>
      match pGet fs (txt "messages") with
      | some (PVal.str _) => none
      | some (PVal.ref ma) =>
        match hGet h0 ma with
        | some (PObj.list items) =>
          match items with
          | [] => openai_insert_new_system marker h0 b ma
          | PVal.str _ :: _ => none
          | PVal.ref fa :: _ =>
            match hGet h0 fa with
            | some (PObj.dict ffs) =>
              if (match pGet ffs (txt "role") with
                  | some (PVal.str r) => decide (r = txt "system")
                  | _ => false) = true then
                match (pGet ffs (txt "content")).getD (PVal.str []) with
                | PVal.str ec =>
                  match set_key h0 fa (txt "content")
                      (PVal.str (injection_instruction marker ++
                        txt "\n\n" ++ ec)) with
                  | none => none
                  | some h2 =>
                    match set_key h2 b (txt "messages") (PVal.ref ma) with
                    | none => none
                    | some h3 => some (h3, PVal.ref b)
                | PVal.ref _ => none
              else openai_insert_new_system marker h0 b ma
            | _ => none
        | _ => none
      | none =>
        openai_insert_new_system marker (alloc h0 (PObj.list [])).1 b
          (alloc h0 (PObj.list [])).2
    | _ => none

/-- Tail of `inject_done_marker_instruction_gemini` (lines 76-79):
`parts.insert(0, \x7b"text": instruction\x7d)`, then store `parts` and
`systemInstruction` back. -/
def gemini_with_parts (marker : List Char) (h2 : Heap) (b sa pa : Nat) :
    Option (Heap × PVal) :=
  match insert_front (alloc h2 (text_obj (injection_instruction marker))).1 pa
      (PVal.ref (alloc h2 (text_obj (injection_instruction marker))).2) with
  | none => none
  | some h3 =>
    match set_key h3 sa (txt "parts") (PVal.ref pa) with
    | none => none
    | some h4 =>
      match set_key h4 b (txt "systemInstruction") (PVal.ref sa) with
      | none => none
      | some h5 => some (h5, PVal.ref b)

/-- Middle of `inject_done_marker_instruction_gemini` (line 73):
`parts = system_instruction.get("parts", [])`. -/
def gemini_with_si (marker : List Char) (h1 : Heap) (b sa : Nat) :
    Option (Heap × PVal) :=
  match hGet h1 sa with
  | some (PObj.dict sfs) =>
    match (match pGet sfs (txt "parts") with
           | some (PVal.ref pa) => some (h1, pa)
           | some (PVal.str _) => none
           | none => some ((alloc h1 (PObj.list [])).1,
               (alloc h1 (PObj.list [])).2)) with
    | none => none
    | some (h2, pa) => gemini_with_parts marker h2 b sa pa
  | _ => none

/-- `inject_done_marker_instruction_gemini` (lines 52-82): deepcopy,
read `systemInstruction` (a fresh empty dict when absent) and its
`parts` (a fresh empty list when absent), insert a new text part at the
front, store `parts` and `systemInstruction` back, return the copy. -/
def inject_done_marker_instruction_gemini (marker : List Char) (fuel : Nat)
    (h : Heap) (body : PVal) : Option (Heap × PVal) :=
  match copyVal h fuel body with
  | none => none
  | some (_, PVal.str _) => none
  | some (h0, PVal.ref b) =>
    match hGet h0 b with
    | some (PObj.dict fs) =>
      match (match pGet fs (txt "systemInstruction") with
             | some (PVal.ref sa) => some (h0, sa)
             | some (PVal.str _) => none
             | none => some ((alloc h0 (PObj.dict [])).1,
                 (alloc h0 (PObj.dict [])).2)) with
      | none => none
      | some (h1, sa) => gemini_with_si marker h1 b sa
    | _ => none

/-- `inject_done_marker_instruction_claude` (lines 85-124): deepcopy,
read `system` (default `""`); a string is replaced by the instruction
(prepended when non-empty), a list gets a new text block inserted at the
front and is stored back, anything else is overwritten by the
instruction string. -/
def inject_done_marker_instruction_claude (marker : List Char) (fuel : Nat)
    (h : Heap) (body : PVal) : Option (Heap × PVal) :=
  match copyVal h fuel body with
  | none => none
  | some (_, PVal.str _) => none
  | some (h0, PVal.ref b) =>
    match hGet h0 b with
    | some (PObj.dict fs) =>
      match (pGet fs (txt "system")).getD (PVal.str []) with
      | PVal.str es =>
        match set_key h0 b (txt "system")
            (PVal.str (if es = [] then injection_instruction marker
              else injection_instruction marker ++ txt "\n\n" ++ es)) with
        | none => none
        | some h1 => some (h1, PVal.ref b)
      | PVal.ref sa =>
        match hGet h0 sa with
        | some (PObj.list _) =>
          match insert_front (alloc h0 (type_text_obj
              (injection_instruction marker))).1 sa
              (PVal.ref (alloc h0 (type_text_obj
                (injection_instruction marker))).2) with
          | none => none
          | some h1 =>
            match set_key h1 b (txt "system") (PVal.ref sa) with
            | none => none
            | some h2 => some (h2, PVal.ref b)
        | some (PObj.dict _) =>
          match set_key h0 b (txt "system")
              (PVal.str (injection_instruction marker)) with
          | none => none
          | some h1 => some (h1, PVal.ref b)
        | none => none
    | _ => none

/-- Tail of `inject_continuation_openai` (lines 148-159): append the
assistant history message and the user continuation message, store
`messages` back. -/
def openai_cont_append (h1 : Heap) (b ma : Nat)
    (collected_text continuation_prompt : List Char) : Option (Heap × PVal) :=
  match append_item (alloc h1 (role_content_obj (txt "assistant")
      collected_text)).1 ma
      (PVal.ref (alloc h1 (role_content_obj (txt "assistant")
        collected_text)).2) with
  | none => none
  | some h2 =>
    match append_item (alloc h2 (role_content_obj (txt "user")
        continuation_prompt)).1 ma
        (PVal.ref (alloc h2 (role_content_obj (txt "user")
          continuation_prompt)).2) with
    | none => none
    | some h3 =>
      match set_key h3 b (txt "messages") (PVal.ref ma) with
      | none => none
      | some h4 => some (h4, PVal.ref b)

/-- `inject_continuation_openai` (lines 127-161): deepcopy, read
`messages` (a fresh empty list when absent), append the assistant
history message and the user continuation message, store `messages`
back, return the copy. -/
def inject_continuation_openai (fuel : Nat) (h : Heap) (body : PVal)
    (collected_text continuation_prompt : List Char) : Option (Heap × PVal) :=
  match copyVal h fuel body with
  | none => none
  | some (_, PVal.str _) => none
  | some (h0, PVal.ref b) =>
    match hGet h0 b with
    | some (PObj.dict fs) =>
      match (match pGet fs (txt "messages") with
             | some (PVal.ref ma) => some (h0, ma)
             | some (PVal.str _) => none
             | none => some ((alloc h0 (PObj.list [])).1,
                 (alloc h0 (PObj.list [])).2)) with
      | none => none
      | some (h1, ma) =>
        openai_cont_append h1 b ma collected_text continuation_prompt
    | _ => none

/-- Tail of `inject_continuation_gemini` (lines 185-196): append the
model history message and the user continuation message (each a fresh
role/parts/text tree), store `contents` back. -/
def gemini_cont_append (h1 : Heap) (b ma : Nat)
    (collected_text continuation_prompt : List Char) : Option (Heap × PVal) :=
  match append_item (alloc_parts_message h1 (txt "model")
      collected_text).1 ma
      (PVal.ref (alloc_parts_message h1 (txt "model")
        collected_text).2) with
  | none => none
  | some h2 =>
    match append_item (alloc_parts_message h2 (txt "user")
        continuation_prompt).1 ma
        (PVal.ref (alloc_parts_message h2 (txt "user")
          continuation_prompt).2) with
    | none => none
    | some h3 =>
      match set_key h3 b (txt "contents") (PVal.ref ma) with
      | none => none
      | some h4 => some (h4, PVal.ref b)

/-- `inject_continuation_gemini` (lines 164-198): deepcopy, read
`contents` (a fresh empty list when absent), append the model history
message and the user continuation message (each a fresh
role/parts/text tree), store `contents` back, return the copy. -/
def inject_continuation_gemini (fuel : Nat) (h : Heap) (body : PVal)
    (collected_text continuation_prompt : List Char) : Option (Heap × PVal) :=
  match copyVal h fuel body with
  | none => none
  | some (_, PVal.str _) => none
  | some (h0, PVal.ref b) =>
    match hGet h0 b with
    | some (PObj.dict fs) =>
      match (match pGet fs (txt "contents") with
             | some (PVal.ref ma) => some (h0, ma)
             | some (PVal.str _) => none
             | none => some ((alloc h0 (PObj.list [])).1,
                 (alloc h0 (PObj.list [])).2)) with
      | none => none
      | some (h1, ma) =>
        gemini_cont_append h1 b ma collected_text continuation_prompt
    | _ => none

/-- `inject_continuation_claude` (lines 201-235): identical to the
OpenAI continuation injector (`messages`, assistant + user). -/
def inject_continuation_claude (fuel : Nat) (h : Heap) (body : PVal)
    (collected_text continuation_prompt : List Char) : Option (Heap × PVal) :=
  inject_continuation_openai fuel h body collected_text continuation_prompt

theorem role_content_obj_hi (n : Nat) (role content : List Char) :
    objHi n (role_content_obj role content) := by
  intro f hf
  rcases List.mem_cons.mp hf with rfl | hf2
  · trivial
  · rcases List.mem_cons.mp hf2 with rfl | hf3
    · trivial
    · simp at hf3

theorem text_obj_hi (n : Nat) (text : List Char) : objHi n (text_obj text) := by
  intro f hf
  rcases List.mem_cons.mp hf with rfl | hf2
  · trivial
  · simp at hf2

theorem type_text_obj_hi (n : Nat) (text : List Char) :
    objHi n (type_text_obj text) := by
  intro f hf
  rcases List.mem_cons.mp hf with rfl | hf2
  · trivial
  · rcases List.mem_cons.mp hf2 with rfl | hf3
    · trivial
    · simp at hf3

theorem empty_list_obj_hi (n : Nat) : objHi n (PObj.list []) := by
  intro w hw
  simp at hw

theorem empty_dict_obj_hi (n : Nat) : objHi n (PObj.dict []) := by
  intro f hf
  simp at hf

theorem alloc_parts_message_hext (n : Nat) (horig h : Heap) (hx : HExt n horig h)
    (role text : List Char) :
    HExt n horig (alloc_parts_message h role text).1 ∧
      n ≤ (alloc_parts_message h role text).2 := by
  unfold alloc_parts_message
  dsimp only
  have hx1 : HExt n horig (alloc h (text_obj text)).1 :=
    hext_alloc n horig h hx _ (text_obj_hi n text)
  have hx2 : HExt n horig (alloc (alloc h (text_obj text)).1
      (PObj.list [PVal.ref (alloc h (text_obj text)).2])).1 := by
    refine hext_alloc n horig _ hx1 _ ?_
    intro w hw
    rcases List.mem_cons.mp hw with rfl | hw2
    · show n ≤ h.next
      exact hx.2.1
    · simp at hw2
  constructor
  · refine hext_alloc n horig _ hx2 _ ?_
    intro f hf
    rcases List.mem_cons.mp hf with rfl | hf2
    · trivial
    · rcases List.mem_cons.mp hf2 with rfl | hf3
      · show n ≤ (alloc h (text_obj text)).1.next
        exact hx1.2.1
      · simp at hf3
  · show n ≤ (alloc (alloc h (text_obj text)).1
      (PObj.list [PVal.ref (alloc h (text_obj text)).2])).1.next
    exact hx2.2.1

theorem openai_insert_new_system_hext (marker : List Char) (n : Nat)
    (horig h : Heap) (hx : HExt n horig h) (b ma : Nat) (hb : n ≤ b)
    (hma : n ≤ ma) (h1 : Heap) (b1 : PVal)
    (hr : openai_insert_new_system marker h b ma = some (h1, b1)) :
    HExt n horig h1 := by
  unfold openai_insert_new_system at hr
  rcases hif : insert_front (alloc h (role_content_obj (txt "system")
      (injection_instruction marker))).1 ma
      (PVal.ref (alloc h (role_content_obj (txt "system")
        (injection_instruction marker))).2) with _ | h2
  · rw [hif] at hr
    exact absurd hr (by simp)
  · rw [hif] at hr
    dsimp only at hr
    have hxa : HExt n horig (alloc h (role_content_obj (txt "system")
        (injection_instruction marker))).1 :=
      hext_alloc n horig h hx _ (role_content_obj_hi n _ _)
    have hx2 : HExt n horig h2 :=
      insert_front_hext n horig _ hxa ma hma
        (PVal.ref (alloc h (role_content_obj (txt "system")
          (injection_instruction marker))).2) hx.2.1 h2 hif
    rcases hsk : set_key h2 b (txt "messages") (PVal.ref ma) with _ | h3
    · rw [hsk] at hr
      exact absurd hr (by simp)
    · rw [hsk] at hr
      dsimp only at hr
      simp only [Option.some.injEq, Prod.mk.injEq] at hr
      obtain ⟨rfl, _⟩ := hr
      exact set_key_hext n horig h2 hx2 b hb _ (PVal.ref ma) hma h3 hsk

theorem inject_done_marker_instruction_openai_hext (marker : List Char)
    (fuel : Nat) (h : Heap) (hwf : heapWF h) (body : PVal) (h1 : Heap) (b1 : PVal)
    (hr : inject_done_marker_instruction_openai marker fuel h body
      = some (h1, b1)) :
    HExt h.next h h1 := by
  unfold inject_done_marker_instruction_openai at hr
  rcases hcv : copyVal h fuel body with _ | r
  · rw [hcv] at hr
    exact absurd hr (by simp)
  · rw [hcv] at hr
    rcases r with ⟨h0, bc⟩
    obtain ⟨hx0, hhi0⟩ := copyVal_hext h.next h fuel h body h0 bc
      (hext_refl h hwf) hcv
    cases bc with
    | str s =>
      dsimp only at hr
      exact absurd hr (by simp)
    | ref b =>
      dsimp only at hr
      have hb : h.next ≤ b := hhi0
      rcases hgb : hGet h0 b with _ | ob
      · rw [hgb] at hr
        exact absurd hr (by simp)
      · rw [hgb] at hr
        cases ob with
        | list xs =>
          dsimp only at hr
          exact absurd hr (by simp)
        | dict fs =>
          dsimp only at hr
          rcases hpm : pGet fs (txt "messages") with _ | mv
          · rw [hpm] at hr
            dsimp only at hr
            have hx1 : HExt h.next h (alloc h0 (PObj.list [])).1 :=
              hext_alloc h.next h h0 hx0 _ (empty_list_obj_hi h.next)
            exact openai_insert_new_system_hext marker h.next h _ hx1 b _ hb
              (show h.next ≤ h0.next from hx0.2.1) h1 b1 hr
          · rw [hpm] at hr
            cases mv with
            | str s =>
              dsimp only at hr
              exact absurd hr (by simp)
            | ref ma =>
              dsimp only at hr
              have hma : h.next ≤ ma := by
                obtain ⟨f, hf, hf2⟩ := pGet_mem hpm
                have hv := hx0.2.2 b hb _ hgb f hf
                rw [hf2] at hv
                exact hv
              rcases hgm : hGet h0 ma with _ | om
              · rw [hgm] at hr
                exact absurd hr (by simp)
              · rw [hgm] at hr
                cases om with
                | dict gs =>
                  dsimp only at hr
                  exact absurd hr (by simp)
                | list items =>
                  dsimp only at hr
                  cases items with
                  | nil =>
                    exact openai_insert_new_system_hext marker h.next h h0 hx0
                      b ma hb hma h1 b1 hr
                  | cons first restI =>
                    cases first with
                    | str s =>
                      dsimp only at hr
                      exact absurd hr (by simp)
                    | ref fa =>
                      dsimp only at hr
                      have hfa : h.next ≤ fa :=
                        hx0.2.2 ma hma _ hgm (PVal.ref fa)
                          (List.mem_cons_self _ _)
                      rcases hgf : hGet h0 fa with _ | og
                      · rw [hgf] at hr
                        exact absurd hr (by simp)
                      · rw [hgf] at hr
                        cases og with
                        | list zs =>
                          dsimp only at hr
                          exact absurd hr (by simp)
                        | dict ffs =>
                          dsimp only at hr
                          split at hr
                          · rcases hec : (pGet ffs (txt "content")).getD
                                (PVal.str []) with ec | ra
                            · rw [hec] at hr
                              dsimp only at hr
                              rcases hsk1 : set_key h0 fa (txt "content")
                                  (PVal.str (injection_instruction marker ++
                                    txt "\n\n" ++ ec)) with _ | h2
                              · rw [hsk1] at hr
                                exact absurd hr (by simp)
                              · rw [hsk1] at hr
                                dsimp only at hr
                                have hx2 : HExt h.next h h2 :=
                                  set_key_hext h.next h h0 hx0 fa hfa _
                                    (PVal.str _) trivial h2 hsk1
                                rcases hsk2 : set_key h2 b (txt "messages")
                                    (PVal.ref ma) with _ | h3
                                · rw [hsk2] at hr
                                  exact absurd hr (by simp)
                                · rw [hsk2] at hr
                                  dsimp only at hr
                                  simp only [Option.some.injEq,
                                    Prod.mk.injEq] at hr
                                  obtain ⟨rfl, _⟩ := hr
                                  exact set_key_hext h.next h h2 hx2 b hb _
                                    (PVal.ref ma) hma h3 hsk2
                            · rw [hec] at hr
                              dsimp only at hr
                              exact absurd hr (by simp)
                          · exact openai_insert_new_system_hext marker h.next
                              h h0 hx0 b ma hb hma h1 b1 hr

theorem gemini_with_parts_hext (marker : List Char) (n : Nat) (horig h2 : Heap)
    (hx2 : HExt n horig h2) (b sa pa : Nat) (hb : n ≤ b) (hsa : n ≤ sa)
    (hpa : n ≤ pa) (h1 : Heap) (b1 : PVal)
    (hr : gemini_with_parts marker h2 b sa pa = some (h1, b1)) :
    HExt n horig h1 := by
  unfold gemini_with_parts at hr
  rcases hif : insert_front (alloc h2 (text_obj
      (injection_instruction marker))).1 pa
      (PVal.ref (alloc h2 (text_obj (injection_instruction marker))).2)
    with _ | h3
  · rw [hif] at hr
    exact absurd hr (by simp)
  · rw [hif] at hr
    dsimp only at hr
    have hxa : HExt n horig (alloc h2 (text_obj
        (injection_instruction marker))).1 :=
      hext_alloc n horig h2 hx2 _ (text_obj_hi n _)
    have hx3 : HExt n horig h3 :=
      insert_front_hext n horig _ hxa pa hpa
        (PVal.ref (alloc h2 (text_obj (injection_instruction marker))).2)
        hx2.2.1 h3 hif
    rcases hsk1 : set_key h3 sa (txt "parts") (PVal.ref pa) with _ | h4
    · rw [hsk1] at hr
      exact absurd hr (by simp)
    · rw [hsk1] at hr
      dsimp only at hr
      have hx4 : HExt n horig h4 :=
        set_key_hext n horig h3 hx3 sa hsa _ (PVal.ref pa) hpa h4 hsk1
      rcases hsk2 : set_key h4 b (txt "systemInstruction") (PVal.ref sa)
        with _ | h5
      · rw [hsk2] at hr
        exact absurd hr (by simp)
      · rw [hsk2] at hr
        dsimp only at hr
        simp only [Option.some.injEq, Prod.mk.injEq] at hr
        obtain ⟨rfl, _⟩ := hr
        exact set_key_hext n horig h4 hx4 b hb _ (PVal.ref sa) hsa h5 hsk2

theorem gemini_with_si_hext (marker : List Char) (n : Nat) (horig hmid : Heap)
    (hx1 : HExt n horig hmid) (b sa : Nat) (hb : n ≤ b) (hsa : n ≤ sa)
    (h1 : Heap) (b1 : PVal)
    (hr : gemini_with_si marker hmid b sa = some (h1, b1)) :
    HExt n horig h1 := by
  unfold gemini_with_si at hr
  rcases hgs : hGet hmid sa with _ | os
  · rw [hgs] at hr
    exact absurd hr (by simp)
  · rw [hgs] at hr
    cases os with
    | list xs =>
      dsimp only at hr
      exact absurd hr (by simp)
    | dict sfs =>
      dsimp only at hr
      rcases hpp : pGet sfs (txt "parts") with _ | pv
      · rw [hpp] at hr
        dsimp only at hr
        have hxa : HExt n horig (alloc hmid (PObj.list [])).1 :=
          hext_alloc n horig hmid hx1 _ (empty_list_obj_hi n)
        exact gemini_with_parts_hext marker n horig _ hxa b sa _ hb hsa
          hx1.2.1 h1 b1 hr
      · rw [hpp] at hr
        cases pv with
        | str s =>
          dsimp only at hr
          exact absurd hr (by simp)
        | ref pa =>
          dsimp only at hr
          have hpa : n ≤ pa := by
            obtain ⟨f, hf, hf2⟩ := pGet_mem hpp
            have hv := hx1.2.2 sa hsa _ hgs f hf
            rw [hf2] at hv
            exact hv
          exact gemini_with_parts_hext marker n horig hmid hx1 b sa pa hb hsa
            hpa h1 b1 hr

theorem inject_done_marker_instruction_gemini_hext (marker : List Char)
    (fuel : Nat) (h : Heap) (hwf : heapWF h) (body : PVal) (h1 : Heap) (b1 : PVal)
    (hr : inject_done_marker_instruction_gemini marker fuel h body
      = some (h1, b1)) :
    HExt h.next h h1 := by
  unfold inject_done_marker_instruction_gemini at hr
  rcases hcv : copyVal h fuel body with _ | r
  · rw [hcv] at hr
    exact absurd hr (by simp)
  · rw [hcv] at hr
    rcases r with ⟨h0, bc⟩
    obtain ⟨hx0, hhi0⟩ := copyVal_hext h.next h fuel h body h0 bc
      (hext_refl h hwf) hcv
    cases bc with
    | str s =>
      dsimp only at hr
      exact absurd hr (by simp)
    | ref b =>
      dsimp only at hr
      have hb : h.next ≤ b := hhi0
      rcases hgb : hGet h0 b with _ | ob
      · rw [hgb] at hr
        exact absurd hr (by simp)
      · rw [hgb] at hr
        cases ob with
        | list xs =>
          dsimp only at hr
          exact absurd hr (by simp)
        | dict fs =>
          dsimp only at hr
          rcases hps : pGet fs (txt "systemInstruction") with _ | sv
          · rw [hps] at hr
            dsimp only at hr
            have hxa : HExt h.next h (alloc h0 (PObj.dict [])).1 :=
              hext_alloc h.next h h0 hx0 _ (empty_dict_obj_hi h.next)
            exact gemini_with_si_hext marker h.next h _ hxa b _ hb
              hx0.2.1 h1 b1 hr
          · rw [hps] at hr
            cases sv with
            | str s =>
              dsimp only at hr
              exact absurd hr (by simp)
            | ref sa =>
              dsimp only at hr
              have hsa : h.next ≤ sa := by
                obtain ⟨f, hf, hf2⟩ := pGet_mem hps
                have hv := hx0.2.2 b hb _ hgb f hf
                rw [hf2] at hv
                exact hv
              exact gemini_with_si_hext marker h.next h h0 hx0 b sa hb hsa
                h1 b1 hr

theorem inject_done_marker_instruction_claude_hext (marker : List Char)
    (fuel : Nat) (h : Heap) (hwf : heapWF h) (body : PVal) (h1 : Heap) (b1 : PVal)
    (hr : inject_done_marker_instruction_claude marker fuel h body
      = some (h1, b1)) :
    HExt h.next h h1 := by
  unfold inject_done_marker_instruction_claude at hr
  rcases hcv : copyVal h fuel body with _ | r
  · rw [hcv] at hr
    exact absurd hr (by simp)
  · rw [hcv] at hr
    rcases r with ⟨h0, bc⟩
    obtain ⟨hx0, hhi0⟩ := copyVal_hext h.next h fuel h body h0 bc
      (hext_refl h hwf) hcv
    cases bc with
    | str s =>
      dsimp only at hr
      exact absurd hr (by simp)
    | ref b =>
      dsimp only at hr
      have hb : h.next ≤ b := hhi0
      rcases hgb : hGet h0 b with _ | ob
      · rw [hgb] at hr
        exact absurd hr (by simp)
      · rw [hgb] at hr
        cases ob with
        | list xs =>
          dsimp only at hr
          exact absurd hr (by simp)
        | dict fs =>
          dsimp only at hr
          rcases hes : (pGet fs (txt "system")).getD (PVal.str []) with es | sa
          · rw [hes] at hr
            dsimp only at hr
            rcases hsk : set_key h0 b (txt "system")
                (PVal.str (if es = [] then injection_instruction marker
                  else injection_instruction marker ++ txt "\n\n" ++ es))
              with _ | h2
            · rw [hsk] at hr
              exact absurd hr (by simp)
            · rw [hsk] at hr
              dsimp only at hr
              simp only [Option.some.injEq, Prod.mk.injEq] at hr
              obtain ⟨rfl, _⟩ := hr
              exact set_key_hext h.next h h0 hx0 b hb _ (PVal.str _) trivial
                h2 hsk
          · rw [hes] at hr
            dsimp only at hr
            have hsa : h.next ≤ sa := by
              rcases hpg : pGet fs (txt "system") with _ | sv
              · rw [hpg] at hes
                exact absurd hes (by simp)
              · rw [hpg] at hes
                obtain ⟨f, hf, hf2⟩ := pGet_mem hpg
                have hv := hx0.2.2 b hb _ hgb f hf
                rw [hf2] at hv
                simp only [Option.getD_some] at hes
                rw [hes] at hv
                exact hv
            rcases hgs : hGet h0 sa with _ | os
            · rw [hgs] at hr
              exact absurd hr (by simp)
            · rw [hgs] at hr
              cases os with
              | dict sfs =>
                dsimp only at hr
                rcases hsk : set_key h0 b (txt "system")
                    (PVal.str (injection_instruction marker)) with _ | h2
                · rw [hsk] at hr
                  exact absurd hr (by simp)
                · rw [hsk] at hr
                  dsimp only at hr
                  simp only [Option.some.injEq, Prod.mk.injEq] at hr
                  obtain ⟨rfl, _⟩ := hr
                  exact set_key_hext h.next h h0 hx0 b hb _ (PVal.str _)
                    trivial h2 hsk
              | list xs =>
                dsimp only at hr
                rcases hif : insert_front (alloc h0 (type_text_obj
                    (injection_instruction marker))).1 sa
                    (PVal.ref (alloc h0 (type_text_obj
                      (injection_instruction marker))).2) with _ | h2
                · rw [hif] at hr
                  exact absurd hr (by simp)
                · rw [hif] at hr
                  dsimp only at hr
                  have hxa : HExt h.next h (alloc h0 (type_text_obj
                      (injection_instruction marker))).1 :=
                    hext_alloc h.next h h0 hx0 _ (type_text_obj_hi h.next _)
                  have hx2 : HExt h.next h h2 :=
                    insert_front_hext h.next h _ hxa sa hsa
                      (PVal.ref (alloc h0 (type_text_obj
                        (injection_instruction marker))).2) hx0.2.1 h2 hif
                  rcases hsk : set_key h2 b (txt "system") (PVal.ref sa)
                    with _ | h3
                  · rw [hsk] at hr
                    exact absurd hr (by simp)
                  · rw [hsk] at hr
                    dsimp only at hr
                    simp only [Option.some.injEq, Prod.mk.injEq] at hr
                    obtain ⟨rfl, _⟩ := hr
                    exact set_key_hext h.next h h2 hx2 b hb _ (PVal.ref sa)
                      hsa h3 hsk

theorem openai_cont_append_hext (n : Nat) (horig hmid : Heap)
    (hx1 : HExt n horig hmid) (b ma : Nat) (hb : n ≤ b) (hma : n ≤ ma)
    (ct cp : List Char) (h1 : Heap) (b1 : PVal)
    (hr : openai_cont_append hmid b ma ct cp = some (h1, b1)) :
    HExt n horig h1 := by
  unfold openai_cont_append at hr
  rcases ha1 : append_item (alloc hmid (role_content_obj (txt "assistant")
      ct)).1 ma
      (PVal.ref (alloc hmid (role_content_obj (txt "assistant") ct)).2)
    with _ | h2
  · rw [ha1] at hr
    exact absurd hr (by simp)
  · rw [ha1] at hr
    dsimp only at hr
    have hxa : HExt n horig (alloc hmid (role_content_obj (txt "assistant")
        ct)).1 :=
      hext_alloc n horig hmid hx1 _ (role_content_obj_hi n _ _)
    have hx2 : HExt n horig h2 :=
      append_item_hext n horig _ hxa ma hma
        (PVal.ref (alloc hmid (role_content_obj (txt "assistant") ct)).2)
        hx1.2.1 h2 ha1
    rcases ha2 : append_item (alloc h2 (role_content_obj (txt "user")
        cp)).1 ma
        (PVal.ref (alloc h2 (role_content_obj (txt "user") cp)).2)
      with _ | h3
    · rw [ha2] at hr
      exact absurd hr (by simp)
    · rw [ha2] at hr
      dsimp only at hr
      have hxb : HExt n horig (alloc h2 (role_content_obj (txt "user")
          cp)).1 :=
        hext_alloc n horig h2 hx2 _ (role_content_obj_hi n _ _)
      have hx3 : HExt n horig h3 :=
        append_item_hext n horig _ hxb ma hma
          (PVal.ref (alloc h2 (role_content_obj (txt "user") cp)).2)
          hx2.2.1 h3 ha2
      rcases hsk : set_key h3 b (txt "messages") (PVal.ref ma) with _ | h4
      · rw [hsk] at hr
        exact absurd hr (by simp)
      · rw [hsk] at hr
        dsimp only at hr
        simp only [Option.some.injEq, Prod.mk.injEq] at hr
        obtain ⟨rfl, _⟩ := hr
        exact set_key_hext n horig h3 hx3 b hb _ (PVal.ref ma) hma h4 hsk

theorem gemini_cont_append_hext (n : Nat) (horig hmid : Heap)
    (hx1 : HExt n horig hmid) (b ma : Nat) (hb : n ≤ b) (hma : n ≤ ma)
    (ct cp : List Char) (h1 : Heap) (b1 : PVal)
    (hr : gemini_cont_append hmid b ma ct cp = some (h1, b1)) :
    HExt n horig h1 := by
  unfold gemini_cont_append at hr
  obtain ⟨hxa, hna⟩ := alloc_parts_message_hext n horig hmid hx1 (txt "model") ct
  rcases ha1 : append_item (alloc_parts_message hmid (txt "model") ct).1 ma
      (PVal.ref (alloc_parts_message hmid (txt "model") ct).2) with _ | h2
  · rw [ha1] at hr
    exact absurd hr (by simp)
  · rw [ha1] at hr
    dsimp only at hr
    have hx2 : HExt n horig h2 :=
      append_item_hext n horig _ hxa ma hma
        (PVal.ref (alloc_parts_message hmid (txt "model") ct).2) hna h2 ha1
    obtain ⟨hxb, hnb⟩ := alloc_parts_message_hext n horig h2 hx2 (txt "user") cp
    rcases ha2 : append_item (alloc_parts_message h2 (txt "user") cp).1 ma
        (PVal.ref (alloc_parts_message h2 (txt "user") cp).2) with _ | h3
    · rw [ha2] at hr
      exact absurd hr (by simp)
    · rw [ha2] at hr
      dsimp only at hr
      have hx3 : HExt n horig h3 :=
        append_item_hext n horig _ hxb ma hma
          (PVal.ref (alloc_parts_message h2 (txt "user") cp).2) hnb h3 ha2
      rcases hsk : set_key h3 b (txt "contents") (PVal.ref ma) with _ | h4
      · rw [hsk] at hr
        exact absurd hr (by simp)
      · rw [hsk] at hr
        dsimp only at hr
        simp only [Option.some.injEq, Prod.mk.injEq] at hr
        obtain ⟨rfl, _⟩ := hr
        exact set_key_hext n horig h3 hx3 b hb _ (PVal.ref ma) hma h4 hsk

theorem inject_continuation_openai_hext (fuel : Nat) (h : Heap) (hwf : heapWF h)
    (body : PVal) (ct cp : List Char) (h1 : Heap) (b1 : PVal)
    (hr : inject_continuation_openai fuel h body ct cp = some (h1, b1)) :
    HExt h.next h h1 := by
  unfold inject_continuation_openai at hr
  rcases hcv : copyVal h fuel body with _ | r
  · rw [hcv] at hr
    exact absurd hr (by simp)
  · rw [hcv] at hr
    rcases r with ⟨h0, bc⟩
    obtain ⟨hx0, hhi0⟩ := copyVal_hext h.next h fuel h body h0 bc
      (hext_refl h hwf) hcv
    cases bc with
    | str s =>
      dsimp only at hr
      exact absurd hr (by simp)
    | ref b =>
      dsimp only at hr
      have hb : h.next ≤ b := hhi0
      rcases hgb : hGet h0 b with _ | ob
      · rw [hgb] at hr
        exact absurd hr (by simp)
      · rw [hgb] at hr
        cases ob with
        | list xs =>
          dsimp only at hr
          exact absurd hr (by simp)
        | dict fs =>
          dsimp only at hr
          rcases hpm : pGet fs (txt "messages") with _ | mv
          · rw [hpm] at hr
            dsimp only at hr
            have hxa : HExt h.next h (alloc h0 (PObj.list [])).1 :=
              hext_alloc h.next h h0 hx0 _ (empty_list_obj_hi h.next)
            exact openai_cont_append_hext h.next h _ hxa b _ hb hx0.2.1
              ct cp h1 b1 hr
          · rw [hpm] at hr
            cases mv with
            | str s =>
              dsimp only at hr
              exact absurd hr (by simp)
            | ref ma =>
              dsimp only at hr
              have hma : h.next ≤ ma := by
                obtain ⟨f, hf, hf2⟩ := pGet_mem hpm
                have hv := hx0.2.2 b hb _ hgb f hf
                rw [hf2] at hv
                exact hv
              exact openai_cont_append_hext h.next h h0 hx0 b ma hb hma
                ct cp h1 b1 hr

theorem inject_continuation_gemini_hext (fuel : Nat) (h : Heap) (hwf : heapWF h)
    (body : PVal) (ct cp : List Char) (h1 : Heap) (b1 : PVal)
    (hr : inject_continuation_gemini fuel h body ct cp = some (h1, b1)) :
    HExt h.next h h1 := by
  unfold inject_continuation_gemini at hr
  rcases hcv : copyVal h fuel body with _ | r
  · rw [hcv] at hr
    exact absurd hr (by simp)
  · rw [hcv] at hr
    rcases r with ⟨h0, bc⟩
    obtain ⟨hx0, hhi0⟩ := copyVal_hext h.next h fuel h body h0 bc
      (hext_refl h hwf) hcv
    cases bc with
    | str s =>
      dsimp only at hr
      exact absurd hr (by simp)
    | ref b =>
      dsimp only at hr
      have hb : h.next ≤ b := hhi0
      rcases hgb : hGet h0 b with _ | ob
      · rw [hgb] at hr
        exact absurd hr (by simp)
      · rw [hgb] at hr
        cases ob with
        | list xs =>
          dsimp only at hr
          exact absurd hr (by simp)
        | dict fs =>
          dsimp only at hr
          rcases hpm : pGet fs (txt "contents") with _ | mv
          · rw [hpm] at hr
            dsimp only at hr
            have hxa : HExt h.next h (alloc h0 (PObj.list [])).1 :=
              hext_alloc h.next h h0 hx0 _ (empty_list_obj_hi h.next)
            exact gemini_cont_append_hext h.next h _ hxa b _ hb hx0.2.1
              ct cp h1 b1 hr
          · rw [hpm] at hr
            cases mv with
            | str s =>
              dsimp only at hr
              exact absurd hr (by simp)
            | ref ma =>
              dsimp only at hr
              have hma : h.next ≤ ma := by
                obtain ⟨f, hf, hf2⟩ := pGet_mem hpm
                have hv := hx0.2.2 b hb _ hgb f hf
                rw [hf2] at hv
                exact hv
              exact gemini_cont_append_hext h.next h h0 hx0 b ma hb hma
                ct cp h1 b1 hr

/-- C8: for every input body and every dialect, both injector
operations - inject the done-marker instruction and inject the
continuation context - operate on a `copy.deepcopy` of the body, so a
successful call leaves every field of the original unmutated: the full
readout of the original body reference from the resulting heap equals
its readout before the call, at every depth.  (`heapWF`/`valLo` say the
input heap is well formed; `isSome` says the call returned rather than
raised; f-string rendering of non-string values is not modelled and
falls under the raising case.) -/
theorem c8_injectors_never_mutate_original :
    (∀ (marker : List Char) (fuel : Nat) (h : Heap) (body : PVal) (rfuel : Nat),
      heapWF h → valLo h.next body →
      (inject_done_marker_instruction_openai marker fuel h body).isSome = true →
      readVal ((inject_done_marker_instruction_openai marker fuel h body).getD
        (h, body)).1 rfuel body = readVal h rfuel body) ∧
    (∀ (marker : List Char) (fuel : Nat) (h : Heap) (body : PVal) (rfuel : Nat),
      heapWF h → valLo h.next body →
      (inject_done_marker_instruction_gemini marker fuel h body).isSome = true →
      readVal ((inject_done_marker_instruction_gemini marker fuel h body).getD
        (h, body)).1 rfuel body = readVal h rfuel body) ∧
    (∀ (marker : List Char) (fuel : Nat) (h : Heap) (body : PVal) (rfuel : Nat),
      heapWF h → valLo h.next body →
      (inject_done_marker_instruction_claude marker fuel h body).isSome = true →
      readVal ((inject_done_marker_instruction_claude marker fuel h body).getD
        (h, body)).1 rfuel body = readVal h rfuel body) ∧
    (∀ (fuel : Nat) (h : Heap) (body : PVal) (ct cp : List Char) (rfuel : Nat),
      heapWF h → valLo h.next body →
      (inject_continuation_openai fuel h body ct cp).isSome = true →
      readVal ((inject_continuation_openai fuel h body ct cp).getD
        (h, body)).1 rfuel body = readVal h rfuel body) ∧
    (∀ (fuel : Nat) (h : Heap) (body : PVal) (ct cp : List Char) (rfuel : Nat),
      heapWF h → valLo h.next body →
      (inject_continuation_gemini fuel h body ct cp).isSome = true →
      readVal ((inject_continuation_gemini fuel h body ct cp).getD
        (h, body)).1 rfuel body = readVal h rfuel body) ∧
    (∀ (fuel : Nat) (h : Heap) (body : PVal) (ct cp : List Char) (rfuel : Nat),
      heapWF h → valLo h.next body →
      (inject_continuation_claude fuel h body ct cp).isSome = true →
      readVal ((inject_continuation_claude fuel h body ct cp).getD
        (h, body)).1 rfuel body = readVal h rfuel body) := by
  refine ⟨?_, ?_, ?_, ?_, ?_, ?_⟩
  · intro marker fuel h body rfuel hwf hlo hs
    rcases he : inject_done_marker_instruction_openai marker fuel h body
      with _ | r
    · rw [he] at hs
      simp at hs
    · rcases r with ⟨h1, b1⟩
      dsimp only [Option.getD]
      exact readVal_of_hext h hwf h1
        (inject_done_marker_instruction_openai_hext marker fuel h hwf body
          h1 b1 he) body hlo rfuel
  · intro marker fuel h body rfuel hwf hlo hs
    rcases he : inject_done_marker_instruction_gemini marker fuel h body
      with _ | r
    · rw [he] at hs
      simp at hs
    · rcases r with ⟨h1, b1⟩
      dsimp only [Option.getD]
      exact readVal_of_hext h hwf h1
        (inject_done_marker_instruction_gemini_hext marker fuel h hwf body
          h1 b1 he) body hlo rfuel
  · intro marker fuel h body rfuel hwf hlo hs
    rcases he : inject_done_marker_instruction_claude marker fuel h body
      with _ | r
    · rw [he] at hs
      simp at hs
    · rcases r with ⟨h1, b1⟩
      dsimp only [Option.getD]
      exact readVal_of_hext h hwf h1
        (inject_done_marker_instruction_claude_hext marker fuel h hwf body
          h1 b1 he) body hlo rfuel
  · intro fuel h body ct cp rfuel hwf hlo hs
    rcases he : inject_continuation_openai fuel h body ct cp with _ | r
    · rw [he] at hs
      simp at hs
    · rcases r with ⟨h1, b1⟩
      dsimp only [Option.getD]
      exact readVal_of_hext h hwf h1
        (inject_continuation_openai_hext fuel h hwf body ct cp h1 b1 he)
        body hlo rfuel
  · intro fuel h body ct cp rfuel hwf hlo hs
    rcases he : inject_continuation_gemini fuel h body ct cp with _ | r
    · rw [he] at hs
      simp at hs
    · rcases r with ⟨h1, b1⟩
      dsimp only [Option.getD]
      exact readVal_of_hext h hwf h1
        (inject_continuation_gemini_hext fuel h hwf body ct cp h1 b1 he)
        body hlo rfuel
  · intro fuel h body ct cp rfuel hwf hlo hs
    rcases he : inject_continuation_claude fuel h body ct cp with _ | r
    · rw [he] at hs
      simp at hs
    · rcases r with ⟨h1, b1⟩
      dsimp only [Option.getD]
      exact readVal_of_hext h hwf h1
        (inject_continuation_openai_hext fuel h hwf body ct cp h1 b1 he)
        body hlo rfuel

/-- A concrete well-formed request heap: the body dict at address 0
with a `messages` list holding one user message. -/
def c8heap : Heap :=
  { objs := [(0, PObj.dict [(txt "model", PVal.str (txt "gpt-4")),
      (txt "messages", PVal.ref 1)]),
    (1, PObj.list [PVal.ref 2]),
    (2, PObj.dict [(txt "role", PVal.str (txt "user")),
      (txt "content", PVal.str (txt "hi"))])],
    next := 3 }

/-- C8 witness: all six injectors, run on the concrete heap, leave the
readout of the original body unchanged. -/
theorem c8_injectors_never_mutate_original_witness :
    (readVal ((inject_done_marker_instruction_openai (txt "[done]") 9 c8heap
        (PVal.ref 0)).getD (c8heap, PVal.ref 0)).1 9 (PVal.ref 0)
      = readVal c8heap 9 (PVal.ref 0)) ∧
    (readVal ((inject_done_marker_instruction_gemini (txt "[done]") 9 c8heap
        (PVal.ref 0)).getD (c8heap, PVal.ref 0)).1 9 (PVal.ref 0)
      = readVal c8heap 9 (PVal.ref 0)) ∧
    (readVal ((inject_done_marker_instruction_claude (txt "[done]") 9 c8heap
        (PVal.ref 0)).getD (c8heap, PVal.ref 0)).1 9 (PVal.ref 0)
      = readVal c8heap 9 (PVal.ref 0)) ∧
    (readVal ((inject_continuation_openai 9 c8heap (PVal.ref 0) (txt "so far")
        (txt "continue")).getD (c8heap, PVal.ref 0)).1 9 (PVal.ref 0)
      = readVal c8heap 9 (PVal.ref 0)) ∧
    (readVal ((inject_continuation_gemini 9 c8heap (PVal.ref 0) (txt "so far")
        (txt "continue")).getD (c8heap, PVal.ref 0)).1 9 (PVal.ref 0)
      = readVal c8heap 9 (PVal.ref 0)) ∧
    (readVal ((inject_continuation_claude 9 c8heap (PVal.ref 0) (txt "so far")
        (txt "continue")).getD (c8heap, PVal.ref 0)).1 9 (PVal.ref 0)
      = readVal c8heap 9 (PVal.ref 0)) :=
  ⟨c8_injectors_never_mutate_original.1 (txt "[done]") 9 c8heap (PVal.ref 0) 9
      (by decide) (by decide) (by rfl),
   c8_injectors_never_mutate_original.2.1 (txt "[done]") 9 c8heap (PVal.ref 0) 9
      (by decide) (by decide) (by rfl),
   c8_injectors_never_mutate_original.2.2.1 (txt "[done]") 9 c8heap
      (PVal.ref 0) 9 (by decide) (by decide) (by rfl),
   c8_injectors_never_mutate_original.2.2.2.1 9 c8heap (PVal.ref 0)
      (txt "so far") (txt "continue") 9 (by decide) (by decide) (by rfl),
   c8_injectors_never_mutate_original.2.2.2.2.1 9 c8heap (PVal.ref 0)
      (txt "so far") (txt "continue") 9 (by decide) (by decide) (by rfl),
   c8_injectors_never_mutate_original.2.2.2.2.2 9 c8heap (PVal.ref 0)
      (txt "so far") (txt "continue") 9 (by decide) (by decide) (by rfl)⟩
